import Mathlib

/-!
Verification of the CavrocPebbl configuration codec (`src/utils.py`).

This file shallowly embeds the parts of the repository that the claims
C1..C10 are about: the value formatter `ConfigBuilder.config_line`, the
structural emitters (`subheading`, `add_section_recursive`), the field
lookup / coercion layer (`get_value`, `mapped_value`), the template
resolver (`resolve_placeholders`) and the two decoders
(`find_matching_objects`, `find_matching_objects_from_dict`).

Python strings are modelled as `List Char` (ASCII data); each regular
expression used by the source is translated into an explicit scanning
function whose semantics is spelled out next to it.
-/

/-- ASCII lower-casing of one character (model of `str.lower` on ASCII data). -/
def low (c : Char) : Char :=
  if 'A' ≤ c ∧ c ≤ 'Z' then Char.ofNat (c.toNat + 32) else c

/-- Lower-case a character list. -/
def lowL (l : List Char) : List Char := l.map low

/-- Python whitespace characters (`str.strip`, `\s` on ASCII data). -/
def isWsChar (c : Char) : Bool :=
  c = ' ' ∨ c = '\t' ∨ c = '\n' ∨ c = '\x0d' ∨ c = '\x0b' ∨ c = '\x0c'

/-- ASCII decimal digit test (`\d`, `str.isdigit` on ASCII data). -/
def isDigitChar (c : Char) : Bool := '0' ≤ c ∧ c ≤ '9'

/-- Word character test (`\w` and `[\w\d_]` on ASCII data). -/
def isWordChar (c : Char) : Bool :=
  ('a' ≤ c ∧ c ≤ 'z') ∨ ('A' ≤ c ∧ c ≤ 'Z') ∨ isDigitChar c ∨ c = '_'

/-- Strip characters satisfying `p` from the front of a list. -/
def dropWhileP (p : Char → Bool) (l : List Char) : List Char := l.dropWhile p

/-- Model of Python `str.strip()` (no arguments: strip whitespace at both ends). -/
def pyStripL (l : List Char) : List Char :=
  ((l.dropWhile isWsChar).reverse.dropWhile isWsChar).reverse

/-- Model of Python `str.strip(cs)` for a set of characters `cs`. -/
def pyStripCharsL (cs : List Char) (l : List Char) : List Char :=
  ((l.dropWhile (cs.contains ·)).reverse.dropWhile (cs.contains ·)).reverse

/-- Model of Python `str.rstrip(c)` for a single character. -/
def pyRstripL (c : Char) (l : List Char) : List Char :=
  (l.reverse.dropWhile (· = c)).reverse

/-- Case-insensitive prefix test on character lists. -/
def ciPrefix (pat l : List Char) : Bool := lowL pat |>.isPrefixOf (lowL l)

/-- Case-insensitive substring test: `pat.lower() in l.lower()` for `List Char`. -/
def ciSub (pat l : List Char) : Bool := decide (lowL pat <:+: lowL l)

/-- Decimal digit of value `d` (0-9) as a character. -/
def digitChar10 (d : Nat) : Char :=
  match d with
  | 0 => '0' | 1 => '1' | 2 => '2' | 3 => '3' | 4 => '4'
  | 5 => '5' | 6 => '6' | 7 => '7' | 8 => '8' | _ => '9'

/-- Numeric value of a decimal digit character. -/
def charVal (c : Char) : Nat := c.toNat - 48

/-- Little-endian base-10 digits with explicit fuel (structurally recursive so
that concrete runs reduce by `rfl`/`decide`). -/
def digitsLE : Nat → Nat → List Nat
  | 0, _ => []
  | f + 1, n => if n = 0 then [] else n % 10 :: digitsLE f (n / 10)

/-- Decimal representation of a natural number, as Python `str(n)` produces it. -/
def natChars (n : Nat) : List Char :=
  if n = 0 then ['0'] else ((digitsLE n n).reverse.map digitChar10)

/-- Big-endian decimal parse of a digit-character list. -/
def parseDig (l : List Char) : Nat := l.foldl (fun a c => 10 * a + charVal c) 0

theorem digitsLE_eq_digits (f n : Nat) (h : n ≤ f) : digitsLE f n = Nat.digits 10 n := by
  induction f generalizing n with
  | zero => interval_cases n; simp [digitsLE]
  | succ f ih =>
    by_cases hn : n = 0
    · simp [digitsLE, hn]
    · have hdiv : n / 10 < n := Nat.div_lt_self (Nat.pos_of_ne_zero hn) (by norm_num)
      rw [digitsLE, if_neg hn, Nat.digits_def' (by norm_num : 1 < 10) (Nat.pos_of_ne_zero hn),
        ih (n / 10) (by omega)]

theorem charVal_digitChar10 (d : Nat) (h : d < 10) : charVal (digitChar10 d) = d := by
  interval_cases d <;> decide

theorem isDigitChar_digitChar10 (d : Nat) (h : d < 10) : isDigitChar (digitChar10 d) = true := by
  interval_cases d <;> decide

theorem parseDig_natChars (n : Nat) : parseDig (natChars n) = n := by
  by_cases hn : n = 0
  · simp [hn, natChars, parseDig, charVal]
  · have hd : digitsLE n n = Nat.digits 10 n := digitsLE_eq_digits n n le_rfl
    have hlt : ∀ d ∈ Nat.digits 10 n, d < 10 := fun d hdm => Nat.digits_lt_base (by norm_num) hdm
    rw [natChars, if_neg hn, hd, parseDig, List.foldl_map, List.foldl_reverse]
    have : ∀ (ds : List Nat), (∀ d ∈ ds, d < 10) →
        ds.foldr (fun c a => 10 * a + charVal (digitChar10 c)) 0 = Nat.ofDigits 10 ds := by
      intro ds hds
      induction ds with
      | nil => simp [Nat.ofDigits]
      | cons d ds ih =>
        simp only [List.foldr_cons, Nat.ofDigits_cons,
          ih (fun x hx => hds x (List.mem_cons_of_mem d hx)),
          charVal_digitChar10 d (hds d (List.mem_cons_self d ds))]
        ring
    rw [this (Nat.digits 10 n) hlt, Nat.ofDigits_digits]

theorem natChars_all_digit (n : Nat) : ∀ c ∈ natChars n, isDigitChar c = true := by
  intro c hc
  by_cases hn : n = 0
  · simp only [natChars, hn, if_pos, List.mem_singleton, if_true, reduceIte] at hc
    rw [hc]; decide
  · rw [natChars, if_neg hn, digitsLE_eq_digits n n le_rfl] at hc
    rcases List.mem_map.mp hc with ⟨d, hd, rfl⟩
    exact isDigitChar_digitChar10 d (Nat.digits_lt_base (by norm_num) (List.mem_reverse.mp hd))

theorem natChars_ne_nil (n : Nat) : natChars n ≠ [] := by
  by_cases hn : n = 0
  · rw [hn]; simp [natChars]
  · rw [natChars, if_neg hn, digitsLE_eq_digits n n le_rfl]
    intro h
    have hne : Nat.digits 10 n ≠ [] := Nat.digits_ne_nil_iff_ne_zero.mpr hn
    rw [← List.length_eq_zero] at h
    simp only [List.length_map, List.length_reverse, List.length_eq_zero] at h
    exact hne h

theorem natChars_injective : Function.Injective natChars := by
  intro a b h
  have := parseDig_natChars a
  rw [h, parseDig_natChars] at this
  exact this.symm

/-- Lower-case a string (ASCII model of `str.lower`). -/
def lowStr (s : String) : String := String.mk (lowL s.toList)

/-- Python `in` on strings (case-sensitive substring test). -/
def inStr (pat s : String) : Bool := decide (pat.toList <:+: s.toList)

/-- Python `str.startswith`. -/
def strSW (s pat : String) : Bool := pat.toList.isPrefixOf s.toList

/-- Python `str.endswith`. -/
def strEW (s pat : String) : Bool := pat.toList.isSuffixOf s.toList

/-- Upper-case one ASCII character (`str.upper` on a single character). -/
def upChar (c : Char) : Char :=
  if 'a' ≤ c ∧ c ≤ 'z' then Char.ofNat (c.toNat - 32) else c

/-- Members of `enums.FaultDirection`, in declaration order
(`Top, Down, North, South, East, West`). -/
inductive FD | top | down | north | south | east | west
deriving DecidableEq, Repr

/-- Members of `enums.DomainType`, in declaration order (`Soil, Rock`). -/
inductive DT | soil | rock
deriving DecidableEq, Repr

/-- Members of `enums.DensificationLevel`, in declaration order. -/
inductive DL | noDens | minimum | intermediate | maximum
deriving DecidableEq, Repr

/-- Members of `enums.InsituStressType`, in declaration order. -/
inductive IST | simple | minimum | intermediate | maximum
deriving DecidableEq, Repr

/-- An enum member of one of the `BubbleEnum` subclasses that flow through the
codec.  Every one of these classes defines `label`, `value` (db key),
`numeric_value` and `first_letter()`; none of them defines a `letter`
attribute. -/
inductive PyEnum
| fd (d : FD) | dt (t : DT) | dl (l : DL) | ist (s : IST)
deriving DecidableEq, Repr

/-- The `value` (db key) of an enum member, from `enums.py`. -/
def enumDbValue : PyEnum → String
| .fd .top => "top" | .fd .down => "down" | .fd .north => "north"
| .fd .south => "south" | .fd .east => "east" | .fd .west => "west"
| .dt .soil => "soil" | .dt .rock => "rock"
| .dl .noDens => "no_densification" | .dl .minimum => "minimum_densification"
| .dl .intermediate => "internmediate_densification" | .dl .maximum => "maximum_densification"
| .ist .simple => "simple" | .ist .minimum => "minimum"
| .ist .intermediate => "intermediate" | .ist .maximum => "maximum"

/-- The Python member name of an enum member. -/
def enumName : PyEnum → String
| .fd .top => "Top" | .fd .down => "Down" | .fd .north => "North"
| .fd .south => "South" | .fd .east => "East" | .fd .west => "West"
| .dt .soil => "Soil" | .dt .rock => "Rock"
| .dl .noDens => "No" | .dl .minimum => "Minimum"
| .dl .intermediate => "Intermediate" | .dl .maximum => "Maximum"
| .ist .simple => "Simple" | .ist .minimum => "Minimum"
| .ist .intermediate => "Intermediate" | .ist .maximum => "Maximum"

/-- The `label` of an enum member, from `enums.py`. -/
def enumLabel : PyEnum → String
| .dl .noDens => "No Densification" | .dl .minimum => "Minimum Densification"
| .dl .intermediate => "Intermediate Densification" | .dl .maximum => "Maximum Densification"
| e => enumName e

/-- `BubbleEnum.numeric_value`: the 1-based position of the member in its class. -/
def enumNumeric : PyEnum → Int
| .fd .top => 1 | .fd .down => 2 | .fd .north => 3
| .fd .south => 4 | .fd .east => 5 | .fd .west => 6
| .dt .soil => 1 | .dt .rock => 2
| .dl .noDens => 1 | .dl .minimum => 2 | .dl .intermediate => 3 | .dl .maximum => 4
| .ist .simple => 1 | .ist .minimum => 2 | .ist .intermediate => 3 | .ist .maximum => 4

/-- `BubbleEnum.first_letter()`: first character of the db value, upper-cased. -/
def enumFirstLetter (e : PyEnum) : String :=
  match (enumDbValue e).toList with
  | [] => ""
  | c :: _ => String.mk [upChar c]

/-- Python `str()` of an enum member (`ClassName.MemberName`). -/
def enumStr : PyEnum → String
| .fd d => "FaultDirection." ++ enumName (.fd d)
| .dt t => "DomainType." ++ enumName (.dt t)
| .dl l => "DensificationLevel." ++ enumName (.dl l)
| .ist s => "InsituStressType." ++ enumName (.ist s)

/-- A Python value flowing through the codec.  A float is represented by the
three observations the code makes of it: `str(x)` (its repr), the fixed
ten-decimal rendering `f-string .10f`, and `int(x)` (truncation). -/
inductive Value
| vNone
| vBool (b : Bool)
| vInt (n : Int)
| vFloat (reprS fixed10 : String) (trunc : Int)
| vStr (s : String)
| vEnum (e : PyEnum)
deriving DecidableEq, Repr

/-- Python `str(n)` for an integer. -/
def intStr : Int → String
| .ofNat m => String.mk (natChars m)
| .negSucc m => "-" ++ String.mk (natChars (m + 1))

/-- Python `str()` of a modelled value. -/
def pyStr : Value → String
| .vNone => "None"
| .vBool true => "True"
| .vBool false => "False"
| .vInt n => intStr n
| .vFloat r _ _ => r
| .vStr s => s
| .vEnum e => enumStr e

/-- Python truthiness of a modelled value (a float is falsy exactly when it
equals `0.0`, i.e. its repr is `0.0` or `-0.0`). -/
def truthy : Value → Bool
| .vNone => false
| .vBool b => b
| .vInt n => n ≠ 0
| .vFloat r _ _ => ¬(r = "0.0" ∨ r = "-0.0")
| .vStr s => s ≠ ""
| .vEnum _ => true

/-- Members of `FaultDirection`, in declaration order. -/
def fdMembers : List FD := [.top, .down, .north, .south, .east, .west]

/-- Names of `FaultDirection.__members__`. -/
def fdMemberNames : List String := ["Top", "Down", "North", "South", "East", "West"]

/-- Model of `bubble_base.parse_enum(FaultDirection, value, default=None)`.
A member matches on its db value, member name or label (label and name
coincide for `FaultDirection`); integers (and booleans, which are ints in
Python) fall back to the 1-based member-order lookup; `None` and the empty
string yield the default `None`. -/
def parseEnumFD : Value → Option FD
| .vNone => none
| .vStr s =>
  if s = "" then none
  else fdMembers.find? (fun m =>
    s = enumDbValue (.fd m) ∨ s = enumName (.fd m) ∨ s = enumLabel (.fd m))
| .vEnum (.fd d) => some d
| .vEnum _ => none
| .vInt n => if 1 ≤ n ∧ n ≤ 6 then fdMembers.get? (n - 1).toNat else none
| .vBool b => if b then some .top else none
| .vFloat _ _ _ => none

/-- The direction-name-to-letter dict shared by the direction coercions. -/
def dirTbl : List (String × String) :=
  [("Top", "T"), ("Down", "D"), ("North", "N"), ("South", "S"), ("East", "E"), ("West", "W")]

/-- The fixed direction-name-to-letter table used by `mapped_value`
(case-sensitive first, then a lower-cased pass, defaulting to `"T"`). -/
def directionLetter (s : String) : String :=
  match dirTbl.find? (fun p => p.1 = s) with
  | some p => p.2
  | none =>
    match dirTbl.find? (fun p => lowStr s = lowStr p.1) with
    | some p => p.2
    | none => "T"

/-- The 12-entry exact-match direction dict used by `config_line` for
`anisotropy_surface_normal_direction` keys (capitalised and lower-case
spellings only). -/
def anisoTbl : List (String × String) :=
  [("Top", "T"), ("Down", "D"), ("North", "N"), ("South", "S"), ("East", "E"), ("West", "W"),
   ("top", "T"), ("down", "D"), ("north", "N"), ("south", "S"), ("east", "E"), ("west", "W")]

/-- Exact-match lookup in the 12-entry direction table. -/
def anisoLetter (s : String) : Option String :=
  (anisoTbl.find? (fun p => p.1 = s)).map (fun p => p.2)

/-- Accumulating parser for a digit run that may contain single underscores
between digits (the grammar `int()` and `float()` exponents accept). -/
def digitsUndAux (acc : Nat) : List Char → Option Nat
| [] => some acc
| c :: rest =>
  if isDigitChar c then digitsUndAux (10 * acc + charVal c) rest
  else if c = '_' then
    match rest with
    | [] => none
    | d :: _ => if isDigitChar d then digitsUndAux acc rest else none
  else none

/-- Value of a Python digit run with optional single underscores between
digits; `none` when the run is malformed. -/
def digitsUndVal (l : List Char) : Option Nat :=
  match l with
  | [] => none
  | c :: _ => if isDigitChar c then digitsUndAux 0 l else none


/-- Model of Python `int(s)` for a string: optional surrounding whitespace,
optional sign, digit run with optional single underscores. -/
def pyIntOfString (s : String) : Option Int :=
  let t := pyStripL s.toList
  match t with
  | '+' :: rest => (digitsUndVal rest).map Int.ofNat
  | '-' :: rest => (digitsUndVal rest).map (fun n => -(Int.ofNat n : Int))
  | _ => (digitsUndVal t).map Int.ofNat

/-- Model of Python `int(x)` over modelled values (`TypeError`/`ValueError`
become `none`).  Booleans are ints in Python; enums of this codebase are not
`IntEnum`s, so `int()` raises on them. -/
def pyIntOf : Value → Option Int
| .vInt n => some n
| .vBool b => some (if b then 1 else 0)
| .vFloat _ _ t => some t
| .vStr s => pyIntOfString s
| .vNone => none
| .vEnum _ => none

/-- Result of `float(s)` plus the two renderings the formatter observes.
`err` is a `ValueError`; `oob` marks exponents above 300, outside the range
this model certifies against CPython. -/
inductive FloatParse
| obs (r f10 : String)
| err
| oob
deriving DecidableEq, Repr

/-- A run of `n` zero characters. -/
def zeros (n : Nat) : List Char := List.replicate n '0'

/-- CPython `repr(float("1e-" + str(n)))` for `0 ≤ n ≤ 300`: plain decimal up
to `1e-4` (`0.0001`), scientific with a two-digit-padded exponent from `1e-05`. -/
def sciRepr (n : Nat) : String :=
  if n = 0 then "1.0"
  else if n ≤ 4 then String.mk ('0' :: '.' :: (zeros (n - 1) ++ ['1']))
  else if n < 10 then String.mk ('1' :: 'e' :: '-' :: '0' :: natChars n)
  else String.mk ('1' :: 'e' :: '-' :: natChars n)

/-- CPython f-string rendering with ten decimals of `float("1e-" + str(n))`. -/
def sciFixed (n : Nat) : String :=
  if n = 0 then "1.0000000000"
  else if n ≤ 10 then String.mk ('0' :: '.' :: (zeros (n - 1) ++ '1' :: zeros (10 - n)))
  else "0.0000000000"

/-- Model of `float(s)` (with its observable renderings) for the strings the
formatter sends there: those whose lower-case form starts with `1e-`.
CPython `float()` ignores trailing whitespace and accepts single underscores
between exponent digits. -/
def pyFloatSci (s : String) : FloatParse :=
  let t := (s.toList.reverse.dropWhile isWsChar).reverse
  match digitsUndVal (lowL (t.drop 3)) with
  | none => .err
  | some n => if n ≤ 300 then .obs (sciRepr n) (sciFixed n) else .oob

/-- The `Octree_Mesh` special case of `config_line`: the yes/no flip is only
applied to string values (`isinstance(value, str)` guards the branch). -/
def octreeAdjust (key : String) (v : Value) : Value :=
  if key = "Octree_Mesh" then
    match v with
    | .vStr s =>
      if lowStr s = "true" then .vStr "no"
      else if lowStr s = "false" then .vStr "yes"
      else v
    | _ => v
  else v

/-- The anisotropy-direction special case of `config_line`: exact lookup in
the 12-entry table for strings; the `hasattr(value, "letter")` arm never
fires because no enum of this codebase has a `letter` attribute. -/
def anisoAdjust (key : String) (v : Value) : Value :=
  if inStr "anisotropy_surface_normal_direction" key then
    match v with
    | .vStr s =>
      match anisoLetter s with
      | some l => .vStr l
      | none => v
    | _ => v
  else v

/-- The `normal_direction` special case of `config_line`: parse the value as a
`FaultDirection` and take its first letter; otherwise fall back to the
upper-cased first character of the stripped string form, leaving the value
unchanged when that string is empty. -/
def normalDirAdjust (key : String) (v : Value) : Value :=
  if strEW (lowStr key) "normal_direction" then
    match parseEnumFD v with
    | some m => .vStr (enumFirstLetter (.fd m))
    | none =>
      match pyStripCharsL ['\'', '"'] (pyStripL (pyStr v).toList) with
      | [] => v
      | c :: _ => .vStr (String.mk [upChar c])
  else v

/-- Rendering used by the scientific-notation path: `rstrip('0')` then
`rstrip('.')` on the ten-decimal form. -/
def rstripLit (f10 : String) : String :=
  String.mk (pyRstripL '.' (pyRstripL '0' f10.toList))

/-- The literal part of the line emitted by `ConfigBuilder.config_line`
(`src/utils.py` lines 228-341).  `none` marks inputs outside the modelled
float fragment.  Booleans surviving the direction adjustments are converted
to `"yes"`/`"no"` strings and then quoted by the string branch. -/
def configLiteral (key : String) (v0 : Value) : Option String :=
  if v0 = .vStr "notfound" then some "''"
  else
    match normalDirAdjust key (anisoAdjust key (octreeAdjust key v0)) with
    | .vBool b => some ("'" ++ (if b then "yes" else "no") ++ "'")
    | .vNone => some "''"
    | .vFloat r f10 _ => some (if inStr "e-" (lowStr r) then rstripLit f10 else r)
    | .vStr s =>
      if strSW (lowStr s) "1e-" then
        match pyFloatSci s with
        | .err => some s
        | .obs r f10 => some (if inStr "e-" (lowStr r) then rstripLit f10 else r)
        | .oob => none
      else if s = "not found" then some "''"
      else some ("'" ++ s ++ "'")
    | .vInt n => some (intStr n)
    | .vEnum e => some (enumStr e)

/-- The full line emitted by `ConfigBuilder.config_line`: every path,
including the `notfound` early return, produces
`{prefix}set @{key}= {literal}`. -/
def configLineText (pfx key : String) (v : Value) : Option String :=
  (configLiteral key v).map (fun lit => pfx ++ "set @" ++ key ++ "= " ++ lit)

/-- Model of `ConfigBuilder.add_line`. -/
def addLine (lines : List String) (text : String) : List String := lines ++ [text]

/-- Lines appended by `ConfigBuilder.subheading` (`src/utils.py` 222-226). -/
def subheadingLines (title : String) : List String :=
  [";--------------------", ";-- " ++ title, ";--------------------"]

/-- The `ConfigBuilder.subheading` method: state of `self.lines` after its
three `add_line` calls. -/
def subheadingApp (lines : List String) (title : String) : List String :=
  addLine (addLine (addLine lines ";--------------------") (";-- " ++ title)) ";--------------------"

/-- Lines appended by `ConfigBuilder.add_section_header`. -/
def sectionHeaderLines (title : String) : List String :=
  [";==============================", ";==== " ++ title, ";==============================", ""]

/-- An entity: attribute access by name (`getattr`-style), as used for the
model objects walked by the encoder. -/
abbrev Entity := List (String × Value)

/-- Model of `utils.get_value` / `getattr(obj, key, default)`: the attribute
value when present, the supplied default otherwise. -/
def getValue (obj : Entity) (key : String) (default : Value) : Value :=
  match obj.find? (fun p => p.1 = key) with
  | some p => p.2
  | none => default

/-- One reference-library entry (a Python dict that may lack either field). -/
structure RefEntry where
  internalName : Option String
  outputfileName : Option String
deriving DecidableEq, Repr

/-- A reference-library section: an insertion-ordered string-keyed dict. -/
abbrev RefLib := List (String × RefEntry)

/-- Dict lookup `ref_lib.get(key)`. -/
def refLookup (lib : RefLib) (key : String) : Option RefEntry :=
  (lib.find? (fun p => p.1 = key)).map (·.2)

/-- The boolean-indicator substrings checked by `mapped_value`. -/
def hasBoolIndicator (key : String) : Bool :=
  ["is_", "has_", "include_", "enabled", "custom"].any (fun ind => inStr ind (lowStr key))

/-- String fallback of the `_Rock_or_Soil` coercion:
`str(result).strip().lower()` matched against `soil` then `rock`,
defaulting to Rock (2). -/
def rockStrFallback (s : String) : Int :=
  let rs := lowStr (String.mk (pyStripL s.toList))
  if inStr "soil" rs then 1 else if inStr "rock" rs then 2 else 2

/-- The `_Rock_or_Soil` numeric coercion of `mapped_value`: a `DomainType`
member maps to its `numeric_value`, an `int()`-convertible value in {1,2} is
kept, anything else falls back to substring matching on its string form. -/
def rockCode (result : Value) : Int :=
  match result with
  | .vEnum (.dt t) => enumNumeric (.dt t)
  | r =>
    match pyIntOf r with
    | some iv => if iv = 1 ∨ iv = 2 then iv else rockStrFallback (pyStr r)
    | none => rockStrFallback (pyStr r)

/-- The tail of `mapped_value`: generic enum unwrapping (no modelled enum has
a `letter` attribute, and all of them define `numeric_value`), then the
stringified-`FaultDirection`-name branch, which evaluates
`FaultDirection[result].letter` and therefore raises `AttributeError`. -/
def enumOrRest (result : Value) : Except Unit Value :=
  match result with
  | .vEnum e => .ok (.vInt (enumNumeric e))
  | .vStr s => if s ∈ fdMemberNames then .error () else .ok result
  | _ => .ok result

/-- The coercion pipeline `mapped_value` applies to the resolved value
(`src/utils.py` lines 800-882). -/
def mappedCoerce (key : String) (default result : Value) : Except Unit Value :=
  if result = .vNone ∧ default = .vStr "notfound" then .ok (.vStr "notfound")
  else if (result = .vNone ∨ result = .vStr "") ∧ hasBoolIndicator key then .ok (.vStr "no")
  else
    match result with
    | .vBool b => .ok (.vStr (if b then "yes" else "no"))
    | r =>
      if inStr "_Rock_or_Soil" key then .ok (.vInt (rockCode r))
      else if inStr "anisotropy_surface_normal_direction" key ∨ inStr "_normal_direction" key then
        match r with
        | .vStr s => .ok (.vStr (directionLetter s))
        | _ => enumOrRest r
      else enumOrRest r

/-- Model of `utils.mapped_value` (`src/utils.py` lines 783-882).  The
`error` outcome is a raised exception: a `KeyError` when the reference entry
lacks `internal_name` (`mapping["internal_name"]`), or the `AttributeError`
from `FaultDirection[result].letter`. -/
def mappedValue (obj : Entity) (key : String) (refLib : RefLib) (default : Value) :
    Except Unit Value :=
  match refLookup refLib key with
  | some entry =>
    match entry.internalName with
    | some iname => mappedCoerce key default (getValue obj iname default)
    | none => .error ()
  | none => mappedCoerce key default (getValue obj key default)

/-- Model of Python `str.format` restricted to the plain named fields `index`
and `name` (the forms the encoder's key templates use); any other
replacement field raises (`KeyError`/`IndexError`/`ValueError`), modelled as
`error`.  Structural fuel keeps concrete runs reducible. -/
def pyFormatAux : Nat → List Char → Nat → List Char → Except Unit (List Char)
| _, [], _, _ => .ok []
| 0, _, _, _ => .error ()
| f + 1, '{' :: rest, index, nameArg =>
  match rest with
  | '{' :: rest2 => (pyFormatAux f rest2 index nameArg).map (fun t => '{' :: t)
  | _ =>
    let field := rest.takeWhile (fun c => c ≠ '}')
    match rest.dropWhile (fun c => c ≠ '}') with
    | '}' :: rest2 =>
      if field = "index".toList then
        (pyFormatAux f rest2 index nameArg).map (fun t => natChars index ++ t)
      else if field = "name".toList then
        (pyFormatAux f rest2 index nameArg).map (fun t => nameArg ++ t)
      else .error ()
    | _ => .error ()
| f + 1, '}' :: rest, index, nameArg =>
  match rest with
  | '}' :: rest2 => (pyFormatAux f rest2 index nameArg).map (fun t => '}' :: t)
  | _ => .error ()
| f + 1, c :: rest, index, nameArg =>
  (pyFormatAux f rest index nameArg).map (fun t => c :: t)

/-- Python `tpl.format(index=index, name=nameArg)` for the encoder templates. -/
def pyFormat (tpl : List Char) (index : Nat) (nameArg : List Char) : Except Unit (List Char) :=
  pyFormatAux tpl.length tpl index nameArg

/-- Python `str.replace(" ", "_")`. -/
def replaceSpaces (s : String) : String :=
  String.mk (s.toList.map (fun c => if c = ' ' then '_' else c))

/-- The `else` value-resolution branch of `add_section_recursive` (no usable
reference library): raw attribute access with boolean-type inference against
a boolean default. -/
def boolInfer (rawVal : Value) (default : Value) : Value :=
  match default with
  | .vBool _ =>
    match rawVal with
    | .vBool b => .vBool b
    | .vStr s => .vBool (lowStr s = "yes" ∨ lowStr s = "true" ∨ lowStr s = "1")
    | .vInt n => .vBool (decide (n ≠ 0))
    | .vFloat r f t => .vBool (truthy (.vFloat r f t))
    | _ => default
  | _ => if rawVal = .vNone then default else rawVal

/-- The `pit_upload` / `pit_upload_phreatic_surface` special case of
`add_section_recursive`. -/
def pitUploadVal (item : Entity) (fieldName : String) (default : Value) : Value :=
  let v1 := getValue item fieldName default
  let v2 := if v1 = .vNone then default else v1
  match v2 with
  | .vStr s => .vStr s
  | v => if truthy v then .vStr (pyStr v) else .vStr ""

/-- Per-field value resolution of `add_section_recursive` (lines 422-455).
`ref_lib` participates only when it is truthy (present and non-empty).  The
`pit_densification_intensity` arm prefers `numeric_value`, which only enum
values carry. -/
def fieldValue (item : Entity) (fieldName : String) (default : Value)
    (refLib : Option RefLib) : Except Unit Value :=
  if fieldName = "pit_densification_intensity" then
    .ok (match getValue item fieldName .vNone with
         | .vEnum e => .vInt (enumNumeric e)
         | _ => default)
  else if fieldName = "pit_upload" ∨ fieldName = "pit_upload_phreatic_surface" then
    .ok (pitUploadVal item fieldName default)
  else
    match refLib with
    | some lib =>
      if lib = [] then .ok (boolInfer (getValue item fieldName .vNone) default)
      else mappedValue item fieldName lib default
    | none => .ok (boolInfer (getValue item fieldName .vNone) default)

/-- Encoder state: the accumulated lines and the function-scoped Python local
`output_key` (which survives across fields and items). -/
structure RecState where
  lines : List String
  keyBind : Option String
deriving DecidableEq, Repr

/-- Outcome of processing one field mapping. -/
inductive StepOut
| cont (st : RecState)
| abortItem (st : RecState)
deriving DecidableEq, Repr

/-- One iteration of the field loop of `add_section_recursive`.  A failure
while formatting the key template lands in the `except` handler, which
itself reads `output_key`: when that local is still unbound the handler
raises `NameError`, aborting the rest of the item; otherwise the handler
emits the default under the stale key.  A failure while resolving the value
emits the default under the key just computed. -/
def fieldStep (pfx : String) (refLib : Option RefLib) (index : Nat) (nameArg : String)
    (item : Entity) (st : RecState) (fm : String × String × Value) : Option StepOut :=
  match pyFormat fm.1.toList index nameArg.toList with
  | .error _ =>
    match st.keyBind with
    | none => some (.abortItem st)
    | some k =>
      (configLineText pfx k fm.2.2).map (fun line => .cont ⟨st.lines ++ [line], st.keyBind⟩)
  | .ok keyL =>
    let outputKey := String.mk keyL
    match fieldValue item fm.2.1 fm.2.2 refLib with
    | .ok val =>
      (configLineText pfx outputKey val).map
        (fun line => .cont ⟨st.lines ++ [line], some outputKey⟩)
    | .error _ =>
      (configLineText pfx outputKey fm.2.2).map
        (fun line => .cont ⟨st.lines ++ [line], some outputKey⟩)

/-- The field loop; the boolean records whether the item was aborted (in
which case the trailing blank line is not emitted). -/
def runFields (pfx : String) (refLib : Option RefLib) (index : Nat) (nameArg : String)
    (item : Entity) : RecState → List (String × String × Value) → Option (RecState × Bool)
| st, [] => some (st, false)
| st, fm :: rest =>
  match fieldStep pfx refLib index nameArg item st fm with
  | none => none
  | some (.abortItem st') => some (st', true)
  | some (.cont st') => runFields pfx refLib index nameArg item st' rest

/-- One iteration of the item loop of `add_section_recursive`: identifier
resolution (skipping items with a falsy identifier), optional subheading,
field loop, trailing blank line when the item completed. -/
def itemStep (pfx : String) (title : String) (fms : List (String × String × Value))
    (refLib : Option RefLib) (withHeading : Bool) (identifierKey : Option String)
    (index : Nat) (item : Entity) (st : RecState) : Option RecState :=
  let idv := match identifierKey with
             | some ik => getValue item ik .vNone
             | none => .vInt (Int.ofNat index)
  match identifierKey with
  | some _ =>
    if ¬ truthy idv then some st
    else
      let idsafe := replaceSpaces (pyStr idv)
      let st1 := if withHeading then (⟨subheadingApp st.lines (title ++ " " ++ idsafe), st.keyBind⟩ : RecState) else st
      (runFields pfx refLib index idsafe item st1 fms).map
        (fun p => if p.2 then p.1 else ⟨p.1.lines ++ [""], p.1.keyBind⟩)
  | none =>
    let idsafe := String.mk (natChars index)
    let st1 := if withHeading then (⟨subheadingApp st.lines (title ++ " #" ++ idsafe), st.keyBind⟩ : RecState) else st
    (runFields pfx refLib index idsafe item st1 fms).map
      (fun p => if p.2 then p.1 else ⟨p.1.lines ++ [""], p.1.keyBind⟩)

/-- The item loop (`enumerate(collection, start=1)`). -/
def itemsFold (pfx : String) (title : String) (fms : List (String × String × Value))
    (refLib : Option RefLib) (withHeading : Bool) (identifierKey : Option String) :
    Nat → List Entity → RecState → Option RecState
| _, [], st => some st
| i, item :: rest, st =>
  match itemStep pfx title fms refLib withHeading identifierKey i item st with
  | none => none
  | some st' => itemsFold pfx title fms refLib withHeading identifierKey (i + 1) rest st'

/-- Model of `ConfigBuilder.add_section_recursive` (`src/utils.py` 367-471):
the list of lines appended to the builder.  `none` marks runs leaving the
modelled float fragment; the outer `try` of the source never fires inside
the modelled fragment (all remaining exceptions are caught per item). -/
def addSectionRecursive (pfx : String) (title : String) (collection : List Entity)
    (fms : List (String × String × Value)) (refLib : Option RefLib)
    (withHeading : Bool) (identifierKey : Option String) : Option (List String) :=
  (itemsFold pfx title fms refLib withHeading identifierKey 1 collection ⟨[], none⟩).map (·.lines)

/-- Model of `utils.resolve_placeholders` (`re.sub` over `<([^>]+)>` with a
replacement function; a token needs at least one non-`>` character and an
unmatched span is left verbatim).  Structural fuel; every step consumes at
least one character, so `fuel = length` suffices. -/
def resolvePH (repl : List Char → Option (List Char)) : Nat → List Char → List Char
| 0, l => l
| _, [] => []
| f + 1, '<' :: rest =>
  let tok := rest.takeWhile (fun c => c ≠ '>')
  match rest.dropWhile (fun c => c ≠ '>') with
  | '>' :: rest2 =>
    if tok = [] then '<' :: resolvePH repl f rest
    else
      (match repl tok with
       | some r => r
       | none => '<' :: (tok ++ ['>'])) ++ resolvePH repl f rest2
  | _ => '<' :: resolvePH repl f rest
| f + 1, c :: rest => c :: resolvePH repl f rest

/-- Resolve `<token>` placeholders in a template. -/
def resolvePlaceholders (tpl : List Char) (repl : List Char → Option (List Char)) : List Char :=
  resolvePH repl tpl.length tpl

/-- Model of `re.findall(r"<([^>]+)>", tpl)`: the tokens, in order. -/
def findTokensAux : Nat → List Char → List (List Char)
| 0, _ => []
| _, [] => []
| f + 1, '<' :: rest =>
  let tok := rest.takeWhile (fun c => c ≠ '>')
  match rest.dropWhile (fun c => c ≠ '>') with
  | '>' :: rest2 => if tok = [] then findTokensAux f rest else tok :: findTokensAux f rest2
  | _ => findTokensAux f rest
| f + 1, _ :: rest => findTokensAux f rest

/-- Tokens of a template. -/
def findTokens (tpl : List Char) : List (List Char) := findTokensAux tpl.length tpl

/-- Model of Python `str.replace(pat, rep)`: non-overlapping left-to-right
replacement (used by the dictionary decoder with `pat = "<token>"`). -/
def replAll (pat rep : List Char) : Nat → List Char → List Char
| 0, l => l
| _, [] => []
| f + 1, l@(c :: rest) =>
  if pat ≠ [] ∧ pat.isPrefixOf l then rep ++ replAll pat rep f (l.drop pat.length)
  else c :: replAll pat rep f rest

/-- First match of the object-detection regex `{prefix}(\d+)` (IGNORECASE,
`re.search` semantics): the leftmost position where the prefix matches
case-insensitively and is followed by at least one digit; the captured group
is the maximal digit run there. -/
def idxSearch (pfxL : List Char) : Nat → List Char → Option Nat
| 0, _ => none
| _, [] => none
| f + 1, l@(_ :: rest) =>
  if ciPrefix pfxL l then
    let ds := (l.drop pfxL.length).takeWhile isDigitChar
    if ds ≠ [] then some (parseDig ds) else idxSearch pfxL f rest
  else idxSearch pfxL f rest

/-- First `{prefix}(\d+)` match in one line. -/
def lineIdx (pfx : String) (line : String) : Option Nat :=
  idxSearch pfx.toList line.toList.length line.toList

/-- Keep the first occurrence of each element (Python seen-set dedup). -/
def dedupSeen [DecidableEq α] : List α → List α → List α
| _, [] => []
| seen, x :: rest =>
  if x ∈ seen then dedupSeen seen rest else x :: dedupSeen (x :: seen) rest

/-- First-occurrence dedup. -/
def dedupFirstG [DecidableEq α] (l : List α) : List α := dedupSeen [] l

/-- Python `sorted(set(l))` for naturals. -/
def sortedDedupNat (l : List Nat) : List Nat :=
  List.insertionSort (· ≤ ·) (dedupFirstG l)

/-- Python `sorted(set(l))` for strings (code-point lexicographic order). -/
def sortedDedupStr (l : List String) : List String :=
  List.insertionSort (· ≤ ·) (dedupFirstG l)

/-- All matches of `@?{prefix}(\d+)\b` in a line (`finditer`, IGNORECASE,
non-overlapping): optional `@`, case-insensitive prefix, maximal digit run,
word boundary after the digits (backtracking into the run cannot restore the
boundary, so a failed boundary fails the whole position). -/
def stepIdxAux (pfxL : List Char) : Nat → List Char → List Nat
| 0, _ => []
| _, [] => []
| f + 1, l@(c :: rest) =>
  let body := if c = '@' then rest else l
  if ciPrefix pfxL body then
    let after := body.drop pfxL.length
    let ds := after.takeWhile isDigitChar
    if ds ≠ [] ∧ (after.drop ds.length).head?.all (fun d => ¬ isWordChar d) then
      parseDig ds :: stepIdxAux pfxL f (after.drop ds.length)
    else stepIdxAux pfxL f rest
  else stepIdxAux pfxL f rest

/-- All step indices in one line. -/
def stepIdxAll (pfx : String) (line : String) : List Nat :=
  stepIdxAux pfx.toList line.toList.length line.toList

/-- Match of `(?:prefix)?digits\b` at one position (IGNORECASE). -/
def stepRelAt (pfxL digitsI l : List Char) : Bool :=
  (ciPrefix pfxL l ∧
    (digitsI.isPrefixOf (l.drop pfxL.length) ∧
      ((l.drop pfxL.length).drop digitsI.length).head?.all (fun c => ¬ isWordChar c))) ∨
  (digitsI.isPrefixOf l ∧ (l.drop digitsI.length).head?.all (fun c => ¬ isWordChar c))

/-- Search of `(?:prefix)?digits\b` over a line. -/
def stepRelAux (pfxL digitsI : List Char) : Nat → List Char → Bool
| 0, _ => false
| _, [] => false
| f + 1, l@(_ :: rest) => stepRelAt pfxL digitsI l || stepRelAux pfxL digitsI f rest

/-- Match of `@?{prefix}{digits}[_=]` at one position (with or without the
leading `@`, IGNORECASE). -/
def stepFbAt (withAt : Bool) (pfxL digitsI l : List Char) : Bool :=
  match (if withAt then (match l with | '@' :: r => some r | _ => none) else some l) with
  | none => false
  | some l1 =>
    ciPrefix pfxL l1 ∧
      (digitsI.isPrefixOf (l1.drop pfxL.length) ∧
        ((l1.drop pfxL.length).drop digitsI.length).head?.any (fun c => c = '_' ∨ c = '='))

/-- Search of a step fallback pattern over a line. -/
def stepFbAux (withAt : Bool) (pfxL digitsI : List Char) : Nat → List Char → Bool
| 0, _ => false
| _, [] => false
| f + 1, l@(_ :: rest) => stepFbAt withAt pfxL digitsI l || stepFbAux withAt pfxL digitsI f rest

/-- The relevant-line filter of the `step` branch: primary pattern, then the
two fallback patterns, concatenated and deduplicated keeping first
occurrences. -/
def stepRelevant (pfx : String) (digitsI : List Char) (lines : List String) : List String :=
  let p1 := lines.filter (fun l => stepRelAux pfx.toList digitsI l.toList.length l.toList)
  let p2 := lines.filter (fun l => stepFbAux true pfx.toList digitsI l.toList.length l.toList)
  let p3 := lines.filter (fun l => stepFbAux false pfx.toList digitsI l.toList.length l.toList)
  dedupFirstG (p1 ++ (p2 ++ p3))

/-- Match of `{key}\s*[:=]\s*(.+)` (IGNORECASE) at one position, returning
`group(1).strip()`.  With `rest` the text after the delimiter: `\s*` (which
does match newlines) backtracks against `(.+)` (which does not), so the
group runs from the first non-whitespace character up to the next newline —
and when `rest` is all whitespace the group is a whitespace run, which
strips to the empty value, matching only if some whitespace there is not a
newline. -/
def tryKeyAt (keyL l : List Char) : Option (List Char) :=
  if ciPrefix keyL l then
    match (l.drop keyL.length).dropWhile isWsChar with
    | d :: rest =>
      if d = ':' ∨ d = '=' then
        match rest.dropWhile isWsChar with
        | _ :: _ => some (pyStripL ((rest.dropWhile isWsChar).takeWhile (fun x => x ≠ '\n')))
        | [] => if rest.any (fun x => x ≠ '\n') then some [] else none
      else none
    | [] => none
  else none

/-- Leftmost `{key}\s*[:=]\s*(.+)` match over a line. -/
def keyMatchAux (keyL : List Char) : Nat → List Char → Option (List Char)
| 0, _ => none
| _, [] => none
| f + 1, l@(_ :: rest) =>
  match tryKeyAt keyL l with
  | some v => some v
  | none => keyMatchAux keyL f rest

/-- Search a resolved key pattern in one line. -/
def keyMatch (key : String) (line : String) : Option (List Char) :=
  keyMatchAux key.toList line.toList.length line.toList

/-- The value clean-up of the scan decoder:
`re.split(r"[;,]", raw_val, maxsplit=1)[0].strip()`. -/
def cleanVal (raw : List Char) : List Char :=
  pyStripL (raw.takeWhile (fun c => c ≠ ';' ∧ c ≠ ','))

/-- A decoded field map (an insertion-ordered Python dict). -/
abbrev FieldMap := List (String × String)

/-- Python dict assignment `m[k] = v`: update in place, append when new. -/
def upsert (m : FieldMap) (k v : String) : FieldMap :=
  if m.any (fun p => p.1 = k) then m.map (fun p => if p.1 = k then (k, v) else p)
  else m ++ [(k, v)]

/-- The decoder's outer `defaultdict(dict)`. -/
abbrev ObjDict := List (String × FieldMap)

/-- Apply a field-map update at an object key (`objects[obj][...] = ...`). -/
def upsertObj (objs : ObjDict) (o : String) (f : FieldMap → FieldMap) : ObjDict :=
  if objs.any (fun p => p.1 = o) then objs.map (fun p => if p.1 = o then (o, f p.2) else p)
  else objs ++ [(o, f [])]

/-- Patterns for one identifier: resolved key and internal name, from the
templated reference entries (entries without both angle brackets, or with a
falsy `internal_name`, are skipped).  Every `<token>` resolves to the object
name, except `<index>` (case-insensitive), which resolves to `str(index)`. -/
def buildPatterns (refLib : RefLib) (idxStr objName : String) : List (String × String) :=
  refLib.filterMap (fun p =>
    if ¬ (inStr "<" p.1 ∧ inStr ">" p.1) then none
    else
      match p.2.internalName with
      | none => none
      | some iname =>
        if iname = "" then none
        else
          some (String.mk (resolvePlaceholders p.1.toList
            (fun tok => some (if lowL tok = "index".toList then idxStr.toList else objName.toList))),
            iname))

/-- The per-identifier matching loop of `find_matching_objects` (Step 3 and
Step 4): every pattern is tried against every relevant line, each match
writes the cleaned value under the internal name and then rewrites the
`name` entry with the object identifier. -/
def processIdent (refLib : RefLib) (relevant : List String) (idxStr objName : String)
    (objs : ObjDict) : ObjDict :=
  let pats := buildPatterns refLib idxStr objName
  relevant.foldl (fun objs line =>
    pats.foldl (fun objs pr =>
      match keyMatch pr.1 line with
      | none => objs
      | some raw =>
        let clean := String.mk (cleanVal raw)
        let key := if pr.2 ≠ "" then pr.2 else pr.1
        upsertObj objs objName (fun m => upsert (upsert m key clean) "name" objName))
      objs)
    objs

/-- The `InsituStressType` values, in declaration order. -/
def stressNames : List String := ["simple", "minimum", "intermediate", "maximum"]

/-- Step 1 of `find_matching_objects`: the detected identifiers, as pairs of
`str(index)` and object name, in processing order (`sorted(index_set)`). -/
def scanPairs (lines : List String) (objPfx : String) : List (String × String) :=
  let lowPfx := lowStr objPfx
  if lowPfx = "step" then
    (sortedDedupNat ((lines.map (fun l => stepIdxAll objPfx l)).flatten)).map
      (fun i => (String.mk (natChars i), objPfx ++ String.mk (natChars i)))
  else if lowPfx = "stress_detail_name" then
    (sortedDedupStr (stressNames.filter
      (fun nm => lines.any (fun l => ciSub nm.toList l.toList)))).map (fun nm => (nm, nm))
  else
    (sortedDedupNat (lines.filterMap (lineIdx objPfx))).map
      (fun i => (String.mk (natChars i), objPfx ++ String.mk (natChars i)))

/-- Step 2 of `find_matching_objects`: the relevant-line filter for one
identifier. -/
def scanRelevant (lines : List String) (objPfx : String) (pr : String × String) :
    List String :=
  if lowStr objPfx = "step" then stepRelevant objPfx pr.1.toList lines
  else lines.filter (fun l => ciSub pr.2.toList l.toList)

/-- Model of `utils.find_matching_objects` (`src/utils.py` 1342-1468): the
scan-per-object decoder, covering the `step`, `stress_detail_name` and
generic prefix branches. -/
def findMatchingObjects (lines : List String) (objPfx : String) (refLib : RefLib) :
    List FieldMap :=
  ((scanPairs lines objPfx).foldl (fun objs pr =>
    processIdent refLib (scanRelevant lines objPfx pr) pr.1 pr.2 objs) []).map (fun p => p.2)

/-- Match of the fish-set assignment regex
`fish\s+set\s+@([\w\d_]+)\s*=\s*['\"]?(.*?)['\"]?\s*$` (IGNORECASE) at one
position: `fish`, whitespace, `set`, whitespace, `@`, a maximal word-char
run, `\s*=`, then the value processed as: leading whitespace dropped, one
leading quote dropped, the maximal trailing whitespace dropped, and one
trailing quote adjacent to that suffix dropped (the lazy group with the
optional quotes and `$`). -/
def fishTryAt (l : List Char) : Option (List Char × List Char) :=
  if ciPrefix "fish".toList l then
    let a := l.drop 4
    let ws1 := a.takeWhile isWsChar
    if ws1 = [] then none
    else
      let b := a.drop ws1.length
      if ciPrefix "set".toList b then
        let c := b.drop 3
        let ws2 := c.takeWhile isWsChar
        if ws2 = [] then none
        else
          match c.drop ws2.length with
          | '@' :: e =>
            let var := e.takeWhile isWordChar
            if var = [] then none
            else
              match (e.drop var.length).dropWhile isWsChar with
              | '=' :: h =>
                let t := h.dropWhile isWsChar
                let t1 := match t with
                          | q :: t2 => if q = '\'' ∨ q = '"' then t2 else t
                          | [] => []
                let u := (t1.reverse.dropWhile isWsChar).reverse
                let gval := match u.reverse with
                            | q :: ur => if q = '\'' ∨ q = '"' then ur.reverse else u
                            | [] => u
                if gval.any (fun x => x = '\n') then none else some (var, gval)
              | _ => none
          | _ => none
      else none
  else none

/-- Leftmost fish-set match over a line. -/
def fishSearchAux : Nat → List Char → Option (List Char × List Char)
| 0, _ => none
| _, [] => none
| f + 1, l@(_ :: rest) =>
  match fishTryAt l with
  | some r => some r
  | none => fishSearchAux f rest

/-- Parse one line with the fish-set regex (applied to `line.strip()`). -/
def fishParse (line : String) : Option (List Char × List Char) :=
  let t := pyStripL line.toList
  fishSearchAux t.length t

/-- The one-pass `fish_dict` of `find_matching_objects_from_dict`:
lower-cased variable names mapped to stripped raw values. -/
def fishDictOf (lines : List String) : FieldMap :=
  lines.foldl (fun d line =>
    match fishParse line with
    | none => d
    | some pr => upsert d (lowStr (String.mk pr.1)) (String.mk (pyStripL pr.2))) []

/-- Index detection of the dictionary decoder: keys matching
`^{pref}(\d+)_` (prefix already lower-cased, like the table keys). -/
def dictIdxs (fishDict : FieldMap) (pref : String) : List Nat :=
  sortedDedupNat (fishDict.filterMap (fun p =>
    if pref.toList.isPrefixOf p.1.toList then
      let after := p.1.toList.drop pref.toList.length
      let ds := after.takeWhile isDigitChar
      if ds ≠ [] ∧ (after.drop ds.length).head? = some '_' then some (parseDig ds) else none
    else none))

/-- Per-object field extraction of the dictionary decoder: resolve every
templated `outputfile_name` by replacing each `<token>` with the object key
and look it up (case-insensitively) in the fish dict. -/
def dictData (refSection : RefLib) (fishDict : FieldMap) (objKey : String) : FieldMap :=
  refSection.foldl (fun data p =>
    match p.2.outputfileName with
    | none => data
    | some tpl =>
      if tpl = "" then data
      else
        match p.2.internalName with
        | none => data
        | some internal =>
          if internal = "" then data
          else if ¬ inStr "<" tpl then data
          else
            let resolved := (findTokens tpl.toList).foldl
              (fun r tok => replAll ('<' :: (tok ++ ['>'])) objKey.toList r.length r) tpl.toList
            match fishDict.find? (fun q => q.1 = lowStr (String.mk resolved)) with
            | some q => upsert data internal q.2
            | none => data) []

/-- Model of `utils.find_matching_objects_from_dict` (`src/utils.py`
1569-1632): parse every line once into a lower-cased key table, detect
indices from keys of the form `{prefix}{digits}_...`, then resolve each
templated `outputfile_name` by replacing every `<token>` with
`{prefix}{index}` (prefix lower-cased) and look the result up in the table. -/
def findMatchingObjectsFromDict (lines : List String) (objPfx : String)
    (refSection : RefLib) : List FieldMap :=
  ((dictIdxs (fishDictOf lines) (lowStr objPfx)).map (fun i =>
    (lowStr objPfx ++ String.mk (natChars i),
      dictData refSection (fishDictOf lines) (lowStr objPfx ++ String.mk (natChars i))))).filterMap
    (fun pr => if pr.2 = [] then none else some (upsert pr.2 "name" pr.1))

/-- Dict lookup on a decoded field map. -/
def fmGet (m : FieldMap) (k : String) : Option String :=
  (m.find? (fun p => p.1 = k)).map (fun p => p.2)

/-- Whether a coerced value is a single upper-case direction letter. -/
def isSingleDirLetter : Value → Bool
| .vStr s => s = "T" ∨ s = "D" ∨ s = "N" ∨ s = "S" ∨ s = "E" ∨ s = "W"
| _ => false

/-- C9 counterexample: `subheading` appends three lines, not two — the title
line is wrapped between two separator lines. -/
theorem subheading_two_lines_counterexample :
    subheadingApp [] "Mesh" = [";--------------------", ";-- Mesh", ";--------------------"] ∧
    (subheadingApp [] "Mesh").length ≠ 2 := by
  constructor
  · rfl
  · decide

/-- C9 (amended): for every prior line list and title, `subheading` appends
exactly the three lines `;--------------------`, `;-- {title}`,
`;--------------------`. -/
theorem subheading_appends_three_lines (lines : List String) (title : String) :
    subheadingApp lines title =
      lines ++ [";--------------------", ";-- " ++ title, ";--------------------"] ∧
    (subheadingApp lines title).length = lines.length + 3 := by
  constructor
  · simp [subheadingApp, addLine]
  · simp [subheadingApp, addLine]

/-- C3 counterexample: `config_line("Octree_Mesh", True)` does not emit
`set @Octree_Mesh= no`; the flip is guarded by `isinstance(value, str)`, so
the boolean takes the generic boolean path and is then quoted. -/
theorem octree_bool_counterexample :
    configLineText "" "Octree_Mesh" (.vBool true) = some "set @Octree_Mesh= 'yes'" ∧
    configLineText "" "Octree_Mesh" (.vBool true) ≠ some "set @Octree_Mesh= no" := by
  constructor
  · rfl
  · decide

/-- C3 (amended): the `Octree_Mesh` inversion applies only to string values:
a string lower-casing to `true` renders as the quoted literal `'no'`, one
lower-casing to `false` renders as `'yes'`, while an actual boolean follows
the generic boolean rule and renders as quoted `'yes'`/`'no'` uninverted. -/
theorem octree_flip_strings_only :
    (∀ s : String, lowStr s = "true" →
      configLineText "" "Octree_Mesh" (.vStr s) = some "set @Octree_Mesh= 'no'") ∧
    (∀ s : String, lowStr s = "false" →
      configLineText "" "Octree_Mesh" (.vStr s) = some "set @Octree_Mesh= 'yes'") ∧
    (∀ b : Bool, configLineText "" "Octree_Mesh" (.vBool b) =
      some ("set @Octree_Mesh= '" ++ (if b then "yes" else "no") ++ "'")) := by
  refine ⟨fun s hs => ?_, fun s hs => ?_, fun b => ?_⟩
  · have hnf : s ≠ "notfound" := by
      intro h; rw [h] at hs; exact absurd hs (by decide)
    simp only [configLineText, configLiteral, octreeAdjust, hs, Value.vStr.injEq, hnf,
      if_false, reduceIte]
    rfl
  · have hnf : s ≠ "notfound" := by
      intro h; rw [h] at hs; exact absurd hs (by decide)
    have hnt : ¬ (lowStr s = "true") := by rw [hs]; decide
    simp only [configLineText, configLiteral, octreeAdjust, hs, hnt, Value.vStr.injEq, hnf,
      if_false, reduceIte]
    rfl
  · cases b <;> rfl

/-- C3 witness: concrete instances of the amended rule. -/
theorem octree_flip_strings_only_witness :
    configLineText "" "Octree_Mesh" (.vStr "TRUE") = some "set @Octree_Mesh= 'no'" ∧
    configLineText "" "Octree_Mesh" (.vStr "False") = some "set @Octree_Mesh= 'yes'" ∧
    configLineText "" "Octree_Mesh" (.vBool false) = some "set @Octree_Mesh= 'no'" :=
  ⟨octree_flip_strings_only.1 "TRUE" (by decide),
   octree_flip_strings_only.2.1 "False" (by decide),
   octree_flip_strings_only.2.2 false⟩

theorem directionLetter_cases (s : String) :
    directionLetter s = "T" ∨ directionLetter s = "D" ∨ directionLetter s = "N" ∨
    directionLetter s = "S" ∨ directionLetter s = "E" ∨ directionLetter s = "W" := by
  unfold directionLetter
  rcases h : dirTbl.find? (fun p => p.1 = s) with _ | p
  · rcases h2 : dirTbl.find? (fun p => lowStr s = lowStr p.1) with _ | q
    · simp [h, h2]
    · have hq := List.mem_of_find?_eq_some h2
      fin_cases hq <;> simp [h, h2]
  · have hp := List.mem_of_find?_eq_some h
    fin_cases hp <;> simp [h]

/-- C7: concrete run showing the fault-tolerance contract broken.  With the
first field's key template unresolvable (`"{bad}"`), the `except` handler
reads the still-unbound local `output_key`, the resulting `NameError`
aborts the item, and the second field — whose own resolution would have
succeeded — is never emitted. -/
theorem section_recursive_field_abort :
    addSectionRecursive "" "T" [[("f2", .vInt 7)]]
      [("{bad}", "f1", .vInt 0), ("k2", "f2", .vInt 0)] none true none =
      some [";--------------------", ";-- T #1", ";--------------------"] ∧
    configLineText "" "k2" (.vInt 7) = some "set @k2= 7" := by
  exact ⟨rfl, rfl⟩

/-- C5 counterexample: under a `_normal_direction` key, `mapped_value` maps a
`FaultDirection` member to its numeric ordinal (the enum has no `letter`
attribute, so the generic enum rule fires), not to a single letter. -/
theorem direction_enum_counterexample :
    mappedValue [("f_normal_direction", .vEnum (.fd .north))] "f_normal_direction" []
      (.vStr "") = .ok (.vInt 3) ∧
    isSingleDirLetter (.vInt 3) = false := ⟨rfl, rfl⟩

/-- C5 (amended): under a direction key, string sources do reduce to one
upper-case letter from {T,D,N,S,E,W} with default `T`, but a direction enum
member resolves through the generic enum rule to its 1-based numeric
ordinal instead. -/
theorem direction_coercion_amended :
    (∀ (key : String) (lib : RefLib) (default : Value) (s : String),
      (inStr "anisotropy_surface_normal_direction" key = true ∨
        inStr "_normal_direction" key = true) →
      inStr "_Rock_or_Soil" key = false →
      refLookup lib key = none →
      ¬ (s = "" ∧ hasBoolIndicator key = true) →
      mappedValue [(key, .vStr s)] key lib default = .ok (.vStr (directionLetter s)) ∧
        isSingleDirLetter (.vStr (directionLetter s)) = true) ∧
    (∀ (key : String) (lib : RefLib) (default : Value) (e : PyEnum),
      (inStr "anisotropy_surface_normal_direction" key = true ∨
        inStr "_normal_direction" key = true) →
      inStr "_Rock_or_Soil" key = false →
      refLookup lib key = none →
      mappedValue [(key, .vEnum e)] key lib default = .ok (.vInt (enumNumeric e))) := by
  constructor
  · intro key lib default s hdir hrock hlook hemp
    have hget : getValue [(key, Value.vStr s)] key default = .vStr s := by
      simp [getValue]
    rw [mappedValue, hlook, hget]
    have hdir2 : (inStr "anisotropy_surface_normal_direction" key ∨
        inStr "_normal_direction" key : Prop) := by
      rcases hdir with h | h <;> simp [h]
    have hne : ¬ ((Value.vStr s = Value.vNone ∨ Value.vStr s = Value.vStr "") ∧
        hasBoolIndicator key = true) := by
      rintro ⟨h1 | h1, h2⟩
      · exact absurd h1 (by simp)
      · refine hemp ⟨?_, h2⟩
        injection h1
    constructor
    · simp [mappedCoerce, hne, hrock, hdir2]
      intro h1 h2
      exact absurd ⟨h1, h2⟩ hemp
    · rcases directionLetter_cases s with h | h | h | h | h | h <;>
        simp [h, isSingleDirLetter]
  · intro key lib default e hdir hrock hlook
    have hget : getValue [(key, Value.vEnum e)] key default = .vEnum e := by
      simp [getValue]
    rw [mappedValue, hlook, hget]
    have hdir2 : (inStr "anisotropy_surface_normal_direction" key ∨
        inStr "_normal_direction" key : Prop) := by
      rcases hdir with h | h <;> simp [h]
    simp [mappedCoerce, hrock, hdir2, enumOrRest]

/-- C5 witness: concrete instances of the amended direction rule. -/
theorem direction_coercion_amended_witness :
    mappedValue [("f_normal_direction", .vStr "nOrTh")] "f_normal_direction" [] (.vStr "")
      = .ok (.vStr "N") ∧
    mappedValue [("f_normal_direction", .vStr "xyz")] "f_normal_direction" [] (.vStr "")
      = .ok (.vStr "T") ∧
    mappedValue [("f_normal_direction", .vEnum (.fd .west))] "f_normal_direction" [] (.vStr "")
      = .ok (.vInt 6) := by
  refine ⟨?_, ?_, ?_⟩
  · exact (direction_coercion_amended.1 "f_normal_direction" [] (.vStr "") "nOrTh"
      (Or.inr (by decide)) (by decide) rfl (by decide)).1
  · exact (direction_coercion_amended.1 "f_normal_direction" [] (.vStr "") "xyz"
      (Or.inr (by decide)) (by decide) rfl (by decide)).1
  · exact direction_coercion_amended.2 "f_normal_direction" [] (.vStr "") (.fd .west)
      (Or.inr (by decide)) (by decide) rfl

theorem rockStrFallback_cases (s : String) :
    rockStrFallback s = 1 ∨ rockStrFallback s = 2 := by
  simp only [rockStrFallback]
  split_ifs <;> simp

theorem rockCode_cases (v : Value) : rockCode v = 1 ∨ rockCode v = 2 := by
  rcases v with _ | b | n | ⟨r, f, t⟩ | s | e
  · simpa [rockCode, pyIntOf] using rockStrFallback_cases (pyStr Value.vNone)
  · cases b
    · simpa [rockCode, pyIntOf] using rockStrFallback_cases (pyStr (Value.vBool false))
    · simp [rockCode, pyIntOf]
  · by_cases h : n = 1 ∨ n = 2
    · rcases h with h | h <;> simp [rockCode, pyIntOf, h]
    · simpa [rockCode, pyIntOf, h] using rockStrFallback_cases (pyStr (Value.vInt n))
  · by_cases h : t = 1 ∨ t = 2
    · rcases h with h | h <;> simp [rockCode, pyIntOf, h]
    · simpa [rockCode, pyIntOf, h] using rockStrFallback_cases r
  · rcases hip : pyIntOfString s with _ | iv
    · simpa [rockCode, pyIntOf, hip] using rockStrFallback_cases s
    · by_cases h : iv = 1 ∨ iv = 2
      · rcases h with h | h <;> simp [rockCode, pyIntOf, hip, h]
      · simpa [rockCode, pyIntOf, hip, h] using rockStrFallback_cases s
  · rcases e with d | ty | l | st
    · simpa [rockCode, pyIntOf] using rockStrFallback_cases (pyStr (Value.vEnum (.fd d)))
    · cases ty <;> simp [rockCode, enumNumeric]
    · simpa [rockCode, pyIntOf] using rockStrFallback_cases (pyStr (Value.vEnum (.dl l)))
    · simpa [rockCode, pyIntOf] using rockStrFallback_cases (pyStr (Value.vEnum (.ist st)))

/-- C6 counterexample: a boolean source under a `_Rock_or_Soil` key is
converted to `"yes"` by the earlier boolean rule and never reaches the
numeric Rock/Soil coercion, so the result is neither 1 nor 2. -/
theorem rock_or_soil_bool_counterexample :
    mappedValue [("k_Rock_or_Soil", .vBool true)] "k_Rock_or_Soil" [] (.vInt 2)
      = .ok (.vStr "yes") ∧
    Value.vStr "yes" ≠ Value.vInt 1 ∧ Value.vStr "yes" ≠ Value.vInt 2 :=
  ⟨rfl, by decide, by decide⟩

/-- C6 (amended): for every non-boolean source value under a `_Rock_or_Soil`
key (that does not hit the empty-boolean-indicator or `notfound` early
returns), `mapped_value` yields exactly the integer 1 or 2: `DomainType`
members map to their numeric code, `int()`-convertible values already in
{1,2} are kept, and everything else resolves by substring match on its
string form with Rock (2) as default; booleans instead short-circuit to
`yes`/`no`. -/
theorem rock_or_soil_amended :
    ∀ (key : String) (lib : RefLib) (default v : Value),
      inStr "_Rock_or_Soil" key = true →
      refLookup lib key = none →
      (∀ b, v ≠ .vBool b) →
      ¬ (v = .vNone ∧ default = .vStr "notfound") →
      ¬ ((v = .vNone ∨ v = .vStr "") ∧ hasBoolIndicator key = true) →
      mappedValue [(key, v)] key lib default = .ok (.vInt (rockCode v)) ∧
        (rockCode v = 1 ∨ rockCode v = 2) := by
  intro key lib default v hrock hlook hnb hnf hemp
  refine ⟨?_, rockCode_cases v⟩
  have hget : getValue [(key, v)] key default = v := by simp [getValue]
  rw [mappedValue, hlook, hget]
  rcases v with _ | b | n | ⟨r, f, t⟩ | s | e
  · simp [mappedCoerce, hrock]
    rw [if_neg (fun h => hnf ⟨rfl, h⟩), if_neg (fun h => hemp ⟨Or.inl rfl, h⟩)]
  · exact absurd rfl (hnb b)
  · simp [mappedCoerce, hrock]
  · simp [mappedCoerce, hrock]
  · simp [mappedCoerce, hrock]
    intro h1
    exact Bool.eq_false_iff.mpr (fun h2 => hemp ⟨Or.inr (by rw [h1]), h2⟩)
  · simp [mappedCoerce, hrock]

/-- C6 witness: concrete instances of the amended Rock/Soil rule. -/
theorem rock_or_soil_amended_witness :
    mappedValue [("k_Rock_or_Soil", .vStr "Sandy SOIL")] "k_Rock_or_Soil" [] (.vStr "")
      = .ok (.vInt 1) ∧
    mappedValue [("k_Rock_or_Soil", .vEnum (.dt .rock))] "k_Rock_or_Soil" [] (.vStr "")
      = .ok (.vInt 2) ∧
    mappedValue [("k_Rock_or_Soil", .vStr "1")] "k_Rock_or_Soil" [] (.vStr "")
      = .ok (.vInt 1) := by
  refine ⟨?_, ?_, ?_⟩
  · exact (rock_or_soil_amended "k_Rock_or_Soil" [] (.vStr "") (.vStr "Sandy SOIL")
      (by decide) rfl (by intro b h; cases h) (by simp) (by simp)).1
  · exact (rock_or_soil_amended "k_Rock_or_Soil" [] (.vStr "") (.vEnum (.dt .rock))
      (by decide) rfl (by intro b h; cases h) (by simp) (by simp)).1
  · exact (rock_or_soil_amended "k_Rock_or_Soil" [] (.vStr "") (.vStr "1")
      (by decide) rfl (by intro b h; cases h) (by simp) (by simp)).1

/-- C8 counterexample: for an entity without the field, `mapped_value` does
raise when the supplied default is a `FaultDirection` member name — the
final branch evaluates `FaultDirection[result].letter` and the enum has no
`letter` attribute (`AttributeError`). -/
theorem missing_field_raises_counterexample :
    mappedValue [] "some_key" [] (.vStr "North") = .error () := rfl

/-- C8 (amended): for an entity without the field, `mapped_value` returns
the supplied default after the same coercion pipeline as any resolved
value; a plain string default under a key without special substrings is
returned unchanged (`value_of(entity_without_field, "some_key", "X") =
"X"`), but defaults matching special rules are coerced and a default equal
to a `FaultDirection` member name raises. -/
theorem missing_field_default_amended :
    ∀ (key : String) (lib : RefLib) (s : String),
      (∀ p ∈ lib, p.2.internalName ≠ none) →
      inStr "_Rock_or_Soil" key = false →
      inStr "anisotropy_surface_normal_direction" key = false →
      inStr "_normal_direction" key = false →
      ¬ (s = "" ∧ hasBoolIndicator key = true) →
      s ∉ fdMemberNames →
      mappedValue [] key lib (.vStr s) = .ok (.vStr s) := by
  intro key lib s hlib hrock haniso hnorm hemp hmem
  have hco : mappedCoerce key (.vStr s) (.vStr s) = .ok (.vStr s) := by
    simp [mappedCoerce, hrock, haniso, hnorm, enumOrRest, hmem]
    intro h1 h2
    exact absurd ⟨h1, h2⟩ hemp
  rcases hl : refLookup lib key with _ | entry
  · rw [mappedValue, hl]
    simpa [getValue] using hco
  · have hex : ∃ p ∈ lib, p.2 = entry := by
      rcases hfind : lib.find? (fun p => p.1 = key) with _ | p
      · rw [refLookup, hfind] at hl
        exact absurd hl (by simp)
      · rw [refLookup, hfind] at hl
        exact ⟨p, List.mem_of_find?_eq_some hfind, by simpa using hl⟩
    rcases hex with ⟨p, hpm, hpe⟩
    rcases hin : entry.internalName with _ | iname
    · exact absurd (by rw [hpe, hin]) (hlib p hpm)
    · simp only [mappedValue, hl, hin]
      simpa [getValue] using hco

/-- C8 witness: the specified missing-field scenario returns the default. -/
theorem missing_field_default_amended_witness :
    mappedValue [] "some_key" [] (.vStr "X") = .ok (.vStr "X") :=
  missing_field_default_amended "some_key" [] "X" (by simp) (by decide) (by decide)
    (by decide) (by decide) (by decide)

theorem low_digit (c : Char) (h : isDigitChar c = true) : low c = c := by
  simp only [isDigitChar, decide_eq_true_eq] at h
  rw [low, if_neg]
  rintro ⟨h1, _⟩
  exact absurd (le_trans h1 h.2) (by decide)

theorem lowL_digits (ds : List Char) (h : ∀ c ∈ ds, isDigitChar c = true) :
    lowL ds = ds := by
  induction ds with
  | nil => rfl
  | cons c rest ih =>
    simp only [lowL, List.map_cons]
    rw [low_digit c (h c (List.mem_cons_self c rest))]
    have := ih (fun x hx => h x (List.mem_cons_of_mem c hx))
    simp only [lowL] at this
    rw [this]

theorem digitsUndAux_digits (ds : List Char) (acc : Nat)
    (h : ∀ c ∈ ds, isDigitChar c = true) :
    digitsUndAux acc ds = some (ds.foldl (fun a c => 10 * a + charVal c) acc) := by
  induction ds generalizing acc with
  | nil => rfl
  | cons c rest ih =>
    have hc := h c (List.mem_cons_self c rest)
    simp only [digitsUndAux, hc, if_true, reduceIte]
    rw [ih (10 * acc + charVal c) (fun x hx => h x (List.mem_cons_of_mem c hx))]
    rfl

theorem digitsUndVal_digits (ds : List Char) (hne : ds ≠ [])
    (h : ∀ c ∈ ds, isDigitChar c = true) :
    digitsUndVal ds = some (parseDig ds) := by
  match ds, hne with
  | c :: rest, _ =>
    rw [digitsUndVal, if_pos (h c (List.mem_cons_self c rest))]
    exact digitsUndAux_digits (c :: rest) 0 h

theorem dropWhile_replicate_append (k : Nat) (a : Char) (rest : List Char)
    (p : Char → Bool) (hp : p a = true) :
    (List.replicate k a ++ rest).dropWhile p = rest.dropWhile p := by
  induction k with
  | zero => rfl
  | succ k ih => simp [List.replicate, List.dropWhile, hp, ih]

theorem rstripLit_sciFixed (n : Nat) (h1 : 1 ≤ n) (h10 : n ≤ 10) :
    rstripLit (sciFixed n) = String.mk ('0' :: '.' :: (zeros (n - 1) ++ ['1'])) := by
  have hrev : ('0' :: '.' :: (zeros (n - 1) ++ '1' :: zeros (10 - n))).reverse
      = List.replicate (10 - n) '0' ++ ('1' :: ((zeros (n - 1)).reverse ++ ['.', '0'])) := by
    simp [zeros, List.reverse_cons, List.reverse_append]
  have hrev2 : ('1' :: ((zeros (n - 1)).reverse ++ ['.', '0'])).reverse
      = '0' :: '.' :: (zeros (n - 1) ++ ['1']) := by
    simp [zeros, List.reverse_cons, List.reverse_append]
  have hrev3 : ('0' :: '.' :: (zeros (n - 1) ++ ['1'])).reverse
      = '1' :: ((zeros (n - 1)).reverse ++ ['.', '0']) := by
    simp [zeros, List.reverse_cons, List.reverse_append]
  have hinner : pyRstripL '0' ('0' :: '.' :: (zeros (n - 1) ++ '1' :: zeros (10 - n)))
      = '0' :: '.' :: (zeros (n - 1) ++ ['1']) := by
    rw [pyRstripL, hrev, dropWhile_replicate_append (10 - n) '0' _ _ (by decide),
      List.dropWhile_cons_of_neg (by decide), hrev2]
  have houter : pyRstripL '.' ('0' :: '.' :: (zeros (n - 1) ++ ['1']))
      = '0' :: '.' :: (zeros (n - 1) ++ ['1']) := by
    rw [pyRstripL, hrev3, List.dropWhile_cons_of_neg (by decide), hrev2]
  have hfix : sciFixed n = String.mk ('0' :: '.' :: (zeros (n - 1) ++ '1' :: zeros (10 - n))) := by
    rw [sciFixed, if_neg (by omega), if_pos h10]
  rw [rstripLit, hfix]
  show String.mk (pyRstripL '.' (pyRstripL '0'
    ('0' :: '.' :: (zeros (n - 1) ++ '1' :: zeros (10 - n))))) = _
  rw [hinner, houter]

/-- Expected literal of the scientific-string path: fixed decimal for
exponents up to 10, bare `0` beyond (everything rounds away). -/
def sciLit (n : Nat) : String :=
  if n ≤ 10 then String.mk ('0' :: '.' :: (zeros (n - 1) ++ ['1'])) else "0"

theorem digit_not_ws (c : Char) (h : isDigitChar c = true) : isWsChar c = false := by
  rcases hw : isWsChar c with _ | _
  · rfl
  · exfalso
    simp only [isWsChar, decide_eq_true_eq] at hw
    rcases hw with h1 | h1 | h1 | h1 | h1 | h1 <;> (subst h1; exact absurd h (by decide))

theorem sciLit_no_e (n : Nat) : inStr "e" (sciLit n) = false := by
  rw [sciLit]
  split_ifs with h
  · simp only [inStr, decide_eq_false_iff_not]
    intro hinf
    have hmem : 'e' ∈ ('0' :: '.' :: (zeros (n - 1) ++ ['1'])) :=
      hinf.subset (by decide)
    simp only [List.mem_cons, List.mem_append, List.mem_singleton, zeros,
      List.mem_replicate] at hmem
    rcases hmem with h1 | h1 | ⟨_, h1⟩ | h1 <;> exact absurd h1 (by decide)
  · decide

theorem lowL_zeros_one (k : Nat) :
    lowL ('0' :: '.' :: (zeros k ++ ['1'])) = '0' :: '.' :: (zeros k ++ ['1']) := by
  simp only [lowL, List.map_cons, List.map_append, List.map_replicate, zeros,
    List.map_cons, List.map_nil]
  rw [show low '0' = '0' by decide, show low '.' = '.' by decide,
    show low '1' = '1' by decide]

theorem lowL_digit_list (ds : List Char) (h : ∀ c ∈ ds, isDigitChar c = true) :
    lowL ('1' :: 'e' :: '-' :: ds) = '1' :: 'e' :: '-' :: ds := by
  simp only [lowL, List.map_cons]
  rw [show low '1' = '1' by decide, show low 'e' = 'e' by decide,
    show low '-' = '-' by decide]
  have := lowL_digits ds h
  simp only [lowL] at this
  rw [this]

theorem pyFloatSci_digits (ds : List Char) (n : Nat) (hne : ds ≠ [])
    (hdig : ∀ c ∈ ds, isDigitChar c = true) (hval : parseDig ds = n) (h300 : n ≤ 300) :
    pyFloatSci (String.mk ('1' :: 'e' :: '-' :: ds)) = .obs (sciRepr n) (sciFixed n) := by
  have hds : ∃ d ds2, ds.reverse = d :: ds2 := by
    cases hd : ds.reverse with
    | nil => exact absurd (by simpa using congrArg List.reverse hd) hne
    | cons d ds2 => exact ⟨d, ds2, rfl⟩
  obtain ⟨d, ds2, hd⟩ := hds
  have hdd : isDigitChar d = true :=
    hdig d (by rw [← List.mem_reverse, hd]; exact List.mem_cons_self _ _)
  have hrev : ('1' :: 'e' :: '-' :: ds).reverse = d :: (ds2 ++ ['-', 'e', '1']) := by
    have : ('1' :: 'e' :: '-' :: ds).reverse = ds.reverse ++ ['-', 'e', '1'] := by
      simp [List.reverse_cons]
    rw [this, hd]
    simp
  have ht : (('1' :: 'e' :: '-' :: ds).reverse.dropWhile isWsChar).reverse
      = '1' :: 'e' :: '-' :: ds := by
    rw [hrev, List.dropWhile_cons_of_neg (by simp [digit_not_ws d hdd]), ← hrev]
    simp
  have hlds : lowL ds = ds := lowL_digits ds hdig
  simp only [pyFloatSci]
  show (match digitsUndVal (lowL ((((String.mk ('1' :: 'e' :: '-' :: ds)).toList.reverse.dropWhile
      isWsChar).reverse).drop 3)) with
    | none => FloatParse.err
    | some n => if n ≤ 300 then FloatParse.obs (sciRepr n) (sciFixed n) else FloatParse.oob) = _
  have htl : (String.mk ('1' :: 'e' :: '-' :: ds)).toList = '1' :: 'e' :: '-' :: ds := rfl
  rw [htl, ht]
  show (match digitsUndVal (lowL ds) with
    | none => FloatParse.err
    | some n => if n ≤ 300 then FloatParse.obs (sciRepr n) (sciFixed n) else FloatParse.oob) = _
  rw [hlds, digitsUndVal_digits ds hne hdig, hval]
  simp [h300]

theorem sciRepr_small_eq (n : Nat) (h1 : 1 ≤ n) (h4 : n ≤ 4) : sciRepr n = sciLit n := by
  rw [sciRepr, if_neg (by omega), if_pos h4, sciLit, if_pos (by omega)]

theorem sciRepr_small_no_em (n : Nat) (h1 : 1 ≤ n) (h4 : n ≤ 4) :
    inStr "e-" (lowStr (sciRepr n)) = false := by
  rw [sciRepr, if_neg (by omega), if_pos h4]
  simp only [inStr, lowStr, decide_eq_false_iff_not]
  intro hinf
  have h0 : (String.mk ('0' :: '.' :: (zeros (n - 1) ++ ['1']))).toList
      = '0' :: '.' :: (zeros (n - 1) ++ ['1']) := rfl
  rw [h0] at hinf
  have htl : (String.mk (lowL ('0' :: '.' :: (zeros (n - 1) ++ ['1'])))).toList
      = lowL ('0' :: '.' :: (zeros (n - 1) ++ ['1'])) := rfl
  rw [htl, lowL_zeros_one] at hinf
  have hmem : 'e' ∈ ('0' :: '.' :: (zeros (n - 1) ++ ['1'])) := hinf.subset (by decide)
  simp only [List.mem_cons, List.mem_append, List.mem_singleton, zeros,
    List.mem_replicate] at hmem
  rcases hmem with h | h | ⟨_, h⟩ | h <;> exact absurd h (by decide)

theorem sciRepr_big_shape (n : Nat) (h5 : 5 ≤ n) :
    ∃ rest, sciRepr n = String.mk ('1' :: 'e' :: '-' :: rest) ∧
      (∀ c ∈ rest, isDigitChar c = true) := by
  by_cases h10 : n < 10
  · refine ⟨'0' :: natChars n, ?_, ?_⟩
    · rw [sciRepr, if_neg (by omega), if_neg (by omega), if_pos h10]
    · intro c hc
      rcases List.mem_cons.mp hc with h | h
      · rw [h]; decide
      · exact natChars_all_digit n c h
  · refine ⟨natChars n, ?_, natChars_all_digit n⟩
    rw [sciRepr, if_neg (by omega), if_neg (by omega), if_neg h10]

theorem sciRepr_big_em (n : Nat) (h5 : 5 ≤ n) :
    inStr "e-" (lowStr (sciRepr n)) = true := by
  obtain ⟨rest, hr, hdig⟩ := sciRepr_big_shape n h5
  rw [hr]
  simp only [inStr, lowStr, decide_eq_true_eq]
  have h0 : (String.mk ('1' :: 'e' :: '-' :: rest)).toList
      = '1' :: 'e' :: '-' :: rest := rfl
  rw [h0]
  have htl : (String.mk (lowL ('1' :: 'e' :: '-' :: rest))).toList
      = lowL ('1' :: 'e' :: '-' :: rest) := rfl
  rw [htl, lowL_digit_list rest hdig]
  refine ⟨['1'], rest, ?_⟩
  have he : ("e-").toList = ['e', '-'] := rfl
  rw [he]
  rfl

theorem anisoLetter_one_head (t : List Char) :
    anisoLetter (String.mk ('1' :: t)) = none := by
  rw [anisoLetter]
  have hfn : anisoTbl.find? (fun p => p.1 = String.mk ('1' :: t)) = none := by
    rw [List.find?_eq_none]
    intro p hp
    fin_cases hp <;>
    · simp only [decide_eq_true_eq]
      intro h
      have := congrArg String.toList h
      simp at this
  rw [hfn]
  rfl

/-- C4 counterexample: the string `"2e-05"` holds scientific notation in the
`1e-05` style (mantissa differing), but the converter's guard only accepts
strings starting with `1e-`, so it is emitted as a quoted literal that still
contains the scientific-notation marker `e`. -/
theorem sci_notation_counterexample :
    configLineText "" "zone_size" (.vStr "2e-05") = some "set @zone_size= '2e-05'" ∧
    inStr "e" "'2e-05'" = true := ⟨rfl, rfl⟩

/-- C4 (amended): only strings whose lower-case form starts with `1e-` are
converted to a fixed-decimal literal (shown here for exponent values 1..300:
the literal is `0.0…01` up to exponent 10 and `0` beyond, and never contains
`e`); floats are converted only when their `str()` form contains `e-` —
otherwise `str()` is emitted verbatim, scientific `e+` notation included.
Keys with direction semantics transform the value before formatting and are
excluded. -/
theorem sci_fixed_decimal_amended :
    (∀ (key : String) (ds : List Char) (n : Nat),
      strEW (lowStr key) "normal_direction" = false →
      ds ≠ [] → (∀ c ∈ ds, isDigitChar c = true) →
      parseDig ds = n → 1 ≤ n → n ≤ 300 →
      configLiteral key (.vStr (String.mk ('1' :: 'e' :: '-' :: ds))) = some (sciLit n) ∧
        inStr "e" (sciLit n) = false) ∧
    (∀ (key r f10 : String) (t : Int),
      strEW (lowStr key) "normal_direction" = false →
      inStr "e-" (lowStr r) = false →
      configLiteral key (.vFloat r f10 t) = some r) := by
  constructor
  · intro key ds n hk hne hdig hval h1 h300
    refine ⟨?_, sciLit_no_e n⟩
    have hlow : lowStr (String.mk ('1' :: 'e' :: '-' :: ds)) = String.mk ('1' :: 'e' :: '-' :: ds) := by
      rw [lowStr]
      congr 1
      exact lowL_digit_list ds hdig
    have hnf : Value.vStr (String.mk ('1' :: 'e' :: '-' :: ds)) ≠ Value.vStr "notfound" := by
      intro h
      have h2 : String.mk ('1' :: 'e' :: '-' :: ds) = "notfound" := by injection h
      have := congrArg String.toList h2
      rw [show ("notfound").toList = ['n', 'o', 't', 'f', 'o', 'u', 'n', 'd'] from rfl] at this
      simp at this
    have hs1 : lowStr (String.mk ('1' :: 'e' :: '-' :: ds)) ≠ "true" := by
      rw [hlow]
      intro h
      have := congrArg String.toList h
      rw [show ("true").toList = ['t', 'r', 'u', 'e'] from rfl] at this
      simp at this
    have hs2 : lowStr (String.mk ('1' :: 'e' :: '-' :: ds)) ≠ "false" := by
      rw [hlow]
      intro h
      have := congrArg String.toList h
      rw [show ("false").toList = ['f', 'a', 'l', 's', 'e'] from rfl] at this
      simp at this
    have hoct : octreeAdjust key (.vStr (String.mk ('1' :: 'e' :: '-' :: ds)))
        = .vStr (String.mk ('1' :: 'e' :: '-' :: ds)) := by
      unfold octreeAdjust
      split
      · show (if lowStr (String.mk ('1' :: 'e' :: '-' :: ds)) = "true" then Value.vStr "no"
          else if lowStr (String.mk ('1' :: 'e' :: '-' :: ds)) = "false" then Value.vStr "yes"
          else Value.vStr (String.mk ('1' :: 'e' :: '-' :: ds))) = _
        rw [if_neg hs1, if_neg hs2]
      · rfl
    have hani : anisoAdjust key (.vStr (String.mk ('1' :: 'e' :: '-' :: ds)))
        = .vStr (String.mk ('1' :: 'e' :: '-' :: ds)) := by
      unfold anisoAdjust
      split
      · show (match anisoLetter (String.mk ('1' :: 'e' :: '-' :: ds)) with
          | some l => Value.vStr l
          | none => Value.vStr (String.mk ('1' :: 'e' :: '-' :: ds))) = _
        rw [anisoLetter_one_head]
      · rfl
    have hnorm : normalDirAdjust key (.vStr (String.mk ('1' :: 'e' :: '-' :: ds)))
        = .vStr (String.mk ('1' :: 'e' :: '-' :: ds)) := by
      rw [normalDirAdjust, if_neg (by simp [hk])]
    have hsw : strSW (lowStr (String.mk ('1' :: 'e' :: '-' :: ds))) "1e-" = true := by
      rw [hlow, strSW, show ("1e-").toList = ['1', 'e', '-'] from rfl]
      show (['1', 'e', '-']).isPrefixOf ('1' :: 'e' :: '-' :: ds) = true
      simp [List.isPrefixOf]
    rw [configLiteral, if_neg hnf, hoct, hani, hnorm]
    show (if strSW (lowStr (String.mk ('1' :: 'e' :: '-' :: ds))) "1e-" = true then
        match pyFloatSci (String.mk ('1' :: 'e' :: '-' :: ds)) with
        | .err => some (String.mk ('1' :: 'e' :: '-' :: ds))
        | .obs r f10 => some (if inStr "e-" (lowStr r) then rstripLit f10 else r)
        | .oob => none
      else if (String.mk ('1' :: 'e' :: '-' :: ds)) = "not found" then some "''"
      else some ("'" ++ (String.mk ('1' :: 'e' :: '-' :: ds)) ++ "'")) = some (sciLit n)
    rw [if_pos hsw, pyFloatSci_digits ds n hne hdig hval h300]
    show some (if inStr "e-" (lowStr (sciRepr n)) then rstripLit (sciFixed n) else sciRepr n)
      = some (sciLit n)
    by_cases h4 : n ≤ 4
    · rw [sciRepr_small_no_em n h1 h4]
      simp [sciRepr_small_eq n h1 h4]
    · rw [sciRepr_big_em n (by omega)]
      simp only [if_true, reduceIte, Option.some.injEq]
      by_cases h10 : n ≤ 10
      · rw [rstripLit_sciFixed n h1 h10, sciLit, if_pos h10]
      · rw [show sciFixed n = "0.0000000000" by rw [sciFixed, if_neg (by omega), if_neg h10],
          show rstripLit "0.0000000000" = "0" from rfl, sciLit, if_neg h10]
  · intro key r f10 t hk hr
    have hnf : Value.vFloat r f10 t ≠ Value.vStr "notfound" := by intro h; cases h
    have hoct : octreeAdjust key (.vFloat r f10 t) = .vFloat r f10 t := by
      unfold octreeAdjust; split <;> rfl
    have hani : anisoAdjust key (.vFloat r f10 t) = .vFloat r f10 t := by
      unfold anisoAdjust; split <;> rfl
    have hnorm : normalDirAdjust key (.vFloat r f10 t) = .vFloat r f10 t := by
      rw [normalDirAdjust, if_neg (by simp [hk])]
    rw [configLiteral, if_neg hnf, hoct, hani, hnorm]
    show some (if inStr "e-" (lowStr r) then rstripLit f10 else r) = some r
    rw [hr]
    rfl

/-- C4 witness: `"1e-05"` renders as `0.00001`; the float `1e20` (with its
CPython observations `str = "1e+20"`, `.10f` form, and truncation) passes
through with its `e+` marker intact. -/
theorem sci_fixed_decimal_amended_witness :
    configLiteral "zone_size" (.vStr "1e-05") = some "0.00001" ∧
    configLiteral "zone_size"
      (.vFloat "1e+20" "100000000000000000000.0000000000" 100000000000000000000)
      = some "1e+20" := by
  constructor
  · have h := (sci_fixed_decimal_amended.1 "zone_size" ['0', '5'] 5 (by decide) (by decide)
      (by decide) (by decide) (by decide) (by decide)).1
    have hs : ("1e-05" : String) = String.mk ['1', 'e', '-', '0', '5'] := rfl
    rw [hs]
    show configLiteral "zone_size" (.vStr (String.mk ('1' :: 'e' :: '-' :: ['0', '5'])))
      = some "0.00001"
    rw [h]
    rfl
  · exact sci_fixed_decimal_amended.2 "zone_size" "1e+20" "100000000000000000000.0000000000"
      100000000000000000000 (by decide) (by decide)

theorem foldl_preserve {α β : Type} (P : α → Prop) (step : α → β → α)
    (l : List β) (a : α) (hstep : ∀ a b, b ∈ l → P a → P (step a b)) (ha : P a) :
    P (l.foldl step a) := by
  induction l generalizing a with
  | nil => exact ha
  | cons b rest ih =>
    exact ih (step a b) (fun x y hy hx => hstep x y (List.mem_cons_of_mem b hy) hx)
      (hstep a b (List.mem_cons_self b rest) ha)

theorem foldl_id {α β : Type} (step : α → β → α) (l : List β) (a : α)
    (h : ∀ a' b, b ∈ l → step a' b = a') : l.foldl step a = a := by
  induction l generalizing a with
  | nil => rfl
  | cons b rest ih =>
    rw [List.foldl_cons, h a b (List.mem_cons_self b rest)]
    exact ih a (fun x y hy => h x y (List.mem_cons_of_mem b hy))

theorem fmGet_cons_ne (p : String × String) (L : FieldMap) (k : String) (h : ¬ p.1 = k) :
    fmGet (p :: L) k = fmGet L k := by
  rw [fmGet, List.find?_cons_of_neg _ (by simpa using h), fmGet]

theorem fmGet_cons_eq (p : String × String) (L : FieldMap) (k : String) (h : p.1 = k) :
    fmGet (p :: L) k = some p.2 := by
  rw [fmGet, List.find?_cons_of_pos _ (by simpa using h)]
  rfl

theorem fmGet_map_self (m : FieldMap) (k v : String)
    (h : m.any (fun p => p.1 = k) = true) :
    fmGet (m.map (fun p => if p.1 = k then (k, v) else p)) k = some v := by
  induction m with
  | nil => simp at h
  | cons p rest ih =>
    by_cases hp : p.1 = k
    · simp only [List.map_cons, if_pos hp]
      rw [fmGet_cons_eq ((k, v)) _ k rfl]
    · have h2 : rest.any (fun p => p.1 = k) = true := by simpa [hp] using h
      simp only [List.map_cons, if_neg hp]
      rw [fmGet_cons_ne p _ k hp]
      exact ih h2

theorem fmGet_append_self (m : FieldMap) (k v : String)
    (h : ∀ p ∈ m, ¬ p.1 = k) :
    fmGet (m ++ [(k, v)]) k = some v := by
  induction m with
  | nil => rw [List.nil_append, fmGet_cons_eq ((k, v)) _ k rfl]
  | cons p rest ih =>
    rw [List.cons_append, fmGet_cons_ne p _ k (h p (List.mem_cons_self p rest))]
    exact ih (fun q hq => h q (List.mem_cons_of_mem p hq))

theorem fmGet_upsert_self (m : FieldMap) (k v : String) :
    fmGet (upsert m k v) k = some v := by
  rw [upsert]
  by_cases h : m.any (fun p => p.1 = k)
  · rw [if_pos h]; exact fmGet_map_self m k v h
  · rw [if_neg h]
    refine fmGet_append_self m k v ?_
    intro p hp hpk
    exact h (List.any_eq_true.mpr ⟨p, hp, by simpa using hpk⟩)

theorem mem_upsertObj (objs : ObjDict) (o : String) (f : FieldMap → FieldMap)
    (q : String × FieldMap) (h : q ∈ upsertObj objs o f) :
    (∃ m0, q = (o, f m0)) ∨ (q ∈ objs ∧ q.1 ≠ o) := by
  rw [upsertObj] at h
  by_cases ha : objs.any (fun p => p.1 = o)
  · rw [if_pos ha] at h
    rcases List.mem_map.mp h with ⟨p, hp, heq⟩
    by_cases hpo : p.1 = o
    · exact Or.inl ⟨p.2, by rw [← heq]; simp [hpo]⟩
    · refine Or.inr ⟨?_, ?_⟩
      · rw [← heq]; simpa [hpo] using hp
      · rw [← heq]; simpa [hpo] using hpo
  · rw [if_neg ha] at h
    rcases List.mem_append.mp h with h1 | h1
    · refine Or.inr ⟨h1, ?_⟩
      intro hq
      exact ha (List.any_eq_true.mpr ⟨q, h1, by simpa using hq⟩)
    · exact Or.inl ⟨[], by simpa using h1⟩

theorem processIdent_inv (refLib : RefLib) (relevant : List String) (idxStr o : String)
    (objs : ObjDict) (C : String → Prop) (hC : C o)
    (hinv : ∀ q ∈ objs, fmGet q.2 "name" = some q.1 ∧ C q.1) :
    ∀ q ∈ processIdent refLib relevant idxStr o objs,
      fmGet q.2 "name" = some q.1 ∧ C q.1 := by
  rw [processIdent]
  refine foldl_preserve (fun a : ObjDict => ∀ q ∈ a, fmGet q.2 "name" = some q.1 ∧ C q.1) _ _ _
    ?_ hinv
  intro a line _ hia
  refine foldl_preserve (fun a : ObjDict => ∀ q ∈ a, fmGet q.2 "name" = some q.1 ∧ C q.1) _ _ _
    ?_ hia
  intro a2 pat _ hia2 q hq
  rcases hkm : keyMatch pat.1 line with _ | raw
  · rw [hkm] at hq
    exact hia2 q hq
  · rw [hkm] at hq
    rcases mem_upsertObj _ _ _ q hq with ⟨m0, hm0⟩ | ⟨hqm, _⟩
    · rw [hm0]
      exact ⟨fmGet_upsert_self _ _ _, hC⟩
    · exact hia2 q hqm

theorem processIdent_keys (refLib : RefLib) (relevant : List String) (idxStr o : String)
    (objs : ObjDict) :
    ∀ q ∈ processIdent refLib relevant idxStr o objs, q.1 = o ∨ q ∈ objs := by
  rw [processIdent]
  refine foldl_preserve (fun a : ObjDict => ∀ q ∈ a, q.1 = o ∨ q ∈ objs) _ _ _ ?_
    (fun q hq => Or.inr hq)
  intro a line _ hia
  refine foldl_preserve (fun a : ObjDict => ∀ q ∈ a, q.1 = o ∨ q ∈ objs) _ _ _ ?_ hia
  intro a2 pat _ hia2 q hq
  rcases hkm : keyMatch pat.1 line with _ | raw
  · rw [hkm] at hq
    exact hia2 q hq
  · rw [hkm] at hq
    rcases mem_upsertObj _ _ _ q hq with ⟨m0, hm0⟩ | ⟨hqm, _⟩
    · exact Or.inl (by rw [hm0])
    · exact hia2 q hqm

theorem processIdent_no_match (refLib : RefLib) (relevant : List String) (idxStr o : String)
    (objs : ObjDict)
    (h : ∀ line ∈ relevant, ∀ pat ∈ buildPatterns refLib idxStr o,
      keyMatch pat.1 line = none) :
    processIdent refLib relevant idxStr o objs = objs := by
  rw [processIdent]
  refine foldl_id _ _ _ ?_
  intro a line hline
  refine foldl_id _ _ _ ?_
  intro a2 pat hpat
  rw [h line hline pat hpat]

theorem strAppend_cancel (pfx a b : String) (h : pfx ++ a = pfx ++ b) : a = b := by
  have h2 := congrArg String.toList h
  have h3 : pfx.toList ++ a.toList = pfx.toList ++ b.toList := h2
  have h4 : a.toList = b.toList := List.append_cancel_left h3
  cases a
  cases b
  exact congrArg String.mk h4

theorem objName_inj (pfx : String) (i j : Nat)
    (h : pfx ++ String.mk (natChars i) = pfx ++ String.mk (natChars j)) : i = j := by
  have h2 := strAppend_cancel pfx _ _ h
  have h3 : natChars i = natChars j := by injection h2
  exact natChars_injective h3

theorem scanPairs_name_inj (lines : List String) (pfx : String) :
    ∀ pr1 ∈ scanPairs lines pfx, ∀ pr2 ∈ scanPairs lines pfx,
      pr1.2 = pr2.2 → pr1 = pr2 := by
  intro pr1 h1 pr2 h2 hname
  rw [scanPairs] at h1 h2
  by_cases hstep : lowStr pfx = "step"
  · rw [if_pos hstep] at h1 h2
    rcases List.mem_map.mp h1 with ⟨i, _, hi⟩
    rcases List.mem_map.mp h2 with ⟨j, _, hj⟩
    rw [← hi, ← hj] at hname ⊢
    rw [objName_inj pfx i j hname]
  · rw [if_neg hstep] at h1 h2
    by_cases hsd : lowStr pfx = "stress_detail_name"
    · rw [if_pos hsd] at h1 h2
      rcases List.mem_map.mp h1 with ⟨i, _, hi⟩
      rcases List.mem_map.mp h2 with ⟨j, _, hj⟩
      rw [← hi, ← hj] at hname ⊢
      simp only at hname
      rw [hname]
    · rw [if_neg hsd] at h1 h2
      rcases List.mem_map.mp h1 with ⟨i, _, hi⟩
      rcases List.mem_map.mp h2 with ⟨j, _, hj⟩
      rw [← hi, ← hj] at hname ⊢
      rw [objName_inj pfx i j hname]

/-- C10: every field map returned by either decoder carries a `name` entry
equal to the identifier of the entity it was built for (the assignment is
unconditional and last, so it survives even when a reference entry's
`internal_name` is itself `name`), and an identifier for which no templated
key matched yields no field map at all. -/
theorem decoder_name_entry_invariant :
    (∀ (lines : List String) (pfx : String) (ref : RefLib),
      ∀ m ∈ findMatchingObjects lines pfx ref,
        ∃ pr ∈ scanPairs lines pfx, fmGet m "name" = some pr.2) ∧
    (∀ (lines : List String) (pfx : String) (ref : RefLib),
      ∀ pr ∈ scanPairs lines pfx,
      (∀ line ∈ scanRelevant lines pfx pr, ∀ pat ∈ buildPatterns ref pr.1 pr.2,
        keyMatch pat.1 line = none) →
      ∀ m ∈ findMatchingObjects lines pfx ref, fmGet m "name" ≠ some pr.2) ∧
    (∀ (lines : List String) (pfx : String) (ref : RefLib),
      ∀ m ∈ findMatchingObjectsFromDict lines pfx ref,
        ∃ i ∈ dictIdxs (fishDictOf lines) (lowStr pfx),
          fmGet m "name" = some (lowStr pfx ++ String.mk (natChars i)) ∧
          dictData ref (fishDictOf lines) (lowStr pfx ++ String.mk (natChars i)) ≠ []) ∧
    (∀ (lines : List String) (pfx : String) (ref : RefLib),
      ∀ i ∈ dictIdxs (fishDictOf lines) (lowStr pfx),
        dictData ref (fishDictOf lines) (lowStr pfx ++ String.mk (natChars i)) = [] →
        ∀ m ∈ findMatchingObjectsFromDict lines pfx ref,
          fmGet m "name" ≠ some (lowStr pfx ++ String.mk (natChars i))) := by
  refine ⟨?_, ?_, ?_, ?_⟩
  · intro lines pfx ref m hm
    rw [findMatchingObjects] at hm
    rcases List.mem_map.mp hm with ⟨q, hq, hqm⟩
    have H : ∀ q ∈ (scanPairs lines pfx).foldl (fun objs pr =>
        processIdent ref (scanRelevant lines pfx pr) pr.1 pr.2 objs) [],
        fmGet q.2 "name" = some q.1 ∧ ∃ pr ∈ scanPairs lines pfx, q.1 = pr.2 := by
      refine foldl_preserve (fun a : ObjDict => ∀ q ∈ a,
        fmGet q.2 "name" = some q.1 ∧ ∃ pr ∈ scanPairs lines pfx, q.1 = pr.2) _ _ _ ?_
        (by simp)
      intro a pr hpr hia
      exact processIdent_inv ref (scanRelevant lines pfx pr) pr.1 pr.2 a
        (fun nm => ∃ pr2 ∈ scanPairs lines pfx, nm = pr2.2) ⟨pr, hpr, rfl⟩ hia
    obtain ⟨hname, pr, hprm, hpr2⟩ := H q hq
    exact ⟨pr, hprm, by rw [← hqm, hname, hpr2]⟩
  · intro lines pfx ref pr hpr hnm m hm hcontra
    rw [findMatchingObjects] at hm
    rcases List.mem_map.mp hm with ⟨q, hq, hqm⟩
    have H : ∀ q ∈ (scanPairs lines pfx).foldl (fun objs pr =>
        processIdent ref (scanRelevant lines pfx pr) pr.1 pr.2 objs) [],
        fmGet q.2 "name" = some q.1 ∧ q.1 ≠ pr.2 := by
      refine foldl_preserve (fun a : ObjDict => ∀ q ∈ a,
        fmGet q.2 "name" = some q.1 ∧ q.1 ≠ pr.2) _ _ _ ?_ (by simp)
      intro a pr' hpr' hia
      by_cases heq : pr' = pr
      · rw [heq, processIdent_no_match ref _ _ _ _ hnm]
        exact hia
      · have hne2 : pr'.2 ≠ pr.2 :=
          fun h => heq (scanPairs_name_inj lines pfx pr' hpr' pr hpr h)
        intro q hq
        have h1 := processIdent_inv ref (scanRelevant lines pfx pr') pr'.1 pr'.2 a
          (fun _ => True) trivial (fun q hq => ⟨(hia q hq).1, trivial⟩) q hq
        have h2 := processIdent_keys ref (scanRelevant lines pfx pr') pr'.1 pr'.2 a q hq
        refine ⟨h1.1, ?_⟩
        rcases h2 with h2 | h2
        · rw [h2]; exact hne2
        · exact (hia q h2).2
    obtain ⟨hname, hkey⟩ := H q hq
    rw [← hqm, hname] at hcontra
    exact hkey (by injection hcontra)
  · intro lines pfx ref m hm
    rw [findMatchingObjectsFromDict] at hm
    rcases List.mem_filterMap.mp hm with ⟨pr0, hpr0, hif⟩
    rcases List.mem_map.mp hpr0 with ⟨i, hi, hieq⟩
    by_cases hd : pr0.2 = []
    · rw [if_pos hd] at hif; cases hif
    · rw [if_neg hd] at hif
      injection hif with hif
      refine ⟨i, hi, ?_, ?_⟩
      · rw [← hif, fmGet_upsert_self]
        rw [← hieq]
      · rw [← hieq] at hd
        simpa using hd
  · intro lines pfx ref i hi hdd m hm hcontra
    rw [findMatchingObjectsFromDict] at hm
    rcases List.mem_filterMap.mp hm with ⟨pr0, hpr0, hif⟩
    rcases List.mem_map.mp hpr0 with ⟨j, hj, hjeq⟩
    by_cases hd : pr0.2 = []
    · rw [if_pos hd] at hif; cases hif
    · rw [if_neg hd] at hif
      injection hif with hif
      rw [← hif, fmGet_upsert_self] at hcontra
      have hpr1 : pr0.1 = lowStr pfx ++ String.mk (natChars j) := by rw [← hjeq]
      rw [hpr1] at hcontra
      have hji : j = i := objName_inj (lowStr pfx) j i (by injection hcontra)
      rw [← hjeq] at hd
      simp only at hd
      rw [hji, hdd] at hd
      exact hd rfl

/-- C10 witness: concrete runs of both decoders.  `Domain2` is detected in
the scan input but no templated key matches it, so no returned map carries
its name; likewise `domain2` in the dictionary input has no extracted field. -/
theorem decoder_name_entry_invariant_witness :
    fmGet [("x", "5"), ("name", "Domain1")] "name" ≠ some "Domain2" ∧
    fmGet [("x", "abc"), ("name", "domain1")] "name" ≠ some ("domain" ++ String.mk (natChars 2)) := by
  constructor
  · exact decoder_name_entry_invariant.2.1 ["set @Domain1_x= 5", "mentioning Domain2 only"]
      "Domain" [("Domain<index>_x", ⟨some "x", some "Domain<index>_x"⟩)]
      ("2", "Domain2") (by decide) (by decide) [("x", "5"), ("name", "Domain1")] (by decide)
  · have h := decoder_name_entry_invariant.2.2.2
      ["fish set @domain1_x= abc", "fish set @domain2_y= 1"] "Domain"
      [("<domain_name>_x", ⟨some "x", some "<domain_name>_x"⟩)]
      2 (by decide) (by decide) [("x", "abc"), ("name", "domain1")] (by decide)
    simpa using h

/- ================================================================== -/
/- Shared infrastructure for the round-trip (C1) and decoder-equivalence
   (C2) analyses over canonical configuration files. -/

theorem sorted_le_range' (s n : Nat) : List.Sorted (· ≤ ·) (List.range' s n) := by
  induction n generalizing s with
  | zero => simp
  | succ n ih =>
    rw [List.range'_succ]
    refine List.sorted_cons.mpr ⟨?_, ih (s + 1)⟩
    intro b hb
    have := List.mem_range'_1.mp hb
    omega

theorem mem_dedupSeen [DecidableEq α] (seen l : List α) (x : α) :
    x ∈ dedupSeen seen l ↔ x ∈ l ∧ x ∉ seen := by
  induction l generalizing seen with
  | nil => simp [dedupSeen]
  | cons y rest ih =>
    by_cases hy : y ∈ seen
    · rw [dedupSeen, if_pos hy, ih]
      constructor
      · exact fun ⟨h1, h2⟩ => ⟨List.mem_cons_of_mem y h1, h2⟩
      · rintro ⟨h1, h2⟩
        rcases List.mem_cons.mp h1 with rfl | h1
        · exact absurd hy h2
        · exact ⟨h1, h2⟩
    · rw [dedupSeen, if_neg hy]
      by_cases hxy : x = y
      · subst hxy
        simp [List.mem_cons, hy]
      · constructor
        · intro h
          rcases List.mem_cons.mp h with rfl | h
          · exact absurd rfl hxy
          · rcases (ih (y :: seen)).mp h with ⟨h1, h2⟩
            exact ⟨List.mem_cons_of_mem y h1, fun hx => h2 (List.mem_cons_of_mem y hx)⟩
        · rintro ⟨h1, h2⟩
          rcases List.mem_cons.mp h1 with rfl | h1
          · exact absurd rfl hxy
          · refine List.mem_cons_of_mem y ((ih (y :: seen)).mpr ⟨h1, ?_⟩)
            intro hx
            rcases List.mem_cons.mp hx with rfl | hx
            · exact hxy rfl
            · exact h2 hx

theorem nodup_dedupSeen [DecidableEq α] (seen l : List α) : (dedupSeen seen l).Nodup := by
  induction l generalizing seen with
  | nil => simp [dedupSeen]
  | cons y rest ih =>
    by_cases hy : y ∈ seen
    · rw [dedupSeen, if_pos hy]; exact ih seen
    · rw [dedupSeen, if_neg hy]
      refine List.nodup_cons.mpr ⟨?_, ih (y :: seen)⟩
      intro hmem
      exact ((mem_dedupSeen (y :: seen) rest y).mp hmem).2 (List.mem_cons_self y seen)

theorem sortedDedupNat_eq_range' (l : List Nat) (N : Nat)
    (h : ∀ x, x ∈ l ↔ x ∈ List.range' 1 N) : sortedDedupNat l = List.range' 1 N := by
  have hmem : ∀ x, x ∈ dedupFirstG l ↔ x ∈ List.range' 1 N := by
    intro x
    rw [dedupFirstG, mem_dedupSeen]
    simp [h x]
  have hnd : (dedupFirstG l).Nodup := nodup_dedupSeen [] l
  have hperm : (List.insertionSort (· ≤ ·) (dedupFirstG l)).Perm (List.range' 1 N) :=
    (List.perm_insertionSort _ _).trans
      ((List.perm_ext_iff_of_nodup hnd (List.nodup_range' 1 N)).mpr hmem)
  exact List.eq_of_perm_of_sorted hperm (List.sorted_insertionSort _ _) (sorted_le_range' 1 N)

theorem filterMap_congr_some {α β : Type} (f : α → Option β) (g : α → β) (l : List α)
    (h : ∀ x ∈ l, f x = some (g x)) : l.filterMap f = l.map g := by
  induction l with
  | nil => rfl
  | cons x rest ih =>
    rw [List.filterMap_cons, h x (List.mem_cons_self x rest), List.map_cons,
      ih (fun y hy => h y (List.mem_cons_of_mem x hy))]

theorem filterMap_all_none {α β : Type} (f : α → Option β) (l : List α)
    (h : ∀ x ∈ l, f x = none) : l.filterMap f = [] := by
  induction l with
  | nil => rfl
  | cons x rest ih =>
    rw [List.filterMap_cons, h x (List.mem_cons_self x rest),
      ih (fun y hy => h y (List.mem_cons_of_mem x hy))]

theorem filterMap_flatMap {α β γ : Type} (l : List α) (g : α → List β) (f : β → Option γ) :
    (l.flatMap g).filterMap f = l.flatMap (fun a => (g a).filterMap f) := by
  induction l with
  | nil => rfl
  | cons x rest ih =>
    rw [List.flatMap_cons, List.filterMap_append, ih, List.flatMap_cons]

theorem filter_flatMap {α β : Type} (l : List α) (g : α → List β) (p : β → Bool) :
    (l.flatMap g).filter p = l.flatMap (fun a => (g a).filter p) := by
  induction l with
  | nil => rfl
  | cons x rest ih =>
    rw [List.flatMap_cons, List.filter_append, ih, List.flatMap_cons]

theorem flatMap_eq_nil {α β : Type} (l : List α) (g : α → List β)
    (h : ∀ x ∈ l, g x = []) : l.flatMap g = [] := by
  induction l with
  | nil => rfl
  | cons x rest ih =>
    rw [List.flatMap_cons, h x (List.mem_cons_self x rest),
      ih (fun y hy => h y (List.mem_cons_of_mem x hy)), List.nil_append]

theorem flatMap_single {α β : Type} [DecidableEq α] (l : List α) (i : α) (g : α → List β)
    (hnd : l.Nodup) (hi : i ∈ l) (hg : ∀ j ∈ l, j ≠ i → g j = []) : l.flatMap g = g i := by
  induction l with
  | nil => exact absurd hi (List.not_mem_nil i)
  | cons x rest ih =>
    rcases List.mem_cons.mp hi with rfl | hi2
    · rw [List.flatMap_cons, flatMap_eq_nil rest g ?_, List.append_nil]
      intro j hj
      refine hg j (List.mem_cons_of_mem i hj) ?_
      intro hji
      exact (List.nodup_cons.mp hnd).1 (hji ▸ hj)
    · have hx : x ≠ i := by
        intro hxi
        exact (List.nodup_cons.mp hnd).1 (hxi ▸ hi2)
      rw [List.flatMap_cons, hg x (List.mem_cons_self x rest) hx, List.nil_append]
      exact ih (List.nodup_cons.mp hnd).2 hi2
        (fun j hj hji => hg j (List.mem_cons_of_mem x hj) hji)

theorem foldl_single_hit {α β : Type} [DecidableEq β] (f : α → β → α) (g : α → α)
    (l : List β) (x : β) (hnd : l.Nodup) (hx : x ∈ l)
    (hmiss : ∀ y ∈ l, y ≠ x → ∀ a, f a y = a) (hhit : ∀ a, f a x = g a) (a : α) :
    l.foldl f a = g a := by
  induction l generalizing a with
  | nil => exact absurd hx (List.not_mem_nil x)
  | cons y rest ih =>
    rcases List.mem_cons.mp hx with rfl | hx2
    · rw [List.foldl_cons, hhit a]
      refine foldl_id f rest (g a) ?_
      intro a' b hb
      refine hmiss b (List.mem_cons_of_mem x hb) ?_ a'
      intro hbx
      exact (List.nodup_cons.mp hnd).1 (hbx ▸ hb)
    · have hy : y ≠ x := by
        intro hyx
        exact (List.nodup_cons.mp hnd).1 (hyx ▸ hx2)
      rw [List.foldl_cons, hmiss y (List.mem_cons_self y rest) hy a]
      exact ih (List.nodup_cons.mp hnd).2 hx2
        (fun z hz hzx => hmiss z (List.mem_cons_of_mem y hz) hzx) a

theorem map_id_of {α : Type} (l : List α) (f : α → α) (h : ∀ a ∈ l, f a = a) :
    l.map f = l := by
  induction l with
  | nil => rfl
  | cons a rest ih =>
    rw [List.map_cons, h a (List.mem_cons_self a rest),
      ih (fun b hb => h b (List.mem_cons_of_mem a hb))]

theorem upsert_fresh (m : FieldMap) (k v : String) (h : ∀ p ∈ m, p.1 ≠ k) :
    upsert m k v = m ++ [(k, v)] := by
  rw [upsert, if_neg]
  intro hany
  rcases List.any_eq_true.mp hany with ⟨p, hp, hpk⟩
  exact h p hp (by simpa using hpk)

theorem upsert_stable (m : FieldMap) (k v : String)
    (hmem : m.any (fun p => p.1 = k) = true)
    (hval : ∀ p ∈ m, p.1 = k → p.2 = v) : upsert m k v = m := by
  rw [upsert, if_pos hmem]
  induction m with
  | nil => rfl
  | cons p rest ih =>
    rw [List.map_cons]
    by_cases hp : p.1 = k
    · have hpv : p.2 = v := hval p (List.mem_cons_self p rest) hp
      have : (if p.1 = k then (k, v) else p) = p := by
        rw [if_pos hp, ← hp, ← hpv]
      rw [this]
      by_cases hrest : rest.any (fun q => q.1 = k) = true
      · rw [ih hrest (fun q hq hqk => hval q (List.mem_cons_of_mem p hq) hqk)]
      · have : rest.map (fun q => if q.1 = k then (k, v) else q) = rest := by
          refine map_id_of rest _ ?_
          intro q hq
          rw [if_neg]
          intro hqk
          exact hrest (List.any_eq_true.mpr ⟨q, hq, by simpa using hqk⟩)
        rw [this]
    · rw [if_neg hp]
      have hrest : rest.any (fun q => q.1 = k) = true := by
        rcases List.any_eq_true.mp hmem with ⟨q, hq, hqk⟩
        rcases List.mem_cons.mp hq with rfl | hq2
        · exact absurd (by simpa using hqk) hp
        · exact List.any_eq_true.mpr ⟨q, hq2, hqk⟩
      rw [ih hrest (fun q hq hqk => hval q (List.mem_cons_of_mem p hq) hqk)]

theorem upsertObj_fresh (objs : ObjDict) (o : String) (f : FieldMap → FieldMap)
    (h : ∀ p ∈ objs, p.1 ≠ o) : upsertObj objs o f = objs ++ [(o, f [])] := by
  rw [upsertObj, if_neg]
  intro hany
  rcases List.any_eq_true.mp hany with ⟨p, hp, hpo⟩
  exact h p hp (by simpa using hpo)

theorem upsertObj_last (objs : ObjDict) (o : String) (m : FieldMap)
    (f : FieldMap → FieldMap) (h : ∀ p ∈ objs, p.1 ≠ o) :
    upsertObj (objs ++ [(o, m)]) o f = objs ++ [(o, f m)] := by
  rw [upsertObj, if_pos (List.any_eq_true.mpr ⟨(o, m), by simp, by simp⟩), List.map_append]
  congr 1
  · refine map_id_of objs _ ?_
    intro p hp
    rw [if_neg (h p hp)]
  · simp

theorem fmGet_append_left (m1 m2 : FieldMap) (k : String) (h : ∀ p ∈ m1, p.1 ≠ k) :
    fmGet (m1 ++ m2) k = fmGet m2 k := by
  induction m1 with
  | nil => rfl
  | cons p rest ih =>
    rw [List.cons_append, fmGet_cons_ne p _ k (h p (List.mem_cons_self p rest))]
    exact ih (fun q hq => h q (List.mem_cons_of_mem p hq))

theorem foldl_upsert_append (acc : FieldMap) (l : List (String × String))
    (hl : List.Pairwise (fun p q => p.1 ≠ q.1) l)
    (hacc : ∀ p ∈ l, ∀ q ∈ acc, q.1 ≠ p.1) :
    l.foldl (fun d p => upsert d p.1 p.2) acc = acc ++ l := by
  induction l generalizing acc with
  | nil => simp
  | cons p rest ih =>
    rw [List.foldl_cons, upsert_fresh acc p.1 p.2 (fun q hq => hacc p (List.mem_cons_self p rest) q hq)]
    have h1 := ih (acc ++ [(p.1, p.2)]) (List.pairwise_cons.mp hl).2 ?_
    · rw [h1, List.append_assoc]
      simp
    · intro r hr q hq
      rcases List.mem_append.mp hq with hq1 | hq1
      · exact hacc r (List.mem_cons_of_mem p hr) q hq1
      · have : q = (p.1, p.2) := by simpa using hq1
        rw [this]
        exact (List.pairwise_cons.mp hl).1 r hr
  
theorem foldl_upsertObj_closed {β : Type} (D : String) (g : FieldMap → β → FieldMap)
    (l : List β) (objs : ObjDict) (m : FieldMap) (hfresh : ∀ p ∈ objs, p.1 ≠ D) :
    l.foldl (fun o b => upsertObj o D (fun mm => g mm b)) (objs ++ [(D, m)]) =
      objs ++ [(D, l.foldl g m)] := by
  induction l generalizing m with
  | nil => rfl
  | cons b rest ih =>
    rw [List.foldl_cons, upsertObj_last objs D m _ hfresh, ih (g m b), List.foldl_cons]

theorem foldl_upsertObj_entry {β : Type} (D : String) (g : FieldMap → β → FieldMap)
    (l : List β) (hl : l ≠ []) (objs : ObjDict) (hfresh : ∀ p ∈ objs, p.1 ≠ D) :
    l.foldl (fun o b => upsertObj o D (fun mm => g mm b)) objs =
      objs ++ [(D, l.foldl g [])] := by
  cases l with
  | nil => exact absurd rfl hl
  | cons b rest =>
    rw [List.foldl_cons, upsertObj_fresh objs D _ hfresh,
      foldl_upsertObj_closed D g rest objs (g [] b) hfresh, List.foldl_cons]

/-- Characters allowed in the canonical field-key suffixes: lower-case
letters other than `d`, and underscore. -/
def sufChar (c : Char) : Bool := ('a' ≤ c ∧ c ≤ 'z' ∧ c ≠ 'd') ∨ c = '_'

/-- Characters allowed in the canonical literal payloads: lower-case letters
other than `d`. -/
def plainChar (c : Char) : Bool := 'a' ≤ c ∧ c ≤ 'z' ∧ c ≠ 'd'

/-- Literal characters of an encoded quoted string literal: payload
characters and the single quote itself. -/
def litChar (c : Char) : Bool := plainChar c ∨ c = '\''

theorem plainChar_spec (c : Char) (h : plainChar c = true) :
    'a' ≤ c ∧ c ≤ 'z' ∧ c ≠ 'd' := by
  simpa [plainChar, decide_eq_true_eq] using h

theorem sufChar_spec (c : Char) (h : sufChar c = true) :
    ('a' ≤ c ∧ c ≤ 'z' ∧ c ≠ 'd') ∨ c = '_' := by
  simpa [sufChar, plainChar, decide_eq_true_eq] using h

theorem litChar_spec (c : Char) (h : litChar c = true) :
    ('a' ≤ c ∧ c ≤ 'z' ∧ c ≠ 'd') ∨ c = '\'' := by
  simpa [litChar, plainChar, decide_eq_true_eq] using h

theorem isWsChar_false_of_ge (c : Char) (h : '!' ≤ c) : isWsChar c = false := by
  simp only [isWsChar, decide_eq_false_iff_not]
  push_neg
  refine ⟨?_, ?_, ?_, ?_, ?_, ?_⟩ <;>
    · rintro rfl
      exact absurd h (by decide)

theorem isDigitChar_false_of_ge (c : Char) (h : ':' ≤ c) : isDigitChar c = false := by
  simp only [isDigitChar, decide_eq_false_iff_not]
  rintro ⟨-, h2⟩
  exact absurd (le_trans h h2) (by decide)

theorem isDigitChar_false_of_lt (c : Char) (h : c < '0') : isDigitChar c = false := by
  simp only [isDigitChar, decide_eq_false_iff_not]
  rintro ⟨h1, -⟩
  exact absurd h1 (not_le.mpr h)

theorem low_lower (c : Char) (h : '[' ≤ c) : low c = c := by
  rw [low, if_neg]
  rintro ⟨-, h2⟩
  exact absurd (le_trans h h2) (by decide)

theorem low_below (c : Char) (h : c < 'A') : low c = c := by
  rw [low, if_neg]
  rintro ⟨h1, -⟩
  exact absurd h1 (not_le.mpr h)

theorem sufChar_ws (c : Char) (h : sufChar c = true) : isWsChar c = false := by
  rcases sufChar_spec c h with ⟨h1, -, -⟩ | rfl
  · exact isWsChar_false_of_ge c (le_trans (by decide) h1)
  · decide

theorem sufChar_digit (c : Char) (h : sufChar c = true) : isDigitChar c = false := by
  rcases sufChar_spec c h with ⟨h1, -, -⟩ | rfl
  · exact isDigitChar_false_of_ge c (le_trans (by decide) h1)
  · decide

theorem sufChar_low (c : Char) (h : sufChar c = true) : low c = c := by
  rcases sufChar_spec c h with ⟨h1, -, -⟩ | rfl
  · exact low_lower c (le_trans (by decide) h1)
  · decide

theorem sufChar_ne_d (c : Char) (h : sufChar c = true) : low c ≠ 'd' := by
  rcases sufChar_spec c h with ⟨h1, -, h3⟩ | rfl
  · rw [low_lower c (le_trans (by decide) h1)]
    exact h3
  · decide

theorem sufChar_word (c : Char) (h : sufChar c = true) : isWordChar c = true := by
  rcases sufChar_spec c h with ⟨h1, h2, -⟩ | rfl
  · simp only [isWordChar, Bool.decide_or, Bool.or_eq_true, decide_eq_true_eq]
    exact Or.inl ⟨h1, h2⟩
  · decide

theorem litChar_ws (c : Char) (h : litChar c = true) : isWsChar c = false := by
  rcases litChar_spec c h with ⟨h1, -, -⟩ | rfl
  · exact isWsChar_false_of_ge c (le_trans (by decide) h1)
  · decide

theorem litChar_digit (c : Char) (h : litChar c = true) : isDigitChar c = false := by
  rcases litChar_spec c h with ⟨h1, -, -⟩ | rfl
  · exact isDigitChar_false_of_ge c (le_trans (by decide) h1)
  · decide

theorem litChar_low (c : Char) (h : litChar c = true) : low c = c := by
  rcases litChar_spec c h with ⟨h1, -, -⟩ | rfl
  · exact low_lower c (le_trans (by decide) h1)
  · decide

theorem litChar_ne_d (c : Char) (h : litChar c = true) : low c ≠ 'd' := by
  rcases litChar_spec c h with ⟨h1, -, h3⟩ | rfl
  · rw [low_lower c (le_trans (by decide) h1)]
    exact h3
  · decide

theorem litChar_ne (c x : Char) (h : litChar c = true) (hx : x < '\'' ∨ ('\'' < x ∧ x < 'a') ∨ 'z' < x) :
    c ≠ x := by
  rintro rfl
  rcases litChar_spec c h with ⟨h1, h2, -⟩ | rfl
  · rcases hx with hx | ⟨-, hx⟩ | hx
    · exact absurd (lt_of_le_of_lt h1 hx) (by decide)
    · exact absurd h1 (not_le.mpr hx)
    · exact absurd h2 (not_le.mpr hx)
  · rcases hx with hx | ⟨hx, -⟩ | hx <;> exact absurd hx (by decide)

theorem digit_ne_of_not (c x : Char) (h : isDigitChar c = true) (hx : isDigitChar x = false) :
    c ≠ x := by
  rintro rfl
  rw [h] at hx
  simp at hx

theorem digit_low_ne_d (c : Char) (h : isDigitChar c = true) : low c ≠ 'd' := by
  rw [low_digit c h]
  exact digit_ne_of_not c 'd' h (by decide)

theorem natChars_single (i : Nat) (h1 : 1 ≤ i) (h9 : i ≤ 9) :
    natChars i = [digitChar10 i] := by
  rw [natChars, if_neg (by omega), digitsLE_eq_digits i i le_rfl]
  have hdig : Nat.digits 10 i = [i] := by
    rw [Nat.digits_def' (by norm_num : (1:ℕ) < 10) (by omega), Nat.mod_eq_of_lt (by omega),
      Nat.div_eq_of_lt (by omega)]
    simp
  rw [hdig]
  simp

theorem digitChar10_inj (i j : Nat) (hi : i < 10) (hj : j < 10)
    (h : digitChar10 i = digitChar10 j) : i = j := by
  have hv := charVal_digitChar10 i hi
  rw [h, charVal_digitChar10 j hj] at hv
  omega

theorem ciPrefix_head_false (kh c : Char) (kt t : List Char) (h : low c ≠ low kh) :
    ciPrefix (kh :: kt) (c :: t) = false := by
  rw [ciPrefix]
  by_contra hne
  have hb : (lowL (kh :: kt)).isPrefixOf (lowL (c :: t)) = true := by
    simpa using hne
  have hp := List.isPrefixOf_iff_prefix.mp hb
  rw [lowL, lowL, List.map_cons, List.map_cons] at hp
  exact h ((List.cons_prefix_cons.mp hp).1).symm

theorem tryKeyAt_head_ne (kh c : Char) (kt t : List Char) (h : low c ≠ low kh) :
    tryKeyAt (kh :: kt) (c :: t) = none := by
  rw [tryKeyAt, ciPrefix_head_false kh c kt t h]
  rfl

theorem keyMatchAux_skip (kh : Char) (kt A tail : List Char)
    (hA : ∀ c ∈ A, low c ≠ low kh) :
    keyMatchAux (kh :: kt) (A ++ tail).length (A ++ tail) =
      keyMatchAux (kh :: kt) tail.length tail := by
  induction A with
  | nil => rfl
  | cons c A2 ih =>
    rw [List.cons_append]
    show keyMatchAux (kh :: kt) ((A2 ++ tail).length + 1) (c :: (A2 ++ tail)) = _
    rw [keyMatchAux, tryKeyAt_head_ne kh c kt _ (hA c (List.mem_cons_self c A2))]
    exact ih (fun x hx => hA x (List.mem_cons_of_mem c hx))

theorem keyMatchAux_none (k : List Char) (l : List Char)
    (h : ∀ c t, (c :: t) <:+ l → tryKeyAt k (c :: t) = none) :
    keyMatchAux k l.length l = none := by
  induction l with
  | nil => rfl
  | cons c rest ih =>
    show keyMatchAux k (rest.length + 1) (c :: rest) = none
    rw [keyMatchAux, h c rest (List.suffix_refl _)]
    exact ih (fun c2 t2 hst => h c2 t2 (hst.trans (List.suffix_cons c rest)))

theorem keyMatchAux_heads (kh : Char) (kt l : List Char)
    (h : ∀ c ∈ l, low c ≠ low kh) :
    keyMatchAux (kh :: kt) l.length l = none := by
  refine keyMatchAux_none (kh :: kt) l ?_
  intro c t hst
  exact tryKeyAt_head_ne kh c kt t (h c (hst.subset (List.mem_cons_self c t)))

theorem idxSearch_skip (ph : Char) (pt A tail : List Char)
    (hA : ∀ c ∈ A, low c ≠ low ph) :
    idxSearch (ph :: pt) (A ++ tail).length (A ++ tail) =
      idxSearch (ph :: pt) tail.length tail := by
  induction A with
  | nil => rfl
  | cons c A2 ih =>
    rw [List.cons_append]
    show idxSearch (ph :: pt) ((A2 ++ tail).length + 1) (c :: (A2 ++ tail)) = _
    rw [idxSearch, ciPrefix_head_false ph c pt _ (hA c (List.mem_cons_self c A2))]
    simp only [Bool.false_eq_true, if_false]
    exact ih (fun x hx => hA x (List.mem_cons_of_mem c hx))

theorem idxSearch_heads (ph : Char) (pt l : List Char)
    (h : ∀ c ∈ l, low c ≠ low ph) :
    idxSearch (ph :: pt) l.length l = none := by
  induction l with
  | nil => rfl
  | cons c rest ih =>
    show idxSearch (ph :: pt) (rest.length + 1) (c :: rest) = none
    rw [idxSearch, ciPrefix_head_false ph c pt _ (h c (List.mem_cons_self c rest))]
    simp only [Bool.false_eq_true, if_false]
    exact ih (fun x hx => h x (List.mem_cons_of_mem c hx))

theorem suffix_append_split {α : Type} {u a b : List α} (h : u <:+ a ++ b) :
    u <:+ b ∨ ∃ a2, a2 <:+ a ∧ a2 ≠ [] ∧ u = a2 ++ b := by
  induction a with
  | nil => exact Or.inl (by simpa using h)
  | cons c a1 ih =>
    rcases List.suffix_cons_iff.mp (by simpa using h) with h1 | h1
    · exact Or.inr ⟨c :: a1, List.suffix_refl _, by simp, by simpa using h1⟩
    · rcases ih h1 with h2 | ⟨a2, h2, h3, h4⟩
      · exact Or.inl h2
      · exact Or.inr ⟨a2, h2.trans (List.suffix_cons c a1), h3, h4⟩

theorem infix_single_d (pat A B : List Char) (h : ('d' :: pat) <:+: (A ++ 'd' :: B))
    (hA : 'd' ∉ A) (hB : 'd' ∉ B) : pat <+: B := by
  rcases List.infix_iff_prefix_suffix.mp h with ⟨t, hpre, hsuf⟩
  rcases suffix_append_split hsuf with h1 | ⟨a2, h2, h3, h4⟩
  · rcases List.suffix_cons_iff.mp h1 with h5 | h5
    · subst h5
      exact (List.cons_prefix_cons.mp hpre).2
    · rcases hpre with ⟨u, hu⟩
      have : 'd' ∈ t := by
        rw [← hu]
        simp
      exact absurd (h5.subset this) hB
  · subst h4
    cases a2 with
    | nil => exact absurd rfl h3
    | cons c t2 =>
      rw [List.cons_append] at hpre
      have hc := (List.cons_prefix_cons.mp hpre).1
      subst hc
      exact absurd (h2.subset (List.mem_cons_self _ t2)) hA

theorem dropWhile_all_false {α : Type} (p : α → Bool) (l : List α)
    (h : ∀ c ∈ l, p c = false) : l.dropWhile p = l := by
  cases l with
  | nil => rfl
  | cons c t =>
    exact List.dropWhile_cons_of_neg (by rw [h c (List.mem_cons_self c t)]; simp)

theorem takeWhile_all_true {α : Type} (p : α → Bool) (l : List α)
    (h : ∀ c ∈ l, p c = true) : l.takeWhile p = l := by
  induction l with
  | nil => rfl
  | cons c t ih =>
    rw [List.takeWhile_cons_of_pos (h c (List.mem_cons_self c t)),
      ih (fun x hx => h x (List.mem_cons_of_mem c hx))]

theorem pyStripL_id (l : List Char) (h : ∀ c ∈ l, isWsChar c = false) :
    pyStripL l = l := by
  rw [pyStripL, dropWhile_all_false _ _ h,
    dropWhile_all_false _ _ (fun c hc => h c (List.mem_reverse.mp hc)), List.reverse_reverse]

theorem ciPrefix_append_self (K r : List Char) : ciPrefix K (K ++ r) = true := by
  rw [ciPrefix]
  refine List.isPrefixOf_iff_prefix.mpr ?_
  rw [lowL, lowL, List.map_append]
  exact List.prefix_append _ _

theorem ne_nl_of_not_ws (c : Char) (h : isWsChar c = false) :
    (decide (c ≠ '\n')) = true := by
  simp only [decide_eq_true_eq]
  rintro rfl
  simp [isWsChar] at h

theorem drop_length_append {α : Type} (l1 l2 : List α) (n : Nat) (h : l1.length = n) :
    (l1 ++ l2).drop n = l2 := by
  subst h
  exact List.drop_left l1 l2

theorem tryKeyAt_self (K lit : List Char) (hne : lit ≠ [])
    (hlit : ∀ c ∈ lit, isWsChar c = false) :
    tryKeyAt K (K ++ '=' :: ' ' :: lit) = some lit := by
  rw [tryKeyAt, ciPrefix_append_self]
  simp only [if_true]
  rw [List.drop_left, List.dropWhile_cons_of_neg (by decide)]
  show (if ('=' : Char) = ':' ∨ ('=' : Char) = '=' then
      match (' ' :: lit).dropWhile isWsChar with
      | _ :: _ => some (pyStripL (((' ' :: lit).dropWhile isWsChar).takeWhile (fun x => x ≠ '\n')))
      | [] => if (' ' :: lit).any (fun x => x ≠ '\n') then some [] else none
    else none) = some lit
  have hdw : (' ' :: lit).dropWhile isWsChar = lit := by
    rw [List.dropWhile_cons_of_pos (by decide), dropWhile_all_false _ _ hlit]
  rw [if_pos (Or.inr rfl), hdw]
  cases lit with
  | nil => exact absurd rfl hne
  | cons c t =>
    have htw : (c :: t).takeWhile (fun x => decide (x ≠ '\n')) = c :: t :=
      takeWhile_all_true _ _ (fun x hx => ne_nl_of_not_ws x (hlit x hx))
    simp only [htw]
    rw [pyStripL_id _ hlit]

theorem sufChar_not_delim (c : Char) (h : sufChar c = true) : ¬ (c = ':' ∨ c = '=') := by
  rcases sufChar_spec c h with ⟨h1, -, -⟩ | rfl
  · rintro (rfl | rfl) <;> exact absurd h1 (by decide)
  · rintro (hc | hc) <;> exact absurd hc (by decide)

theorem matchDelim_red (c : Char) (X : List Char) (h : ¬ (c = ':' ∨ c = '=')) :
    (match c :: X with
     | d :: rest =>
       if d = ':' ∨ d = '=' then
         match rest.dropWhile isWsChar with
         | _ :: _ => some (pyStripL ((rest.dropWhile isWsChar).takeWhile (fun x => x ≠ '\n')))
         | [] => if rest.any (fun x => x ≠ '\n') then some [] else none
       else none
     | [] => none) = none := by
  show (if c = ':' ∨ c = '=' then
      match X.dropWhile isWsChar with
      | _ :: _ => some (pyStripL ((X.dropWhile isWsChar).takeWhile (fun x => x ≠ '\n')))
      | [] => if X.any (fun x => x ≠ '\n') then some [] else none
    else none) = none
  rw [if_neg h]

theorem tryKeyAt_mismatch (P : List Char) (di dj : Char) (sp s lit : List Char)
    (hdi : isDigitChar di = true) (hdj : isDigitChar dj = true)
    (hsp : ∀ c ∈ sp, sufChar c = true) (hs : ∀ c ∈ s, sufChar c = true)
    (hne : ¬ (di = dj ∧ sp = s)) :
    tryKeyAt (P ++ di :: sp) (P ++ dj :: (s ++ '=' :: ' ' :: lit)) = none := by
  rcases Bool.eq_false_or_eq_true
      (ciPrefix (P ++ di :: sp) (P ++ dj :: (s ++ '=' :: ' ' :: lit))) with hci | hci
  case inr =>
    rw [tryKeyAt, hci]
    simp
  case inl =>
    have hb := List.isPrefixOf_iff_prefix.mp (by rw [ciPrefix] at hci; exact hci)
    rw [lowL, lowL, List.map_append, List.map_append, List.map_cons, List.map_cons] at hb
    have hb2 := (List.prefix_append_right_inj (List.map low P)).mp hb
    have hdd : di = dj := by
      have h1 := (List.cons_prefix_cons.mp hb2).1
      rw [low_digit di hdi, low_digit dj hdj] at h1
      exact h1
    have hsps : sp ≠ s := fun hss => hne ⟨hdd, hss⟩
    have hb3 := (List.cons_prefix_cons.mp hb2).2
    have hlows : List.map low s = s := map_id_of s low (fun c hc => sufChar_low c (hs c hc))
    have hlowsp : List.map low sp = sp := map_id_of sp low (fun c hc => sufChar_low c (hsp c hc))
    rw [List.map_append, hlows, List.map_cons, List.map_cons, hlowsp,
      (by decide : low '=' = '='), (by decide : low ' ' = ' ')] at hb3
    rcases List.prefix_or_prefix_of_prefix hb3 (List.prefix_append s _) with hpre | hpre
    · rcases hpre with ⟨u, hu⟩
      cases u with
      | nil => exact absurd (by simpa using hu) hsps
      | cons c t2 =>
        have hcs : sufChar c = true := hs c (by rw [← hu]; simp)
        have hL : P ++ dj :: (s ++ '=' :: ' ' :: lit) =
            (P ++ dj :: sp) ++ (c :: (t2 ++ '=' :: ' ' :: lit)) := by
          rw [← hu]
          simp [List.cons_append, List.append_assoc]
        rw [tryKeyAt, hci, if_pos rfl, hL,
          drop_length_append _ _ _ (by simp),
          List.dropWhile_cons_of_neg (by rw [sufChar_ws c hcs]; simp)]
        exact matchDelim_red c _ (sufChar_not_delim c hcs)
    · rcases hpre with ⟨u, hu⟩
      cases u with
      | nil => exact absurd (by simpa using hu.symm) hsps
      | cons c t2 =>
        have hcs : sufChar c = true := hsp c (by rw [← hu]; simp)
        rw [← hu] at hb3
        have hb4 := (List.prefix_append_right_inj s).mp hb3
        have hc2 := (List.cons_prefix_cons.mp hb4).1
        rcases sufChar_spec c hcs with ⟨h1, -, -⟩ | rfl
        · rw [hc2] at h1
          exact absurd h1 (by decide)
        · exact absurd hc2 (by decide)

theorem keyMatch_line_c2 (i j : Nat) (hi1 : 1 ≤ i) (hi9 : i ≤ 9) (hj1 : 1 ≤ j) (hj9 : j ≤ 9)
    (sp s lit : List Char)
    (hsp : ∀ c ∈ sp, sufChar c = true) (hs : ∀ c ∈ s, sufChar c = true)
    (hlitne : lit ≠ [])
    (hlit : ∀ c ∈ lit, isWsChar c = false ∧ isDigitChar (low c) = false) :
    keyMatchAux (digitChar10 i :: sp)
      ("fish set @Domain".toList ++ digitChar10 j :: (s ++ '=' :: ' ' :: lit)).length
      ("fish set @Domain".toList ++ digitChar10 j :: (s ++ '=' :: ' ' :: lit)) =
      (if i = j ∧ sp = s then some lit else none) := by
  have hdi : isDigitChar (digitChar10 i) = true := isDigitChar_digitChar10 i (by omega)
  have hdj : isDigitChar (digitChar10 j) = true := isDigitChar_digitChar10 j (by omega)
  have hAd : ∀ c ∈ "fish set @Domain".toList, isDigitChar (low c) = false := by decide
  have hskip : ∀ c ∈ "fish set @Domain".toList, low c ≠ low (digitChar10 i) := by
    intro c hc heq
    rw [low_digit _ hdi] at heq
    have h4 := hAd c hc
    rw [heq, hdi] at h4
    simp at h4
  rw [keyMatchAux_skip (digitChar10 i) sp _ _ hskip]
  show keyMatchAux (digitChar10 i :: sp) ((s ++ '=' :: ' ' :: lit).length + 1)
      (digitChar10 j :: (s ++ '=' :: ' ' :: lit)) = _
  rw [keyMatchAux]
  by_cases hcase : i = j ∧ sp = s
  · obtain ⟨rfl, rfl⟩ := hcase
    have hself := tryKeyAt_self (digitChar10 i :: sp) lit hlitne (fun c hc => (hlit c hc).1)
    rw [List.cons_append] at hself
    rw [hself, if_pos ⟨rfl, rfl⟩]
  · have hmm : ¬ (digitChar10 i = digitChar10 j ∧ sp = s) := by
      rintro ⟨h1, h2⟩
      exact hcase ⟨digitChar10_inj i j (by omega) (by omega) h1, h2⟩
    have htry := tryKeyAt_mismatch [] (digitChar10 i) (digitChar10 j) sp s lit hdi hdj hsp hs hmm
    simp only [List.nil_append] at htry
    rw [htry, if_neg hcase]
    have hlowdig : ∀ c ∈ s ++ '=' :: ' ' :: lit, isDigitChar (low c) = false := by
      intro c hc
      rcases List.mem_append.mp hc with hc1 | hc2
      · rw [sufChar_low c (hs c hc1)]
        exact sufChar_digit c (hs c hc1)
      · rcases List.mem_cons.mp hc2 with rfl | hc3
        · decide
        · rcases List.mem_cons.mp hc3 with rfl | hc4
          · decide
          · exact (hlit c hc4).2
    refine keyMatchAux_heads (digitChar10 i) sp _ ?_
    intro c hc heq
    rw [low_digit _ hdi] at heq
    have h4 := hlowdig c hc
    rw [heq, hdi] at h4
    simp at h4

theorem keyMatch_line_c1 (i j : Nat) (hi1 : 1 ≤ i) (hi9 : i ≤ 9) (hj1 : 1 ≤ j) (hj9 : j ≤ 9)
    (sp s lit : List Char)
    (hsp : ∀ c ∈ sp, sufChar c = true) (hs : ∀ c ∈ s, sufChar c = true)
    (hlitne : lit ≠ [])
    (hlit : ∀ c ∈ lit, isWsChar c = false ∧ low c ≠ 'd') :
    keyMatchAux ("Domain".toList ++ digitChar10 i :: sp)
      ("set @".toList ++ ("Domain".toList ++ digitChar10 j :: (s ++ '=' :: ' ' :: lit))).length
      ("set @".toList ++ ("Domain".toList ++ digitChar10 j :: (s ++ '=' :: ' ' :: lit))) =
      (if i = j ∧ sp = s then some lit else none) := by
  have hdi : isDigitChar (digitChar10 i) = true := isDigitChar_digitChar10 i (by omega)
  have hdj : isDigitChar (digitChar10 j) = true := isDigitChar_digitChar10 j (by omega)
  have hkey : "Domain".toList ++ digitChar10 i :: sp =
      'D' :: ("omain".toList ++ digitChar10 i :: sp) := rfl
  have hlowD : low 'D' = 'd' := by decide
  rw [hkey]
  have hskip : ∀ c ∈ "set @".toList, low c ≠ low 'D' := by
    rw [hlowD]; decide
  rw [keyMatchAux_skip 'D' _ _ _ hskip]
  show keyMatchAux ('D' :: ("omain".toList ++ digitChar10 i :: sp))
      (("omain".toList ++ digitChar10 j :: (s ++ '=' :: ' ' :: lit)).length + 1)
      ('D' :: ("omain".toList ++ digitChar10 j :: (s ++ '=' :: ' ' :: lit))) = _
  rw [keyMatchAux]
  by_cases hcase : i = j ∧ sp = s
  · obtain ⟨rfl, rfl⟩ := hcase
    have hself := tryKeyAt_self ("Domain".toList ++ digitChar10 i :: sp) lit hlitne
      (fun c hc => (hlit c hc).1)
    have harr : ("Domain".toList ++ digitChar10 i :: sp) ++ '=' :: ' ' :: lit =
        "Domain".toList ++ digitChar10 i :: (sp ++ '=' :: ' ' :: lit) := by
      simp [List.cons_append, List.append_assoc]
    have hkey2 : ∀ X : List Char, "Domain".toList ++ X = 'D' :: ("omain".toList ++ X) :=
      fun X => rfl
    rw [harr, hkey, hkey2] at hself
    rw [hself, if_pos ⟨rfl, rfl⟩]
  · have hmm : ¬ (digitChar10 i = digitChar10 j ∧ sp = s) := by
      rintro ⟨h1, h2⟩
      exact hcase ⟨digitChar10_inj i j (by omega) (by omega) h1, h2⟩
    have htry := tryKeyAt_mismatch "Domain".toList (digitChar10 i) (digitChar10 j) sp s lit
      hdi hdj hsp hs hmm
    have hkey2 : ∀ X : List Char, "Domain".toList ++ X = 'D' :: ("omain".toList ++ X) :=
      fun X => rfl
    rw [hkey, hkey2] at htry
    rw [htry, if_neg hcase]
    refine keyMatchAux_heads 'D' _ _ ?_
    rw [hlowD]
    intro c hc
    rcases List.mem_append.mp hc with hc1 | hc2
    · exact (by decide : ∀ x ∈ "omain".toList, low x ≠ 'd') c hc1
    · rcases List.mem_cons.mp hc2 with rfl | hc3
      · exact digit_low_ne_d _ hdj
      · rcases List.mem_append.mp hc3 with hc4 | hc5
        · exact sufChar_ne_d c (hs c hc4)
        · rcases List.mem_cons.mp hc5 with rfl | hc6
          · decide
          · rcases List.mem_cons.mp hc6 with rfl | hc7
            · decide
            · exact (hlit c hc7).2

theorem idxSearch_domain_at (j : Nat) (hj1 : 1 ≤ j) (hj9 : j ≤ 9) (s2 r : List Char) :
    idxSearch "Domain".toList
      ("Domain".toList ++ digitChar10 j :: ('_' :: s2 ++ r)).length
      ("Domain".toList ++ digitChar10 j :: ('_' :: s2 ++ r)) = some j := by
  have hdj : isDigitChar (digitChar10 j) = true := isDigitChar_digitChar10 j (by omega)
  show idxSearch "Domain".toList
      (("omain".toList ++ digitChar10 j :: ('_' :: s2 ++ r)).length + 1)
      ('D' :: ("omain".toList ++ digitChar10 j :: ('_' :: s2 ++ r))) = some j
  rw [idxSearch]
  have hci : ciPrefix "Domain".toList
      ('D' :: ("omain".toList ++ digitChar10 j :: ('_' :: s2 ++ r))) = true :=
    ciPrefix_append_self "Domain".toList (digitChar10 j :: ('_' :: s2 ++ r))
  rw [hci, if_pos rfl]
  have hdrop : ('D' :: ("omain".toList ++ digitChar10 j :: ('_' :: s2 ++ r))).drop
      ("Domain".toList.length) = digitChar10 j :: ('_' :: s2 ++ r) := rfl
  rw [hdrop, List.takeWhile_cons_of_pos hdj]
  have htw : ('_' :: s2 ++ r).takeWhile isDigitChar = [] := by
    rw [List.cons_append]
    exact List.takeWhile_cons_of_neg (by decide)
  rw [htw, if_pos (by simp)]
  simp [parseDig, charVal_digitChar10 j (by omega)]

theorem idxSearch_c2_line (j : Nat) (hj1 : 1 ≤ j) (hj9 : j ≤ 9) (s2 r : List Char) :
    idxSearch "Domain".toList
      ("fish set @".toList ++ ("Domain".toList ++ digitChar10 j :: ('_' :: s2 ++ r))).length
      ("fish set @".toList ++ ("Domain".toList ++ digitChar10 j :: ('_' :: s2 ++ r))) =
      some j := by
  have hskip : ∀ c ∈ "fish set @".toList, low c ≠ low 'D' := by decide
  have h1 : idxSearch "Domain".toList
      (("fish set @".toList ++ ("Domain".toList ++ digitChar10 j :: ('_' :: s2 ++ r))).length)
      ("fish set @".toList ++ ("Domain".toList ++ digitChar10 j :: ('_' :: s2 ++ r))) =
      idxSearch "Domain".toList
        (("Domain".toList ++ digitChar10 j :: ('_' :: s2 ++ r)).length)
        ("Domain".toList ++ digitChar10 j :: ('_' :: s2 ++ r)) :=
    idxSearch_skip 'D' "omain".toList _ _ hskip
  rw [h1]
  exact idxSearch_domain_at j hj1 hj9 s2 r

theorem idxSearch_c1_line (j : Nat) (hj1 : 1 ≤ j) (hj9 : j ≤ 9) (s2 r : List Char) :
    idxSearch "Domain".toList
      ("set @".toList ++ ("Domain".toList ++ digitChar10 j :: ('_' :: s2 ++ r))).length
      ("set @".toList ++ ("Domain".toList ++ digitChar10 j :: ('_' :: s2 ++ r))) =
      some j := by
  have hskip : ∀ c ∈ "set @".toList, low c ≠ low 'D' := by decide
  have h1 : idxSearch "Domain".toList
      (("set @".toList ++ ("Domain".toList ++ digitChar10 j :: ('_' :: s2 ++ r))).length)
      ("set @".toList ++ ("Domain".toList ++ digitChar10 j :: ('_' :: s2 ++ r))) =
      idxSearch "Domain".toList
        (("Domain".toList ++ digitChar10 j :: ('_' :: s2 ++ r)).length)
        ("Domain".toList ++ digitChar10 j :: ('_' :: s2 ++ r)) :=
    idxSearch_skip 'D' "omain".toList _ _ hskip
  rw [h1]
  exact idxSearch_domain_at j hj1 hj9 s2 r

theorem idxSearch_no_d (l : List Char) (h : ∀ c ∈ l, low c ≠ 'd') :
    idxSearch "Domain".toList l.length l = none := by
  have h2 : ∀ c ∈ l, low c ≠ low 'D' := by
    intro c hc
    rw [(by decide : low 'D' = 'd')]
    exact h c hc
  exact idxSearch_heads 'D' "omain".toList l h2

theorem mem_lowL_d (l : List Char) (h : ∀ c ∈ l, low c ≠ 'd') : 'd' ∉ lowL l := by
  intro hmem
  rcases List.mem_map.mp hmem with ⟨c, hc, hlc⟩
  exact h c hc hlc

theorem ciSub_no_d (pat line : List Char) (hpat : 'd' ∈ lowL pat)
    (hline : ∀ c ∈ line, low c ≠ 'd') : ciSub pat line = false := by
  rw [ciSub]
  simp only [decide_eq_false_iff_not]
  intro hinf
  exact mem_lowL_d line hline (hinf.subset hpat)

theorem ciSub_line_iff (i j : Nat) (hi1 : 1 ≤ i) (hi9 : i ≤ 9) (hj1 : 1 ≤ j) (hj9 : j ≤ 9)
    (pre rest : List Char) (hpre : ∀ c ∈ pre, low c ≠ 'd')
    (hrest : ∀ c ∈ rest, low c ≠ 'd') :
    (ciSub ("Domain".toList ++ [digitChar10 i])
      (pre ++ ("Domain".toList ++ digitChar10 j :: rest)) = true) ↔ i = j := by
  have hdi : isDigitChar (digitChar10 i) = true := isDigitChar_digitChar10 i (by omega)
  have hdj : isDigitChar (digitChar10 j) = true := isDigitChar_digitChar10 j (by omega)
  have hpat : lowL ("Domain".toList ++ [digitChar10 i]) =
      "domain".toList ++ [digitChar10 i] := by
    rw [lowL, List.map_append,
      (by decide : List.map low "Domain".toList = "domain".toList)]
    simp [low_digit _ hdi]
  have hline : lowL (pre ++ ("Domain".toList ++ digitChar10 j :: rest)) =
      lowL pre ++ ("domain".toList ++ digitChar10 j :: lowL rest) := by
    rw [lowL, List.map_append, List.map_append, List.map_cons, low_digit _ hdj]
    rfl
  rw [ciSub, hpat, hline, decide_eq_true_iff]
  constructor
  · intro hinf
    have hsplit : ("domain".toList ++ [digitChar10 i]) =
        'd' :: ("omain".toList ++ [digitChar10 i]) := rfl
    have hsplit2 : lowL pre ++ ("domain".toList ++ digitChar10 j :: lowL rest) =
        lowL pre ++ 'd' :: ("omain".toList ++ digitChar10 j :: lowL rest) := rfl
    rw [hsplit, hsplit2] at hinf
    have hBd : 'd' ∉ "omain".toList ++ digitChar10 j :: lowL rest := by
      intro hmem
      rcases List.mem_append.mp hmem with h1 | h2
      · revert h1; decide
      · rcases List.mem_cons.mp h2 with heq | h3
        · exact digit_ne_of_not (digitChar10 j) 'd' hdj (by decide) heq.symm
        · exact mem_lowL_d rest hrest h3
    have hp := infix_single_d _ _ _ hinf (mem_lowL_d pre hpre) hBd
    have hp2 := (List.prefix_append_right_inj "omain".toList).mp hp
    have := (List.cons_prefix_cons.mp hp2).1
    exact digitChar10_inj i j (by omega) (by omega) this
  · rintro rfl
    refine ⟨lowL pre, lowL rest, ?_⟩
    simp

theorem toList_append (s t : String) : (s ++ t).toList = s.toList ++ t.toList := by
  cases s
  cases t
  rfl

theorem resolvePH_cons_ne (repl : List Char → Option (List Char)) (f : Nat) (c : Char)
    (rest : List Char) (h : c ≠ '<') :
    resolvePH repl (f + 1) (c :: rest) = c :: resolvePH repl f rest := by
  rw [resolvePH]
  exact fun hc => h hc

theorem resolvePH_id (repl : List Char → Option (List Char)) (l : List Char)
    (h : ∀ c ∈ l, c ≠ '<') : ∀ f, l.length ≤ f → resolvePH repl f l = l := by
  induction l with
  | nil =>
    intro f _
    cases f <;> rfl
  | cons c rest ih =>
    intro f hf
    cases f with
    | zero => simp at hf
    | succ f2 =>
      rw [resolvePH_cons_ne repl f2 c rest (h c (List.mem_cons_self c rest)),
        ih (fun x hx => h x (List.mem_cons_of_mem c hx)) f2 (by simpa using hf)]

theorem resolvePH_index (repl : List Char → Option (List Char)) (s : List Char)
    (hs : ∀ c ∈ s, c ≠ '<') (v : List Char) (hrepl : repl "index".toList = some v) :
    resolvePH repl ("<index>".toList ++ s).length ("<index>".toList ++ s) = v ++ s := by
  show (match repl "index".toList with
        | some r => r
        | none => '<' :: ("index".toList ++ ['>'])) ++
      resolvePH repl ("index>".toList ++ s).length s = v ++ s
  rw [hrepl, resolvePH_id repl s hs _ (by simp; omega)]

theorem resolvePH_pre (repl : List Char → Option (List Char)) (pre l : List Char)
    (h : ∀ c ∈ pre, c ≠ '<') :
    resolvePH repl (pre ++ l).length (pre ++ l) = pre ++ resolvePH repl l.length l := by
  induction pre with
  | nil => rfl
  | cons c pre2 ih =>
    rw [List.cons_append]
    show resolvePH repl ((pre2 ++ l).length + 1) (c :: (pre2 ++ l)) = _
    rw [resolvePH_cons_ne repl _ c _ (h c (List.mem_cons_self c pre2)),
      ih (fun x hx => h x (List.mem_cons_of_mem c hx))]
    rfl

theorem findTokensAux_cons_ne (f : Nat) (c : Char) (rest : List Char) (h : c ≠ '<') :
    findTokensAux (f + 1) (c :: rest) = findTokensAux f rest := by
  rw [findTokensAux]
  exact fun hc => h hc

theorem findTokensAux_no_lt (l : List Char) (h : ∀ c ∈ l, c ≠ '<') :
    ∀ f, l.length ≤ f → findTokensAux f l = [] := by
  induction l with
  | nil =>
    intro f _
    cases f <;> rfl
  | cons c rest ih =>
    intro f hf
    cases f with
    | zero => simp at hf
    | succ f2 =>
      rw [findTokensAux_cons_ne f2 c rest (h c (List.mem_cons_self c rest))]
      exact ih (fun x hx => h x (List.mem_cons_of_mem c hx)) f2 (by simpa using hf)

theorem findTokens_index (s : List Char) (hs : ∀ c ∈ s, c ≠ '<') :
    findTokens ("<index>".toList ++ s) = ["index".toList] := by
  show "index".toList :: findTokensAux ("index>".toList ++ s).length s = ["index".toList]
  rw [findTokensAux_no_lt s hs _ (by simp; omega)]

theorem isPrefixOf_head_ne (c d : Char) (pt l : List Char) (h : c ≠ d) :
    (c :: pt).isPrefixOf (d :: l) = false := by
  by_contra hne
  have hb : (c :: pt).isPrefixOf (d :: l) = true := by simpa using hne
  exact h ((List.cons_prefix_cons.mp (List.isPrefixOf_iff_prefix.mp hb)).1)

theorem replAll_id (pt rep l : List Char) (h : ∀ c ∈ l, c ≠ '<') :
    ∀ f, l.length ≤ f → replAll ('<' :: pt) rep f l = l := by
  induction l with
  | nil =>
    intro f _
    cases f <;> rfl
  | cons c rest ih =>
    intro f hf
    cases f with
    | zero => simp at hf
    | succ f2 =>
      have hred : replAll ('<' :: pt) rep (f2 + 1) (c :: rest) =
          (if ('<' :: pt) ≠ [] ∧ ('<' :: pt).isPrefixOf (c :: rest) = true then
            rep ++ replAll ('<' :: pt) rep f2 ((c :: rest).drop ('<' :: pt).length)
          else c :: replAll ('<' :: pt) rep f2 rest) := rfl
      rw [hred, if_neg]
      · rw [ih (fun x hx => h x (List.mem_cons_of_mem c hx)) f2 (by simpa using hf)]
      · rintro ⟨-, hpre⟩
        rw [isPrefixOf_head_ne '<' c pt rest
          (fun hc => h c (List.mem_cons_self c rest) hc.symm)] at hpre
        simp at hpre

theorem replAll_index (rep s : List Char) (hs : ∀ c ∈ s, c ≠ '<') (f : Nat)
    (hf : ("<index>".toList ++ s).length ≤ f + 1) :
    replAll ('<' :: ("index".toList ++ ['>'])) rep (f + 1) ("<index>".toList ++ s) =
      rep ++ s := by
  have hred : replAll ('<' :: ("index".toList ++ ['>'])) rep (f + 1) ("<index>".toList ++ s) =
      (if ('<' :: ("index".toList ++ ['>'])) ≠ [] ∧
          ('<' :: ("index".toList ++ ['>'])).isPrefixOf ("<index>".toList ++ s) = true then
        rep ++ replAll ('<' :: ("index".toList ++ ['>'])) rep f
          (("<index>".toList ++ s).drop ('<' :: ("index".toList ++ ['>'])).length)
      else "<index>".toList.head! :: replAll ('<' :: ("index".toList ++ ['>'])) rep f
        ("index>".toList ++ s)) := rfl
  rw [hred, if_pos]
  · have hdrop : ("<index>".toList ++ s).drop ('<' :: ("index".toList ++ ['>'])).length = s :=
      drop_length_append _ _ _ (by simp)
    rw [hdrop, replAll_id _ rep s hs f (by simp at hf; omega)]
  · constructor
    · simp
    · show ('<' :: ("index".toList ++ ['>'])).isPrefixOf ("<index>".toList ++ s) = true
      refine List.isPrefixOf_iff_prefix.mpr ?_
      exact ⟨s, by simp⟩

theorem pyFormatAux_cons_plain (f : Nat) (c : Char) (rest : List Char) (i : Nat)
    (nm : List Char) (h1 : c ≠ '{') (h2 : c ≠ '}') :
    pyFormatAux (f + 1) (c :: rest) i nm =
      (pyFormatAux f rest i nm).map (fun t => c :: t) := by
  rw [pyFormatAux]
  · exact fun hc => h1 hc
  · exact fun hc => h2 hc

theorem pyFormatAux_plain_id (l : List Char) (i : Nat) (nm : List Char)
    (h : ∀ c ∈ l, c ≠ '{' ∧ c ≠ '}') :
    ∀ f, l.length ≤ f → pyFormatAux f l i nm = .ok l := by
  induction l with
  | nil =>
    intro f _
    cases f <;> rfl
  | cons c rest ih =>
    intro f hf
    cases f with
    | zero => simp at hf
    | succ f2 =>
      rw [pyFormatAux_cons_plain f2 c rest i nm (h c (List.mem_cons_self c rest)).1
        (h c (List.mem_cons_self c rest)).2,
        ih (fun x hx => h x (List.mem_cons_of_mem c hx)) f2 (by simpa using hf)]
      rfl

theorem pyFormatAux_plain_pre (pre l out : List Char) (i : Nat) (nm : List Char)
    (h : ∀ c ∈ pre, c ≠ '{' ∧ c ≠ '}')
    (hl : pyFormatAux l.length l i nm = .ok out) :
    pyFormatAux (pre ++ l).length (pre ++ l) i nm = .ok (pre ++ out) := by
  induction pre with
  | nil => simpa using hl
  | cons c pre2 ih =>
    rw [List.cons_append]
    show pyFormatAux ((pre2 ++ l).length + 1) (c :: (pre2 ++ l)) i nm = _
    rw [pyFormatAux_cons_plain _ c _ i nm (h c (List.mem_cons_self c pre2)).1
      (h c (List.mem_cons_self c pre2)).2,
      ih (fun x hx => h x (List.mem_cons_of_mem c hx))]
    rfl

theorem pyFormatAux_index (s : List Char) (i : Nat) (nm : List Char)
    (hs : ∀ c ∈ s, c ≠ '{' ∧ c ≠ '}') :
    pyFormatAux ("{index}".toList ++ s).length ("{index}".toList ++ s) i nm =
      .ok (natChars i ++ s) := by
  show (pyFormatAux ("index\x7d".toList ++ s).length s i nm).map (fun t => natChars i ++ t) =
    Except.ok (natChars i ++ s)
  rw [pyFormatAux_plain_id s i nm hs _ (by simp; omega)]
  rfl

theorem takeWhile_append_all {α : Type} (p : α → Bool) (A l : List α)
    (hA : ∀ c ∈ A, p c = true) : (A ++ l).takeWhile p = A ++ l.takeWhile p := by
  induction A with
  | nil => rfl
  | cons c A2 ih =>
    rw [List.cons_append, List.takeWhile_cons_of_pos (hA c (List.mem_cons_self c A2)),
      ih (fun x hx => hA x (List.mem_cons_of_mem c hx)), List.cons_append]

theorem word_of_digit (c : Char) (h : isDigitChar c = true) : isWordChar c = true := by
  simp only [isWordChar, Bool.decide_or, Bool.or_eq_true, decide_eq_true_eq]
  refine Or.inr (Or.inr (Or.inl ?_))
  simpa using h

theorem plainChar_not_quote (c : Char) (h : plainChar c = true) :
    ¬ (c = '\'' ∨ c = '"') := by
  rcases plainChar_spec c h with ⟨h1, -, -⟩
  rintro (rfl | rfl) <;> exact absurd h1 (by decide)

theorem plainChar_ws (c : Char) (h : plainChar c = true) : isWsChar c = false := by
  rcases plainChar_spec c h with ⟨h1, -, -⟩
  exact isWsChar_false_of_ge c (le_trans (by decide) h1)

theorem plainChar_not_nl (c : Char) (h : plainChar c = true) : (decide (c = '\n')) = false := by
  have := plainChar_ws c h
  simp only [decide_eq_false_iff_not]
  rintro rfl
  simp [isWsChar] at this

/-- The tail of the fish-set matcher after the literal `fish set @` prefix
has been consumed (used to reduce `fishTryAt` on canonical lines). -/
def fishTail (e : List Char) : Option (List Char × List Char) :=
  let var := e.takeWhile isWordChar
  if var = [] then none
  else
    match (e.drop var.length).dropWhile isWsChar with
    | '=' :: h =>
      let t := h.dropWhile isWsChar
      let t1 := match t with
                | q :: t2 => if q = '\'' ∨ q = '"' then t2 else t
                | [] => []
      let u := (t1.reverse.dropWhile isWsChar).reverse
      let gval := match u.reverse with
                  | q :: ur => if q = '\'' ∨ q = '"' then ur.reverse else u
                  | [] => u
      if gval.any (fun x => x = '\n') then none else some (var, gval)
    | _ => none

theorem fishTryAt_red (e : List Char) :
    fishTryAt ("fish set @".toList ++ e) = fishTail e := rfl

theorem fishTail_line (j : Nat) (hj1 : 1 ≤ j) (hj9 : j ≤ 9) (s lit : List Char)
    (hs : ∀ c ∈ s, sufChar c = true) (hlitne : lit ≠ [])
    (hlit : ∀ c ∈ lit, plainChar c = true) :
    fishTail ("Domain".toList ++ digitChar10 j :: (s ++ '=' :: ' ' :: lit)) =
      some ("Domain".toList ++ digitChar10 j :: s, lit) := by
  have hdj : isDigitChar (digitChar10 j) = true := isDigitChar_digitChar10 j (by omega)
  have hword : ∀ c ∈ ("Domain".toList ++ digitChar10 j :: s), isWordChar c = true := by
    intro c hc
    rcases List.mem_append.mp hc with h1 | h2
    · exact (by decide : ∀ x ∈ "Domain".toList, isWordChar x = true) c h1
    · rcases List.mem_cons.mp h2 with rfl | h3
      · exact word_of_digit _ hdj
      · exact sufChar_word c (hs c h3)
  have hlitws : ∀ c ∈ lit, isWsChar c = false := fun c hc => plainChar_ws c (hlit c hc)
  have hlitnq : ∀ c ∈ lit, ¬ (c = '\'' ∨ c = '"') :=
    fun c hc => plainChar_not_quote c (hlit c hc)
  have hlitnl : ∀ c ∈ lit, (decide (c = '\n')) = false :=
    fun c hc => plainChar_not_nl c (hlit c hc)
  have hvar : ("Domain".toList ++ digitChar10 j :: (s ++ '=' :: ' ' :: lit)).takeWhile isWordChar
      = "Domain".toList ++ digitChar10 j :: s := by
    rw [takeWhile_append_all isWordChar "Domain".toList _
      (fun c hc => hword c (List.mem_append_left _ hc)),
      List.takeWhile_cons_of_pos (hword (digitChar10 j) (by simp)),
      takeWhile_append_all isWordChar s _
      (fun c hc => hword c (by simp [hc])),
      List.takeWhile_cons_of_neg (by decide)]
    simp
  rw [fishTail]
  simp only [hvar]
  rw [if_neg (by simp)]
  have harr : "Domain".toList ++ digitChar10 j :: (s ++ '=' :: ' ' :: lit) =
      ("Domain".toList ++ digitChar10 j :: s) ++ ('=' :: ' ' :: lit) := by
    simp [List.cons_append, List.append_assoc]
  rw [harr, drop_length_append _ _ _ rfl, List.dropWhile_cons_of_neg (by decide)]
  show (let t := (' ' :: lit).dropWhile isWsChar
    let t1 := match t with
              | q :: t2 => if q = '\'' ∨ q = '"' then t2 else t
              | [] => []
    let u := (t1.reverse.dropWhile isWsChar).reverse
    let gval := match u.reverse with
                | q :: ur => if q = '\'' ∨ q = '"' then ur.reverse else u
                | [] => u
    if gval.any (fun x => x = '\n') then none
    else some ("Domain".toList ++ digitChar10 j :: s, gval)) =
    some ("Domain".toList ++ digitChar10 j :: s, lit)
  have ht : (' ' :: lit).dropWhile isWsChar = lit := by
    rw [List.dropWhile_cons_of_pos (by decide), dropWhile_all_false _ _ hlitws]
  simp only [ht]
  cases lit with
  | nil => exact absurd rfl hlitne
  | cons c0 lit0 =>
    have hm1 : (match c0 :: lit0 with
        | q :: t2 => if q = '\'' ∨ q = '"' then t2 else c0 :: lit0
        | [] => ([] : List Char)) = c0 :: lit0 := by
      show (if c0 = '\'' ∨ c0 = '"' then lit0 else c0 :: lit0) = c0 :: lit0
      rw [if_neg (hlitnq c0 (List.mem_cons_self c0 lit0))]
    rw [hm1]
    have hu : ((c0 :: lit0).reverse.dropWhile isWsChar).reverse = c0 :: lit0 := by
      rw [dropWhile_all_false _ _
        (fun c hc => hlitws c (List.mem_reverse.mp hc)), List.reverse_reverse]
    rw [hu]
    rcases hrev : (c0 :: lit0).reverse with _ | ⟨q, ur⟩
    · exact absurd hrev (by simp)
    · have hq : q ∈ c0 :: lit0 := by
        rw [← List.mem_reverse, hrev]
        exact List.mem_cons_self q ur
      have hm2 : (match q :: ur with
          | q2 :: ur2 => if q2 = '\'' ∨ q2 = '"' then ur2.reverse else c0 :: lit0
          | [] => c0 :: lit0) = c0 :: lit0 := by
        show (if q = '\'' ∨ q = '"' then ur.reverse else c0 :: lit0) = c0 :: lit0
        rw [if_neg (hlitnq q hq)]
      rw [hm2]
      rw [if_neg]
      intro hany
      rcases List.any_eq_true.mp hany with ⟨x, hx, hxn⟩
      have := hlitnl x hx
      rw [hxn] at this
      simp at this

theorem fishTryAt_c2_line (j : Nat) (hj1 : 1 ≤ j) (hj9 : j ≤ 9) (s lit : List Char)
    (hs : ∀ c ∈ s, sufChar c = true) (hlitne : lit ≠ [])
    (hlit : ∀ c ∈ lit, plainChar c = true) :
    fishTryAt ("fish set @Domain".toList ++ digitChar10 j :: (s ++ '=' :: ' ' :: lit)) =
      some ("Domain".toList ++ digitChar10 j :: s, lit) := by
  have hL : "fish set @Domain".toList ++ digitChar10 j :: (s ++ '=' :: ' ' :: lit) =
      "fish set @".toList ++ ("Domain".toList ++ digitChar10 j :: (s ++ '=' :: ' ' :: lit)) :=
    rfl
  rw [hL, fishTryAt_red]
  exact fishTail_line j hj1 hj9 s lit hs hlitne hlit

theorem pyStripL_ends (l : List Char) (h1 : ∀ c, l.head? = some c → isWsChar c = false)
    (h2 : ∀ c, l.reverse.head? = some c → isWsChar c = false) : pyStripL l = l := by
  have ha : l.dropWhile isWsChar = l := by
    cases l with
    | nil => rfl
    | cons c t => exact List.dropWhile_cons_of_neg (by rw [h1 c rfl]; simp)
  have hb : l.reverse.dropWhile isWsChar = l.reverse := by
    rcases hr : l.reverse with _ | ⟨c, t⟩
    · rfl
    · exact List.dropWhile_cons_of_neg (by rw [h2 c (by rw [hr]; rfl)]; simp)
  rw [pyStripL, ha, hb, List.reverse_reverse]

theorem fishSearchAux_hit (l : List Char) (r : List Char × List Char)
    (h : fishTryAt l = some r) (hne : l ≠ []) :
    fishSearchAux l.length l = some r := by
  cases l with
  | nil => exact absurd rfl hne
  | cons c t =>
    show fishSearchAux (t.length + 1) (c :: t) = some r
    rw [fishSearchAux, h]

theorem toList_mk (l : List Char) : (String.mk l).toList = l := rfl

theorem mk_toList (s : String) : String.mk s.toList = s := by
  cases s
  rfl

theorem toList_inj (s t : String) (h : s.toList = t.toList) : s = t := by
  cases s
  cases t
  exact congrArg String.mk h

theorem plainChar_low (c : Char) (h : plainChar c = true) : low c = c := by
  rcases plainChar_spec c h with ⟨h1, -, -⟩
  exact low_lower c (le_trans (by decide) h1)

theorem plainChar_ne_d (c : Char) (h : plainChar c = true) : low c ≠ 'd' := by
  rcases plainChar_spec c h with ⟨h1, -, h3⟩
  rw [low_lower c (le_trans (by decide) h1)]
  exact h3

theorem plainChar_digit (c : Char) (h : plainChar c = true) : isDigitChar c = false := by
  rcases plainChar_spec c h with ⟨h1, -, -⟩
  exact isDigitChar_false_of_ge c (le_trans (by decide) h1)

theorem sufChar_ne_lt (c : Char) (h : sufChar c = true) : c ≠ '<' := by
  rcases sufChar_spec c h with ⟨h1, -, -⟩ | rfl
  · rintro rfl
    exact absurd h1 (by decide)
  · decide

theorem sufChar_ne_brace (c : Char) (h : sufChar c = true) : c ≠ '{' ∧ c ≠ '}' := by
  rcases sufChar_spec c h with ⟨-, h2, -⟩ | rfl
  · constructor <;>
      · rintro rfl
        exact absurd h2 (by decide)
  · constructor <;> decide

/-- Decimal identifier string of a canonical index. -/
def domIdx (i : Nat) : String := String.mk (natChars i)

/-- One canonical fish-set line: `fish set @Domain{i}{s}= {v}`. -/
def c2line (i : Nat) (s v : String) : String :=
  "fish set @Domain" ++ domIdx i ++ s ++ "= " ++ v

/-- The canonical decoder input: one fish-set line per domain index and
field suffix. -/
def c2lines (N : Nat) (sufs : List String) (lit : Nat → String → String) : List String :=
  (List.range' 1 N).flatMap (fun i => sufs.map (fun s => c2line i s (lit i s)))

/-- The reference section shared by both decoders: one templated key per
field suffix, whose `outputfile_name` is the key itself. -/
def c2ref (sufs : List String) (iname : String → String) : RefLib :=
  sufs.map (fun s => ("<index>" ++ s, ⟨some (iname s), some ("<index>" ++ s)⟩))

/-- Well-formedness of a canonical field suffix: it starts with `_` and uses
only suffix characters. -/
def sufOK (s : String) : Bool :=
  s.toList.head? = some '_' ∧ s.toList.all sufChar

/-- Well-formedness of a canonical literal payload: nonempty, plain
characters only. -/
def plainOK (v : String) : Bool :=
  v.toList ≠ [] ∧ v.toList.all plainChar

theorem sufOK_spec (s : String) (h : sufOK s = true) :
    (∃ s2, s.toList = '_' :: s2) ∧ ∀ c ∈ s.toList, sufChar c = true := by
  have h2 : s.toList.head? = some '_' ∧ s.toList.all sufChar = true := by
    simpa [sufOK] using h
  constructor
  · cases hl : s.toList with
    | nil =>
      rw [hl] at h2
      simp at h2
    | cons c t =>
      rw [hl] at h2
      have hc : c = '_' := by simpa using h2.1
      exact ⟨t, by rw [hc]⟩
  · intro c hc
    exact List.all_eq_true.mp h2.2 c hc

theorem plainOK_spec (v : String) (h : plainOK v = true) :
    v.toList ≠ [] ∧ ∀ c ∈ v.toList, plainChar c = true := by
  have h2 : v.toList ≠ [] ∧ v.toList.all plainChar = true := by
    simpa [plainOK] using h
  exact ⟨h2.1, fun c hc => List.all_eq_true.mp h2.2 c hc⟩

theorem c2line_toList (i : Nat) (hi1 : 1 ≤ i) (hi9 : i ≤ 9) (s v : String) :
    (c2line i s v).toList =
      "fish set @Domain".toList ++
        digitChar10 i :: (s.toList ++ '=' :: ' ' :: v.toList) := by
  rw [c2line, toList_append, toList_append, toList_append, toList_append, domIdx, toList_mk,
    natChars_single i hi1 hi9]
  simp [List.append_assoc]

theorem foldl_congr_fn {α β : Type} (f g : α → β → α) (l : List β) (a : α)
    (h : ∀ x ∈ l, ∀ a2, f a2 x = g a2 x) : l.foldl f a = l.foldl g a := by
  induction l generalizing a with
  | nil => rfl
  | cons x rest ih =>
    rw [List.foldl_cons, List.foldl_cons, h x (List.mem_cons_self x rest) a]
    exact ih (g a x) (fun y hy a2 => h y (List.mem_cons_of_mem x hy) a2)

theorem foldl_flatMap {α β γ : Type} (l : List α) (g : α → List β) (f : γ → β → γ) (a : γ) :
    (l.flatMap g).foldl f a = l.foldl (fun a2 x => (g x).foldl f a2) a := by
  induction l generalizing a with
  | nil => rfl
  | cons x rest ih =>
    rw [List.flatMap_cons, List.foldl_append, List.foldl_cons, ih]

theorem flatMap_congr_mem {α β : Type} (l : List α) (f g : α → List β)
    (h : ∀ x ∈ l, f x = g x) : l.flatMap f = l.flatMap g := by
  induction l with
  | nil => rfl
  | cons x rest ih =>
    rw [List.flatMap_cons, List.flatMap_cons, h x (List.mem_cons_self x rest),
      ih (fun y hy => h y (List.mem_cons_of_mem x hy))]

theorem lineIdx_c2 (i : Nat) (hi1 : 1 ≤ i) (hi9 : i ≤ 9) (s v : String)
    (hsOK : sufOK s = true) (hvOK : plainOK v = true) :
    lineIdx "Domain" (c2line i s v) = some i := by
  obtain ⟨⟨s2, hs2⟩, -⟩ := sufOK_spec s hsOK
  rw [lineIdx, c2line_toList i hi1 hi9, hs2]
  have hL : "fish set @Domain".toList ++
      digitChar10 i :: (('_' :: s2) ++ '=' :: ' ' :: v.toList) =
      "fish set @".toList ++
        ("Domain".toList ++ digitChar10 i :: ('_' :: s2 ++ '=' :: ' ' :: v.toList)) := rfl
  rw [hL]
  exact idxSearch_c2_line i hi1 hi9 s2 ('=' :: ' ' :: v.toList)

theorem scanPairs_c2 (N : Nat) (hN : N ≤ 9) (sufs : List String) (hne : sufs ≠ [])
    (lit : Nat → String → String)
    (hsOK : ∀ s ∈ sufs, sufOK s = true)
    (hlit : ∀ i ∈ List.range' 1 N, ∀ s ∈ sufs, plainOK (lit i s) = true) :
    scanPairs (c2lines N sufs lit) "Domain" =
      (List.range' 1 N).map (fun i => (domIdx i, "Domain" ++ domIdx i)) := by
  rw [scanPairs]
  rw [if_neg (by decide), if_neg (by decide)]
  have hfm : (c2lines N sufs lit).filterMap (lineIdx "Domain") =
      (List.range' 1 N).flatMap (fun i => sufs.map (fun _ => i)) := by
    rw [c2lines, filterMap_flatMap]
    refine flatMap_congr_mem _ _ _ ?_
    intro i hi
    have hib := List.mem_range'_1.mp hi
    rw [List.filterMap_map]
    refine filterMap_congr_some _ _ _ ?_
    intro s hs
    exact lineIdx_c2 i (by omega) (by omega) s (lit i s) (hsOK s hs) (hlit i hi s hs)
  rw [hfm, sortedDedupNat_eq_range']
  · rfl
  · intro x
    constructor
    · intro hx
      rcases List.mem_flatMap.mp hx with ⟨i, hi, hxi⟩
      rcases List.mem_map.mp hxi with ⟨s, -, rfl⟩
      exact hi
    · intro hx
      rcases List.exists_mem_of_ne_nil sufs hne with ⟨s0, hs0⟩
      exact List.mem_flatMap.mpr ⟨x, hx, List.mem_map.mpr ⟨s0, hs0, rfl⟩⟩

theorem domName_toList (i : Nat) (hi1 : 1 ≤ i) (hi9 : i ≤ 9) :
    ("Domain" ++ domIdx i).toList = "Domain".toList ++ [digitChar10 i] := by
  rw [toList_append, domIdx, toList_mk, natChars_single i hi1 hi9]
  rfl

theorem c2line_ciSub (N : Nat) (hN : N ≤ 9) (sufs : List String)
    (lit : Nat → String → String)
    (hsOK : ∀ s ∈ sufs, sufOK s = true)
    (hlit : ∀ i ∈ List.range' 1 N, ∀ s ∈ sufs, plainOK (lit i s) = true)
    (i : Nat) (hi1 : 1 ≤ i) (hi9 : i ≤ 9)
    (j : Nat) (hj : j ∈ List.range' 1 N) (s : String) (hs : s ∈ sufs) :
    (ciSub ("Domain" ++ domIdx i).toList (c2line j s (lit j s)).toList = true) ↔ i = j := by
  have hjb := List.mem_range'_1.mp hj
  rw [domName_toList i hi1 hi9, c2line_toList j (by omega) (by omega)]
  have hL : "fish set @Domain".toList ++
      digitChar10 j :: (s.toList ++ '=' :: ' ' :: (lit j s).toList) =
      "fish set @".toList ++
        ("Domain".toList ++
          digitChar10 j :: (s.toList ++ '=' :: ' ' :: (lit j s).toList)) := rfl
  rw [hL]
  refine ciSub_line_iff i j hi1 hi9 (by omega) (by omega) _ _ (by decide) ?_
  intro c hc
  rcases List.mem_append.mp hc with h1 | h2
  · exact sufChar_ne_d c ((sufOK_spec s (hsOK s hs)).2 c h1)
  · rcases List.mem_cons.mp h2 with rfl | h3
    · decide
    · rcases List.mem_cons.mp h3 with rfl | h4
      · decide
      · exact plainChar_ne_d c ((plainOK_spec _ (hlit j hj s hs)).2 c h4)

theorem scanRelevant_c2 (N : Nat) (hN : N ≤ 9) (sufs : List String)
    (lit : Nat → String → String)
    (hsOK : ∀ s ∈ sufs, sufOK s = true)
    (hlit : ∀ i ∈ List.range' 1 N, ∀ s ∈ sufs, plainOK (lit i s) = true)
    (i : Nat) (hi : i ∈ List.range' 1 N) :
    scanRelevant (c2lines N sufs lit) "Domain" (domIdx i, "Domain" ++ domIdx i) =
      sufs.map (fun s => c2line i s (lit i s)) := by
  have hib := List.mem_range'_1.mp hi
  rw [scanRelevant, if_neg (by decide), c2lines, filter_flatMap]
  rw [flatMap_single (List.range' 1 N) i _ (List.nodup_range' 1 N) hi ?_]
  · refine List.filter_eq_self.mpr ?_
    intro line hline
    rcases List.mem_map.mp hline with ⟨s, hsm, rfl⟩
    exact (c2line_ciSub N hN sufs lit hsOK hlit i (by omega) (by omega) i hi s hsm).mpr rfl
  · intro j hj hji
    refine List.filter_eq_nil_iff.mpr ?_
    intro line hline
    rcases List.mem_map.mp hline with ⟨s, hsm, rfl⟩
    intro hc
    exact hji ((c2line_ciSub N hN sufs lit hsOK hlit i (by omega) (by omega) j hj s hsm).mp
      hc).symm

theorem mk_append (a b : String) : String.mk (a.toList ++ b.toList) = a ++ b := by
  cases a
  cases b
  rfl

theorem keyMatch_c2_str (i j : Nat) (hi1 : 1 ≤ i) (hi9 : i ≤ 9) (hj1 : 1 ≤ j) (hj9 : j ≤ 9)
    (sp s v : String) (hsp : sufOK sp = true) (hs : sufOK s = true) (hv : plainOK v = true) :
    keyMatch (domIdx i ++ sp) (c2line j s v) =
      (if i = j ∧ sp = s then some v.toList else none) := by
  rw [keyMatch, c2line_toList j hj1 hj9, toList_append, domIdx, toList_mk,
    natChars_single i hi1 hi9]
  have hk : ([digitChar10 i] : List Char) ++ sp.toList = digitChar10 i :: sp.toList := rfl
  rw [hk]
  rw [keyMatch_line_c2 i j hi1 hi9 hj1 hj9 sp.toList s.toList v.toList
    (sufOK_spec sp hsp).2 (sufOK_spec s hs).2 (plainOK_spec v hv).1 ?_]
  · have hiff : (i = j ∧ sp.toList = s.toList) ↔ (i = j ∧ sp = s) := by
      constructor
      · rintro ⟨h1, h2⟩
        exact ⟨h1, toList_inj sp s h2⟩
      · rintro ⟨h1, rfl⟩
        exact ⟨h1, rfl⟩
    rw [if_congr hiff rfl rfl]
  · intro c hc
    have hp := (plainOK_spec v hv).2 c hc
    refine ⟨plainChar_ws c hp, ?_⟩
    rw [plainChar_low c hp]
    exact plainChar_digit c hp

theorem buildPatterns_c2 (sufs : List String) (iname : String → String)
    (hiname : ∀ s ∈ sufs, iname s ≠ "")
    (hsuf : ∀ s ∈ sufs, sufOK s = true) (i : Nat) :
    buildPatterns (c2ref sufs iname) (domIdx i) ("Domain" ++ domIdx i) =
      sufs.map (fun s => (domIdx i ++ s, iname s)) := by
  rw [buildPatterns, c2ref, List.filterMap_map]
  refine filterMap_congr_some _ _ _ ?_
  intro s hs
  have hA : inStr "<" ("<index>" ++ s) = true := by
    rw [inStr, toList_append, decide_eq_true_iff]
    exact ⟨[], "index>".toList ++ s.toList, rfl⟩
  have hB : inStr ">" ("<index>" ++ s) = true := by
    rw [inStr, toList_append, decide_eq_true_iff]
    refine ⟨"<index".toList, s.toList, ?_⟩
    rfl
  show (if ¬ (inStr "<" ("<index>" ++ s) = true ∧ inStr ">" ("<index>" ++ s) = true) then none
    else if iname s = "" then none
    else some (String.mk (resolvePlaceholders ("<index>" ++ s).toList
      (fun tok => some (if lowL tok = "index".toList then (domIdx i).toList
        else ("Domain" ++ domIdx i).toList))), iname s)) =
      some (domIdx i ++ s, iname s)
  rw [if_neg (by simp [hA, hB]), if_neg (hiname s hs)]
  have hres : resolvePlaceholders ("<index>" ++ s).toList
      (fun tok => some (if lowL tok = "index".toList then (domIdx i).toList
        else ("Domain" ++ domIdx i).toList)) = (domIdx i).toList ++ s.toList := by
    rw [resolvePlaceholders, toList_append]
    refine resolvePH_index _ s.toList
      (fun c hc => sufChar_ne_lt c ((sufOK_spec s (hsuf s hs)).2 c hc)) _ ?_
    show some (if lowL "index".toList = "index".toList then (domIdx i).toList
      else ("Domain" ++ domIdx i).toList) = some ((domIdx i).toList)
    rw [if_pos (by decide)]
  rw [hres, mk_append]

/-- The field map the scan decoder builds for canonical domain `i`: the
`name` entry lands right after the first decoded field. -/
def c2scanMap (iname : String → String) (lit : Nat → String → String)
    (sufs : List String) (i : Nat) : FieldMap :=
  match sufs with
  | [] => []
  | s :: rest => (iname s, lit i s) :: ("name", "Domain" ++ domIdx i) ::
      rest.map (fun t => (iname t, lit i t))

theorem cleanVal_plain (v : List Char) (hv : ∀ c ∈ v, plainChar c = true) :
    cleanVal v = v := by
  rw [cleanVal, takeWhile_all_true _ _ ?_, pyStripL_id _ (fun c hc => plainChar_ws c (hv c hc))]
  intro c hc
  have h1 := plainChar_spec c (hv c hc)
  simp only [Bool.decide_and, Bool.and_eq_true, decide_eq_true_eq]
  constructor
  · rintro rfl
    exact absurd h1.1 (by decide)
  · rintro rfl
    exact absurd h1.1 (by decide)

theorem foldl_scan_tail (D : String) (key val : String → String) (rest : List String)
    (m : FieldMap)
    (hmn : m.any (fun p => p.1 = "name") = true)
    (hmv : ∀ p ∈ m, p.1 = "name" → p.2 = D)
    (hfresh : ∀ t ∈ rest, ∀ p ∈ m, p.1 ≠ key t)
    (hpair : List.Pairwise (fun a b => key a ≠ key b) rest)
    (hkn : ∀ t ∈ rest, key t ≠ "name") :
    rest.foldl (fun m2 t => upsert (upsert m2 (key t) (val t)) "name" D) m =
      m ++ rest.map (fun t => (key t, val t)) := by
  induction rest generalizing m with
  | nil => simp
  | cons t rest2 ih =>
    rw [List.foldl_cons]
    have h1 : upsert m (key t) (val t) = m ++ [(key t, val t)] :=
      upsert_fresh m _ _ (fun p hp => hfresh t (List.mem_cons_self t rest2) p hp)
    have h2 : upsert (m ++ [(key t, val t)]) "name" D = m ++ [(key t, val t)] := by
      refine upsert_stable _ _ _ ?_ ?_
      · rw [List.any_append]
        simp [hmn]
      · intro p hp hpn
        rcases List.mem_append.mp hp with hp1 | hp1
        · exact hmv p hp1 hpn
        · have hpe : p = (key t, val t) := by simpa using hp1
          rw [hpe] at hpn
          exact absurd hpn (hkn t (List.mem_cons_self t rest2))
    rw [h1, h2]
    have h3 := ih (m ++ [(key t, val t)])
      (by rw [List.any_append]; simp [hmn])
      (by
        intro p hp hpn
        rcases List.mem_append.mp hp with hp1 | hp1
        · exact hmv p hp1 hpn
        · have hpe : p = (key t, val t) := by simpa using hp1
          rw [hpe] at hpn
          exact absurd hpn (hkn t (List.mem_cons_self t rest2)))
      (by
        intro t2 ht2 p hp
        rcases List.mem_append.mp hp with hp1 | hp1
        · exact hfresh t2 (List.mem_cons_of_mem t ht2) p hp1
        · have hpe : p = (key t, val t) := by simpa using hp1
          rw [hpe]
          exact (List.pairwise_cons.mp hpair).1 t2 ht2)
      (List.pairwise_cons.mp hpair).2
      (fun t2 ht2 => hkn t2 (List.mem_cons_of_mem t ht2))
    rw [h3, List.map_cons, List.append_assoc]
    rfl

theorem foldl_scanMap (D : String) (key val : String → String) (l : List String)
    (hpair : List.Pairwise (fun a b => key a ≠ key b) l)
    (hkn : ∀ t ∈ l, key t ≠ "name") :
    l.foldl (fun m t => upsert (upsert m (key t) (val t)) "name" D) [] =
      (match l with
      | [] => []
      | s :: rest => (key s, val s) :: ("name", D) :: rest.map (fun t => (key t, val t))) := by
  cases l with
  | nil => rfl
  | cons s rest =>
    rw [List.foldl_cons]
    have h1 : upsert (upsert ([] : FieldMap) (key s) (val s)) "name" D =
        [(key s, val s), ("name", D)] := by
      have h0 : upsert ([] : FieldMap) (key s) (val s) = [(key s, val s)] := rfl
      have hfr : ∀ p ∈ [(key s, val s)], p.1 ≠ "name" := by
        intro p hp
        have hpe : p = (key s, val s) := by simpa using hp
        rw [hpe]
        exact hkn s (List.mem_cons_self s rest)
      rw [h0, upsert_fresh _ _ _ hfr]
      rfl
    rw [h1]
    have h3 := foldl_scan_tail D key val rest [(key s, val s), ("name", D)]
      (by simp)
      (by
        intro p hp hpn
        rcases List.mem_cons.mp hp with hpe | hp1
        · rw [hpe] at hpn
          exact absurd hpn (hkn s (List.mem_cons_self s rest))
        · have hpe : p = ("name", D) := by simpa using hp1
          rw [hpe])
      (by
        intro t ht p hp
        rcases List.mem_cons.mp hp with hpe | hp1
        · rw [hpe]
          exact (List.pairwise_cons.mp hpair).1 t ht
        · have hpe : p = ("name", D) := by simpa using hp1
          rw [hpe]
          exact fun hc => (hkn t (List.mem_cons_of_mem s ht)) hc.symm)
      (List.pairwise_cons.mp hpair).2
      (fun t ht => hkn t (List.mem_cons_of_mem s ht))
    rw [h3]
    rfl

theorem processIdent_c2 (N : Nat) (hN : N ≤ 9) (sufs : List String) (hne : sufs ≠ [])
    (hnd : sufs.Nodup) (iname : String → String) (lit : Nat → String → String)
    (hsOK : ∀ s ∈ sufs, sufOK s = true)
    (hlit : ∀ i2 ∈ List.range' 1 N, ∀ s ∈ sufs, plainOK (lit i2 s) = true)
    (hipair : List.Pairwise (fun a b => iname a ≠ iname b) sufs)
    (hin : ∀ s ∈ sufs, iname s ≠ "" ∧ iname s ≠ "name")
    (i : Nat) (hi : i ∈ List.range' 1 N) (objs : ObjDict)
    (hobjs : ∀ p ∈ objs, p.1 ≠ "Domain" ++ domIdx i) :
    processIdent (c2ref sufs iname) (sufs.map (fun s => c2line i s (lit i s)))
      (domIdx i) ("Domain" ++ domIdx i) objs =
      objs ++ [("Domain" ++ domIdx i, c2scanMap iname lit sufs i)] := by
  have hib := List.mem_range'_1.mp hi
  rw [processIdent, buildPatterns_c2 sufs iname (fun s hs => (hin s hs).1) hsOK i,
    List.foldl_map]
  refine (foldl_congr_fn _ (fun a sl => upsertObj a ("Domain" ++ domIdx i)
      (fun m => upsert (upsert m (iname sl) (lit i sl)) "name" ("Domain" ++ domIdx i)))
      sufs objs ?_).trans ?_
  · intro sl hsl a
    show _ = upsertObj a ("Domain" ++ domIdx i)
      (fun m => upsert (upsert m (iname sl) (lit i sl)) "name" ("Domain" ++ domIdx i))
    refine foldl_single_hit _ (fun a2 => upsertObj a2 ("Domain" ++ domIdx i)
      (fun m => upsert (upsert m (iname sl) (lit i sl)) "name" ("Domain" ++ domIdx i)))
      _ (domIdx i ++ sl, iname sl) ?_ ?_ ?_ ?_ a
    · refine List.Nodup.map_on ?_ hnd
      intro x hx y hy hxy
      have h1 : domIdx i ++ x = domIdx i ++ y := congrArg Prod.fst hxy
      exact strAppend_cancel _ _ _ h1
    · exact List.mem_map.mpr ⟨sl, hsl, rfl⟩
    · intro y hy hyx a2
      rcases List.mem_map.mp hy with ⟨s2, hs2, rfl⟩
      have hs2sl : s2 ≠ sl := by
        rintro rfl
        exact hyx rfl
      have hkm := keyMatch_c2_str i i (by omega) (by omega) (by omega) (by omega)
        s2 sl (lit i sl) (hsOK s2 hs2) (hsOK sl hsl) (hlit i hi sl hsl)
      rw [if_neg (by rintro ⟨-, rfl⟩; exact hs2sl rfl)] at hkm
      show (match keyMatch (domIdx i ++ s2) (c2line i sl (lit i sl)) with
        | none => a2
        | some raw =>
          upsertObj a2 ("Domain" ++ domIdx i)
            (fun m => upsert (upsert m (if iname s2 ≠ "" then iname s2 else domIdx i ++ s2)
              (String.mk (cleanVal raw))) "name" ("Domain" ++ domIdx i))) = a2
      rw [hkm]
    · intro a2
      have hkm := keyMatch_c2_str i i (by omega) (by omega) (by omega) (by omega)
        sl sl (lit i sl) (hsOK sl hsl) (hsOK sl hsl) (hlit i hi sl hsl)
      rw [if_pos ⟨rfl, rfl⟩] at hkm
      show (match keyMatch (domIdx i ++ sl) (c2line i sl (lit i sl)) with
        | none => a2
        | some raw =>
          upsertObj a2 ("Domain" ++ domIdx i)
            (fun m => upsert (upsert m (if iname sl ≠ "" then iname sl else domIdx i ++ sl)
              (String.mk (cleanVal raw))) "name" ("Domain" ++ domIdx i))) =
        upsertObj a2 ("Domain" ++ domIdx i)
          (fun m => upsert (upsert m (iname sl) (lit i sl)) "name" ("Domain" ++ domIdx i))
      rw [hkm]
      show upsertObj a2 ("Domain" ++ domIdx i)
          (fun m => upsert (upsert m (if iname sl ≠ "" then iname sl else domIdx i ++ sl)
            (String.mk (cleanVal (lit i sl).toList))) "name" ("Domain" ++ domIdx i)) =
        upsertObj a2 ("Domain" ++ domIdx i)
          (fun m => upsert (upsert m (iname sl) (lit i sl)) "name" ("Domain" ++ domIdx i))
      rw [if_pos (hin sl hsl).1, cleanVal_plain _ (plainOK_spec _ (hlit i hi sl hsl)).2,
        mk_toList]
  · refine (foldl_upsertObj_entry ("Domain" ++ domIdx i)
        (fun m sl => upsert (upsert m (iname sl) (lit i sl)) "name" ("Domain" ++ domIdx i))
        sufs hne objs hobjs).trans ?_
    have hfold : sufs.foldl (fun m sl =>
        upsert (upsert m (iname sl) (lit i sl)) "name" ("Domain" ++ domIdx i)) [] =
        c2scanMap iname lit sufs i := by
      rw [foldl_scanMap ("Domain" ++ domIdx i) iname (fun sl => lit i sl) sufs hipair
        (fun t ht => (hin t ht).2)]
      cases sufs <;> rfl
    rw [hfold]

theorem findMatchingObjects_c2 (N : Nat) (hN : N ≤ 9) (sufs : List String) (hne : sufs ≠ [])
    (hnd : sufs.Nodup) (iname : String → String) (lit : Nat → String → String)
    (hsOK : ∀ s ∈ sufs, sufOK s = true)
    (hlit : ∀ i ∈ List.range' 1 N, ∀ s ∈ sufs, plainOK (lit i s) = true)
    (hipair : List.Pairwise (fun a b => iname a ≠ iname b) sufs)
    (hin : ∀ s ∈ sufs, iname s ≠ "" ∧ iname s ≠ "name") :
    findMatchingObjects (c2lines N sufs lit) "Domain" (c2ref sufs iname) =
      (List.range' 1 N).map (fun i => c2scanMap iname lit sufs i) := by
  rw [findMatchingObjects, scanPairs_c2 N hN sufs hne lit hsOK hlit, List.foldl_map]
  rw [foldl_congr_fn _ (fun objs i =>
      processIdent (c2ref sufs iname)
        (scanRelevant (c2lines N sufs lit) "Domain" (domIdx i, "Domain" ++ domIdx i))
        (domIdx i) ("Domain" ++ domIdx i) objs) _ _ (fun x hx a => rfl)]
  suffices h : ∀ M, M ≤ N →
      (List.range' 1 M).foldl (fun objs i =>
        processIdent (c2ref sufs iname)
          (scanRelevant (c2lines N sufs lit) "Domain" (domIdx i, "Domain" ++ domIdx i))
          (domIdx i) ("Domain" ++ domIdx i) objs) [] =
      (List.range' 1 M).map (fun i =>
        ("Domain" ++ domIdx i, c2scanMap iname lit sufs i)) by
    rw [h N le_rfl, List.map_map]
    rfl
  intro M
  induction M with
  | zero =>
    intro _
    rfl
  | succ M ih =>
    intro hM
    rw [List.range'_1_concat, List.foldl_append, ih (by omega), List.foldl_cons,
      List.foldl_nil]
    have hm1M : (1 + M) ∈ List.range' 1 N := List.mem_range'_1.mpr ⟨by omega, by omega⟩
    have hfresh : ∀ p ∈ (List.range' 1 M).map (fun i =>
        ("Domain" ++ domIdx i, c2scanMap iname lit sufs i)), p.1 ≠ "Domain" ++ domIdx (1 + M) := by
      intro p hp
      rcases List.mem_map.mp hp with ⟨j, hj, rfl⟩
      have hjb := List.mem_range'_1.mp hj
      intro hc
      have hji : j = 1 + M := by
        have h2 : domIdx j = domIdx (1 + M) := strAppend_cancel "Domain" _ _ hc
        have h3 : natChars j = natChars (1 + M) := by
          have := congrArg String.toList h2
          simpa [domIdx] using this
        exact natChars_injective h3
      omega
    rw [scanRelevant_c2 N hN sufs lit hsOK hlit (1 + M) hm1M,
      processIdent_c2 N hN sufs hne hnd iname lit hsOK hlit hipair hin (1 + M) hm1M _ hfresh,
      List.map_append]
    rfl

/-- The lower-cased fish-dict key of one canonical field. -/
def dkeyStr (i : Nat) (s : String) : String :=
  String.mk ("domain".toList ++ digitChar10 i :: s.toList)

/-- The canonical fish dict: one entry per domain index and suffix. -/
def c2pairs (N : Nat) (sufs : List String) (lit : Nat → String → String) : FieldMap :=
  (List.range' 1 N).flatMap (fun i => sufs.map (fun s => (dkeyStr i s, lit i s)))

theorem reverse_head_append (X v : List Char) (hv : v ≠ []) :
    (X ++ v).reverse.head? = v.reverse.head? := by
  rw [List.reverse_append]
  rcases hr : v.reverse with _ | ⟨c, t⟩
  · exact absurd (by simpa using congrArg List.reverse hr) hv
  · rfl

theorem fishParse_c2 (i : Nat) (hi1 : 1 ≤ i) (hi9 : i ≤ 9) (s v : String)
    (hsOK : sufOK s = true) (hvOK : plainOK v = true) :
    fishParse (c2line i s v) =
      some ("Domain".toList ++ digitChar10 i :: s.toList, v.toList) := by
  obtain ⟨hvne, hvp⟩ := plainOK_spec v hvOK
  rw [fishParse, c2line_toList i hi1 hi9]
  have hstrip : pyStripL ("fish set @Domain".toList ++
      digitChar10 i :: (s.toList ++ '=' :: ' ' :: v.toList)) =
      "fish set @Domain".toList ++ digitChar10 i :: (s.toList ++ '=' :: ' ' :: v.toList) := by
    refine pyStripL_ends _ ?_ ?_
    · intro c hc
      have hh : ("fish set @Domain".toList ++
          digitChar10 i :: (s.toList ++ '=' :: ' ' :: v.toList)).head? = some 'f' := rfl
      rw [hh] at hc
      cases hc
      decide
    · intro c hc
      have harr : "fish set @Domain".toList ++
          digitChar10 i :: (s.toList ++ '=' :: ' ' :: v.toList) =
          ("fish set @Domain".toList ++ digitChar10 i :: (s.toList ++ ['=', ' '])) ++
            v.toList := by
        simp [List.cons_append, List.append_assoc]
      rw [harr, reverse_head_append _ _ hvne] at hc
      rcases hr : v.toList.reverse with _ | ⟨c2, t2⟩
      · rw [hr] at hc
        cases hc
      · rw [hr] at hc
        cases hc
        exact plainChar_ws c (hvp c (List.mem_reverse.mp (by rw [hr]; exact List.mem_cons_self c t2)))
  rw [hstrip]
  refine fishSearchAux_hit _ _ ?_ (by simp)
  exact fishTryAt_c2_line i hi1 hi9 s.toList v.toList (sufOK_spec s hsOK).2 hvne hvp

theorem lowL_domvar (i : Nat) (hi1 : 1 ≤ i) (hi9 : i ≤ 9) (s : String)
    (hsOK : sufOK s = true) :
    lowL ("Domain".toList ++ digitChar10 i :: s.toList) =
      "domain".toList ++ digitChar10 i :: s.toList := by
  have hdi : isDigitChar (digitChar10 i) = true := isDigitChar_digitChar10 i (by omega)
  rw [lowL, List.map_append, List.map_cons, low_digit _ hdi,
    (by decide : List.map low "Domain".toList = "domain".toList),
    map_id_of s.toList low (fun c hc => sufChar_low c ((sufOK_spec s hsOK).2 c hc))]

theorem dkeyStr_inj (i j : Nat) (hi1 : 1 ≤ i) (hi9 : i ≤ 9) (hj1 : 1 ≤ j) (hj9 : j ≤ 9)
    (s t : String) (h : dkeyStr i s = dkeyStr j t) : i = j ∧ s = t := by
  have h2 : "domain".toList ++ digitChar10 i :: s.toList =
      "domain".toList ++ digitChar10 j :: t.toList := congrArg String.toList h
  have h3 := List.append_cancel_left h2
  have h4 : digitChar10 i = digitChar10 j := by injection h3
  have h5 : s.toList = t.toList := by injection h3
  exact ⟨digitChar10_inj i j (by omega) (by omega) h4, toList_inj s t h5⟩

theorem c2pairs_pairwise (sufs : List String) (hnd : sufs.Nodup)
    (v : Nat → String → String) :
    ∀ l : List Nat, l.Nodup → (∀ i ∈ l, 1 ≤ i ∧ i ≤ 9) →
      List.Pairwise (fun p q => p.1 ≠ q.1)
        (l.flatMap (fun i => sufs.map (fun s => (dkeyStr i s, v i s)))) := by
  intro l
  induction l with
  | nil =>
    intro _ _
    simp
  | cons i l2 ih =>
    intro hnd2 hb
    have hib := hb i (List.mem_cons_self i l2)
    rw [List.flatMap_cons]
    refine List.pairwise_append.mpr ⟨?_, ?_, ?_⟩
    · refine List.pairwise_map.mpr ?_
      refine List.Pairwise.imp ?_ hnd
      intro a b hab hc
      exact hab (dkeyStr_inj i i (by omega) (by omega) (by omega) (by omega) a b hc).2
    · exact ih (List.nodup_cons.mp hnd2).2 (fun j hj => hb j (List.mem_cons_of_mem i hj))
    · intro a ha b hb2
      rcases List.mem_map.mp ha with ⟨s, hs, rfl⟩
      rcases List.mem_flatMap.mp hb2 with ⟨j, hj, hbj⟩
      rcases List.mem_map.mp hbj with ⟨t, ht, rfl⟩
      have hjb := hb j (List.mem_cons_of_mem i hj)
      intro hc
      have hij := (dkeyStr_inj i j (by omega) (by omega) (by omega) (by omega) s t hc).1
      exact (List.nodup_cons.mp hnd2).1 (hij ▸ hj)

theorem fishDictOf_c2 (N : Nat) (hN : N ≤ 9) (sufs : List String) (hnd : sufs.Nodup)
    (lit : Nat → String → String)
    (hsOK : ∀ s ∈ sufs, sufOK s = true)
    (hlit : ∀ i ∈ List.range' 1 N, ∀ s ∈ sufs, plainOK (lit i s) = true) :
    fishDictOf (c2lines N sufs lit) = c2pairs N sufs lit := by
  rw [fishDictOf, c2lines, foldl_flatMap]
  rw [foldl_congr_fn _ (fun d i =>
      sufs.foldl (fun d2 s => upsert d2 (dkeyStr i s) (lit i s)) d) _ _ ?_]
  · have h2 : (List.range' 1 N).foldl (fun d i =>
        sufs.foldl (fun d2 s => upsert d2 (dkeyStr i s) (lit i s)) d) [] =
        (c2pairs N sufs lit).foldl (fun d p => upsert d p.1 p.2) [] := by
      rw [c2pairs, foldl_flatMap]
      refine foldl_congr_fn _ _ _ _ ?_
      intro i hi d
      rw [List.foldl_map]
    rw [h2, foldl_upsert_append [] _ ?_ (by simp)]
    · rw [List.nil_append]
    · refine c2pairs_pairwise sufs hnd lit (List.range' 1 N) (List.nodup_range' 1 N) ?_
      intro i hi
      have := List.mem_range'_1.mp hi
      omega
  · intro i hi d
    have hib := List.mem_range'_1.mp hi
    rw [List.foldl_map]
    refine foldl_congr_fn _ _ _ _ ?_
    intro s hs d2
    have hfp := fishParse_c2 i (by omega) (by omega) s (lit i s) (hsOK s hs)
      (hlit i hi s hs)
    show (match fishParse (c2line i s (lit i s)) with
      | none => d2
      | some pr => upsert d2 (lowStr (String.mk pr.1)) (String.mk (pyStripL pr.2))) =
      upsert d2 (dkeyStr i s) (lit i s)
    rw [hfp]
    show upsert d2 (lowStr (String.mk ("Domain".toList ++ digitChar10 i :: s.toList)))
        (String.mk (pyStripL (lit i s).toList)) = upsert d2 (dkeyStr i s) (lit i s)
    rw [pyStripL_id _ (fun c hc => plainChar_ws c ((plainOK_spec _ (hlit i hi s hs)).2 c hc)),
      mk_toList]
    have hlow : lowStr (String.mk ("Domain".toList ++ digitChar10 i :: s.toList)) =
        dkeyStr i s := by
      rw [lowStr, toList_mk, lowL_domvar i (by omega) (by omega) s (hsOK s hs), dkeyStr]
    rw [hlow]

theorem find_key_unique (m : FieldMap) (k v : String) (hmem : (k, v) ∈ m)
    (hpw : List.Pairwise (fun p q => p.1 ≠ q.1) m) :
    m.find? (fun q => q.1 = k) = some (k, v) := by
  induction m with
  | nil => cases hmem
  | cons p rest ih =>
    rcases List.mem_cons.mp hmem with hpe | hmem2
    · rw [← hpe]
      exact List.find?_cons_of_pos _ (by simp)
    · have hpk : ¬ p.1 = k := by
        have := (List.pairwise_cons.mp hpw).1 (k, v) hmem2
        simpa using this
      rw [List.find?_cons_of_neg _ (by simpa using hpk)]
      exact ih hmem2 (List.pairwise_cons.mp hpw).2

theorem dictIdxs_c2 (N : Nat) (hN : N ≤ 9) (sufs : List String) (hne : sufs ≠ [])
    (lit : Nat → String → String) (hsOK : ∀ s ∈ sufs, sufOK s = true) :
    dictIdxs (c2pairs N sufs lit) "domain" = List.range' 1 N := by
  rw [dictIdxs, c2pairs, filterMap_flatMap]
  have hfm : ∀ i ∈ List.range' 1 N,
      (sufs.map (fun s => (dkeyStr i s, lit i s))).filterMap (fun p =>
        if ("domain" : String).toList.isPrefixOf p.1.toList then
          let after := p.1.toList.drop ("domain" : String).toList.length
          let ds := after.takeWhile isDigitChar
          if ds ≠ [] ∧ (after.drop ds.length).head? = some '_' then some (parseDig ds)
          else none
        else none) = sufs.map (fun _ => i) := by
    intro i hi
    have hib := List.mem_range'_1.mp hi
    have hdi : isDigitChar (digitChar10 i) = true := isDigitChar_digitChar10 i (by omega)
    rw [List.filterMap_map]
    refine filterMap_congr_some _ _ _ ?_
    intro s hs
    obtain ⟨⟨s2, hs2⟩, hsc⟩ := sufOK_spec s (hsOK s hs)
    have hkey : (dkeyStr i s).toList = "domain".toList ++ digitChar10 i :: s.toList := rfl
    have hpre : ("domain" : String).toList.isPrefixOf (dkeyStr i s).toList = true := by
      rw [hkey]
      exact List.isPrefixOf_iff_prefix.mpr ⟨digitChar10 i :: s.toList, rfl⟩
    have hdrop : (dkeyStr i s).toList.drop ("domain" : String).toList.length =
        digitChar10 i :: s.toList := rfl
    have hds : ((dkeyStr i s).toList.drop ("domain" : String).toList.length).takeWhile
        isDigitChar = [digitChar10 i] := by
      rw [hdrop, List.takeWhile_cons_of_pos hdi, hs2,
        List.takeWhile_cons_of_neg (by decide)]
    show (if ("domain" : String).toList.isPrefixOf (dkeyStr i s).toList then
        if ((dkeyStr i s).toList.drop ("domain" : String).toList.length).takeWhile
            isDigitChar ≠ [] ∧
          (((dkeyStr i s).toList.drop ("domain" : String).toList.length).drop
            (((dkeyStr i s).toList.drop ("domain" : String).toList.length).takeWhile
              isDigitChar).length).head? = some '_' then
          some (parseDig (((dkeyStr i s).toList.drop
            ("domain" : String).toList.length).takeWhile isDigitChar))
        else none
      else none) = some i
    rw [hpre, hds, hdrop]
    rw [if_pos rfl, if_pos ⟨by simp, by rw [hs2]; rfl⟩]
    simp [parseDig, charVal_digitChar10 i (by omega)]
  rw [flatMap_congr_mem _ _ _ hfm, sortedDedupNat_eq_range']
  intro x
  constructor
  · intro hx
    rcases List.mem_flatMap.mp hx with ⟨i, hi, hxi⟩
    rcases List.mem_map.mp hxi with ⟨s, -, rfl⟩
    exact hi
  · intro hx
    rcases List.exists_mem_of_ne_nil sufs hne with ⟨s0, hs0⟩
    exact List.mem_flatMap.mpr ⟨x, hx, List.mem_map.mpr ⟨s0, hs0, rfl⟩⟩

theorem objKey_toList (i : Nat) (hi1 : 1 ≤ i) (hi9 : i ≤ 9) :
    ("domain" ++ domIdx i).toList = "domain".toList ++ [digitChar10 i] := by
  rw [toList_append, domIdx, toList_mk, natChars_single i hi1 hi9]
  rfl

theorem dictData_c2 (N : Nat) (hN : N ≤ 9) (sufs : List String) (hnd : sufs.Nodup)
    (iname : String → String) (lit : Nat → String → String)
    (hsOK : ∀ s ∈ sufs, sufOK s = true)
    (hipair : List.Pairwise (fun a b => iname a ≠ iname b) sufs)
    (hin : ∀ s ∈ sufs, iname s ≠ "" ∧ iname s ≠ "name")
    (i : Nat) (hi : i ∈ List.range' 1 N) :
    dictData (c2ref sufs iname) (c2pairs N sufs lit) ("domain" ++ domIdx i) =
      sufs.map (fun s => (iname s, lit i s)) := by
  have hib := List.mem_range'_1.mp hi
  rw [dictData, c2ref, List.foldl_map]
  refine (foldl_congr_fn _ (fun data s => upsert data (iname s) (lit i s)) sufs [] ?_).trans
    ?_
  · intro s hs data
    obtain ⟨⟨s2, hs2⟩, hsc⟩ := sufOK_spec s (hsOK s hs)
    have htne : ("<index>" ++ s) ≠ "" := by
      intro hc
      have := congrArg String.toList hc
      rw [toList_append] at this
      simp at this
    have hlt : inStr "<" ("<index>" ++ s) = true := by
      rw [inStr, toList_append, decide_eq_true_iff]
      exact ⟨[], "index>".toList ++ s.toList, rfl⟩
    show (if ("<index>" ++ s) = "" then data
      else if iname s = "" then data
      else if ¬ inStr "<" ("<index>" ++ s) = true then data
      else
        match (c2pairs N sufs lit).find? (fun q => q.1 = lowStr (String.mk
            ((findTokens ("<index>" ++ s).toList).foldl (fun r tok =>
              replAll ('<' :: (tok ++ ['>'])) ("domain" ++ domIdx i).toList r.length r)
              ("<index>" ++ s).toList))) with
        | some q => upsert data (iname s) q.2
        | none => data) = upsert data (iname s) (lit i s)
    rw [if_neg htne, if_neg (hin s hs).1, if_neg (by rw [hlt]; simp)]
    have hres : (findTokens ("<index>" ++ s).toList).foldl (fun r tok =>
        replAll ('<' :: (tok ++ ['>'])) ("domain" ++ domIdx i).toList r.length r)
        ("<index>" ++ s).toList =
        ("domain" ++ domIdx i).toList ++ s.toList := by
      rw [toList_append "<index>" s,
        findTokens_index s.toList (fun c hc => sufChar_ne_lt c (hsc c hc)),
        List.foldl_cons, List.foldl_nil]
      have hflen : ("<index>".toList ++ s.toList).length =
          ("index>".toList ++ s.toList).length + 1 := by
        simp
      rw [hflen]
      exact replAll_index _ s.toList (fun c hc => sufChar_ne_lt c (hsc c hc)) _
        (le_of_eq hflen)
    rw [hres]
    have hdi : isDigitChar (digitChar10 i) = true := isDigitChar_digitChar10 i (by omega)
    have hlow : lowStr (String.mk (("domain" ++ domIdx i).toList ++ s.toList)) =
        dkeyStr i s := by
      rw [objKey_toList i (by omega) (by omega), lowStr, toList_mk]
      have harr : ("domain".toList ++ [digitChar10 i]) ++ s.toList =
          "domain".toList ++ digitChar10 i :: s.toList := by
        simp
      rw [harr]
      have hfix : lowL ("domain".toList ++ digitChar10 i :: s.toList) =
          "domain".toList ++ digitChar10 i :: s.toList := by
        rw [lowL, List.map_append, List.map_cons, low_digit _ hdi,
          (by decide : List.map low "domain".toList = "domain".toList),
          map_id_of s.toList low (fun c hc => sufChar_low c (hsc c hc))]
      rw [hfix, dkeyStr]
    rw [hlow]
    have hfind : (c2pairs N sufs lit).find? (fun q => q.1 = dkeyStr i s) =
        some (dkeyStr i s, lit i s) := by
      refine find_key_unique _ _ _ ?_ ?_
      · rw [c2pairs]
        exact List.mem_flatMap.mpr ⟨i, hi, List.mem_map.mpr ⟨s, hs, rfl⟩⟩
      · refine c2pairs_pairwise sufs hnd lit (List.range' 1 N) (List.nodup_range' 1 N) ?_
        intro j hj
        have := List.mem_range'_1.mp hj
        omega
    rw [hfind]
  · have h2 : sufs.foldl (fun data s => upsert data (iname s) (lit i s)) [] =
        (sufs.map (fun s => (iname s, lit i s))).foldl (fun d p => upsert d p.1 p.2) [] := by
      rw [List.foldl_map]
    rw [h2, foldl_upsert_append [] _ ?_ (by simp), List.nil_append]
    refine List.pairwise_map.mpr ?_
    refine List.Pairwise.imp ?_ hipair
    intro a b hab
    exact hab

/-- The field map the dictionary decoder builds for canonical domain `i`:
its `name` entry is appended last, and the identifier is lower-cased. -/
def c2dictMap (iname : String → String) (lit : Nat → String → String)
    (sufs : List String) (i : Nat) : FieldMap :=
  sufs.map (fun s => (iname s, lit i s)) ++ [("name", "domain" ++ domIdx i)]

theorem fmGet_append_single_ne (m : FieldMap) (k0 v0 key : String) (h : k0 ≠ key) :
    fmGet (m ++ [(k0, v0)]) key = fmGet m key := by
  induction m with
  | nil =>
    rw [List.nil_append, fmGet_cons_ne (k0, v0) [] key h]
  | cons p rest ih =>
    by_cases hp : p.1 = key
    · rw [List.cons_append, fmGet_cons_eq p _ key hp, fmGet_cons_eq p _ key hp]
    · rw [List.cons_append, fmGet_cons_ne p _ key hp, fmGet_cons_ne p _ key hp, ih]

theorem findMatchingObjectsFromDict_c2 (N : Nat) (hN : N ≤ 9) (sufs : List String)
    (hne : sufs ≠ []) (hnd : sufs.Nodup) (iname : String → String)
    (lit : Nat → String → String)
    (hsOK : ∀ s ∈ sufs, sufOK s = true)
    (hlit : ∀ i ∈ List.range' 1 N, ∀ s ∈ sufs, plainOK (lit i s) = true)
    (hipair : List.Pairwise (fun a b => iname a ≠ iname b) sufs)
    (hin : ∀ s ∈ sufs, iname s ≠ "" ∧ iname s ≠ "name") :
    findMatchingObjectsFromDict (c2lines N sufs lit) "Domain" (c2ref sufs iname) =
      (List.range' 1 N).map (fun i => c2dictMap iname lit sufs i) := by
  rw [findMatchingObjectsFromDict, fishDictOf_c2 N hN sufs hnd lit hsOK hlit]
  have hlow : lowStr "Domain" = "domain" := rfl
  rw [hlow, dictIdxs_c2 N hN sufs hne lit hsOK, List.filterMap_map]
  refine filterMap_congr_some _ _ _ ?_
  intro i hi
  have hd : String.mk (natChars i) = domIdx i := rfl
  show (if dictData (c2ref sufs iname) (c2pairs N sufs lit)
        ("domain" ++ String.mk (natChars i)) = [] then none
    else some (upsert (dictData (c2ref sufs iname) (c2pairs N sufs lit)
      ("domain" ++ String.mk (natChars i))) "name" ("domain" ++ String.mk (natChars i)))) =
    some (c2dictMap iname lit sufs i)
  rw [hd, dictData_c2 N hN sufs hnd iname lit hsOK hipair hin i hi]
  rw [if_neg (by simpa using hne)]
  rw [upsert_fresh _ _ _ ?_]
  · rw [c2dictMap]
  · intro p hp
    rcases List.mem_map.mp hp with ⟨s, hs, rfl⟩
    exact (hin s hs).2

theorem c2maps_agree (iname : String → String) (lit : Nat → String → String)
    (sufs : List String) (i : Nat) (hne : sufs ≠ [])
    (hin : ∀ s ∈ sufs, iname s ≠ "" ∧ iname s ≠ "name") :
    (∀ key, key ≠ "name" →
      fmGet (c2scanMap iname lit sufs i) key = fmGet (c2dictMap iname lit sufs i) key) ∧
    fmGet (c2scanMap iname lit sufs i) "name" = some ("Domain" ++ domIdx i) ∧
    fmGet (c2dictMap iname lit sufs i) "name" = some ("domain" ++ domIdx i) := by
  cases sufs with
  | nil => exact absurd rfl hne
  | cons s rest =>
    have hins := hin s (List.mem_cons_self s rest)
    refine ⟨?_, ?_, ?_⟩
    · intro key hkey
      show fmGet ((iname s, lit i s) :: ("name", "Domain" ++ domIdx i) ::
          rest.map (fun t => (iname t, lit i t))) key =
        fmGet (((s :: rest).map (fun t => (iname t, lit i t))) ++
          [("name", "domain" ++ domIdx i)]) key
      rw [List.map_cons, List.cons_append]
      by_cases hks : (iname s, lit i s).1 = key
      · rw [fmGet_cons_eq _ _ key hks, fmGet_cons_eq _ _ key hks]
      · rw [fmGet_cons_ne _ _ key hks, fmGet_cons_ne _ _ key hks,
          fmGet_cons_ne ("name", "Domain" ++ domIdx i) _ key (fun hc => hkey hc.symm),
          fmGet_append_single_ne _ _ _ key (fun hc => hkey hc.symm)]
    · show fmGet ((iname s, lit i s) :: ("name", "Domain" ++ domIdx i) ::
          rest.map (fun t => (iname t, lit i t))) "name" = some ("Domain" ++ domIdx i)
      rw [fmGet_cons_ne _ _ _ hins.2, fmGet_cons_eq _ _ _ rfl]
    · show fmGet (((s :: rest).map (fun t => (iname t, lit i t))) ++
          [("name", "domain" ++ domIdx i)]) "name" = some ("domain" ++ domIdx i)
      rw [fmGet_append_left _ _ _ ?_, fmGet_cons_eq _ _ _ rfl]
      intro p hp
      rcases List.mem_map.mp hp with ⟨t, ht, rfl⟩
      exact (hin t ht).2

/-- C2 (counterexample): on the single well-formed fish line
`fish set @Domain1_x= 'v'` with the shared reference entry
`"<index>_x" ↦ {internal_name: x, outputfile_name: "<index>_x"}`, the two
decoders do not return identical field maps: the scan decoder keeps the
surrounding quotes of the value and stores the identifier as `Domain1`,
while the dictionary decoder strips the quotes and lower-cases the
identifier to `domain1`. -/
theorem decoder_equivalence_counterexample :
    findMatchingObjects ["fish set @Domain1_x= 'v'"] "Domain"
        [("<index>_x", ⟨some "x", some "<index>_x"⟩)] =
      [[("x", "'v'"), ("name", "Domain1")]] ∧
    findMatchingObjectsFromDict ["fish set @Domain1_x= 'v'"] "Domain"
        [("<index>_x", ⟨some "x", some "<index>_x"⟩)] =
      [[("x", "v"), ("name", "domain1")]] ∧
    findMatchingObjects ["fish set @Domain1_x= 'v'"] "Domain"
        [("<index>_x", ⟨some "x", some "<index>_x"⟩)] ≠
      findMatchingObjectsFromDict ["fish set @Domain1_x= 'v'"] "Domain"
        [("<index>_x", ⟨some "x", some "<index>_x"⟩)] := by
  refine ⟨?_, ?_, ?_⟩ <;> decide

/-- C2 (amended): on canonical well-formed inputs — at most nine domains
with single-digit indices, canonical fish-set lines, nonempty unquoted
plain literals, distinct underscore-led field suffixes and distinct
nonempty internal names — the scan decoder `find_matching_objects` and the
dictionary decoder `find_matching_objects_from_dict` return the same
number of entities in the same order with identical values under every
internal name, but not identical field maps: the mandatory `name` entry
keeps the original identifier case (`Domain{i}`) in the scan decoder and
is lower-cased (`domain{i}`) by the dictionary decoder. -/
theorem decoder_equivalence_amended
    (N : Nat) (hN : N ≤ 9) (sufs : List String) (hne : sufs ≠ []) (hnd : sufs.Nodup)
    (iname : String → String) (lit : Nat → String → String)
    (hsOK : ∀ s ∈ sufs, sufOK s = true)
    (hlit : ∀ i ∈ List.range' 1 N, ∀ s ∈ sufs, plainOK (lit i s) = true)
    (hipair : List.Pairwise (fun a b => iname a ≠ iname b) sufs)
    (hin : ∀ s ∈ sufs, iname s ≠ "" ∧ iname s ≠ "name") :
    (findMatchingObjects (c2lines N sufs lit) "Domain" (c2ref sufs iname)).length = N ∧
    (findMatchingObjectsFromDict (c2lines N sufs lit) "Domain"
      (c2ref sufs iname)).length = N ∧
    (∀ k, ∀ key, key ≠ "name" →
      fmGet ((findMatchingObjects (c2lines N sufs lit) "Domain"
        (c2ref sufs iname)).getD k []) key =
      fmGet ((findMatchingObjectsFromDict (c2lines N sufs lit) "Domain"
        (c2ref sufs iname)).getD k []) key) ∧
    (∀ k, k < N →
      fmGet ((findMatchingObjects (c2lines N sufs lit) "Domain"
        (c2ref sufs iname)).getD k []) "name" = some ("Domain" ++ domIdx (1 + k)) ∧
      fmGet ((findMatchingObjectsFromDict (c2lines N sufs lit) "Domain"
        (c2ref sufs iname)).getD k []) "name" = some ("domain" ++ domIdx (1 + k))) := by
  rw [findMatchingObjects_c2 N hN sufs hne hnd iname lit hsOK hlit hipair hin,
    findMatchingObjectsFromDict_c2 N hN sufs hne hnd iname lit hsOK hlit hipair hin]
  have hlen1 : ((List.range' 1 N).map (fun i => c2scanMap iname lit sufs i)).length = N := by
    simp
  have hlen2 : ((List.range' 1 N).map (fun i => c2dictMap iname lit sufs i)).length = N := by
    simp
  refine ⟨hlen1, hlen2, ?_, ?_⟩
  · intro k key hkey
    by_cases hk : k < N
    · rw [List.getD_eq_getElem _ _ (by rw [hlen1]; exact hk),
        List.getD_eq_getElem _ _ (by rw [hlen2]; exact hk),
        List.getElem_map, List.getElem_map, List.getElem_range'_1]
      exact (c2maps_agree iname lit sufs (1 + k) hne hin).1 key hkey
    · rw [List.getD_eq_default _ _ (by rw [hlen1]; omega),
        List.getD_eq_default _ _ (by rw [hlen2]; omega)]
  · intro k hk
    rw [List.getD_eq_getElem _ _ (by rw [hlen1]; exact hk),
      List.getD_eq_getElem _ _ (by rw [hlen2]; exact hk),
      List.getElem_map, List.getElem_map, List.getElem_range'_1]
    exact ⟨(c2maps_agree iname lit sufs (1 + k) hne hin).2.1,
      (c2maps_agree iname lit sufs (1 + k) hne hin).2.2⟩

/-- C2 witness: the amended equivalence applied to a concrete two-domain,
two-field canonical input. -/
theorem decoder_equivalence_amended_witness :
    (findMatchingObjects (c2lines 2 ["_x", "_y"] (fun i s => "v")) "Domain"
      (c2ref ["_x", "_y"] (fun s => String.mk (s.toList.drop 1)))).length = 2 :=
  (decoder_equivalence_amended 2 (by decide) ["_x", "_y"] (by decide) (by decide)
    (fun s => String.mk (s.toList.drop 1)) (fun i s => "v")
    (by decide) (by decide) (by decide) (by decide)).1

/-- One canonical encoded data line: `set @Domain{i}{s}= '{v}'`. -/
def c1line (i : Nat) (s v : String) : String :=
  "set @Domain" ++ domIdx i ++ s ++ "= '" ++ v ++ "'"

/-- The canonical field-mapping table handed to the encoder. -/
def c1fms (sufs : List String) (fname : String → String) (dflt : String) :
    List (String × String × Value) :=
  sufs.map (fun s => ("Domain{index}" ++ s, fname s, Value.vStr dflt))

/-- The canonical entity collection: entity `i` carries one string value per
field. -/
def c1items (N : Nat) (sufs : List String) (fname : String → String)
    (vals : Nat → String → String) : List Entity :=
  (List.range' 1 N).map (fun i => sufs.map (fun s => (fname s, Value.vStr (vals i s))))

/-- The reference section used to decode the canonical document. -/
def c1ref (sufs : List String) (iname : String → String) : RefLib :=
  sufs.map (fun s => ("Domain<index>" ++ s, ⟨some (iname s), none⟩))

theorem sufChar_ne_d_raw (c : Char) (h : sufChar c = true) : c ≠ 'd' := by
  rcases sufChar_spec c h with ⟨-, -, h3⟩ | rfl
  · exact h3
  · decide

theorem inStr_false_of_pat_mem (pat s : String) (c : Char) (hc : c ∈ pat.toList)
    (hs : c ∉ s.toList) : inStr pat s = false := by
  rw [inStr]
  simp only [decide_eq_false_iff_not]
  intro h
  exact hs (h.subset hc)

theorem infix_mid_d (P1 P2 B : List Char) (h : (P1 ++ 'd' :: P2) <:+: ('d' :: B))
    (hP1 : P1 ≠ []) (hB : 'd' ∉ B) : False := by
  rcases h with ⟨A, C, heq⟩
  have heq2 : (A ++ P1) ++ 'd' :: (P2 ++ C) = 'd' :: B := by
    rw [← heq]
    simp [List.append_assoc]
  rcases hAP : A ++ P1 with _ | ⟨c, t⟩
  · rcases List.append_eq_nil.mp hAP with ⟨-, h2⟩
    exact hP1 h2
  · rw [hAP, List.cons_append] at heq2
    have hB2 : B = t ++ 'd' :: (P2 ++ C) := by
      injection heq2 with h3 h4
      exact h4.symm
    exact hB (by rw [hB2]; simp)

theorem c1key_toList (i : Nat) (hi1 : 1 ≤ i) (hi9 : i ≤ 9) (s : String) :
    ("Domain" ++ domIdx i ++ s).toList = "Domain".toList ++ digitChar10 i :: s.toList := by
  rw [toList_append, domName_toList i hi1 hi9]
  simp

theorem c1key_no_d (i : Nat) (hi1 : 1 ≤ i) (hi9 : i ≤ 9) (s : String)
    (hsOK : sufOK s = true) : 'd' ∉ ("Domain" ++ domIdx i ++ s).toList := by
  rw [c1key_toList i hi1 hi9]
  intro hmem
  rcases List.mem_append.mp hmem with h1 | h2
  · revert h1
    decide
  · rcases List.mem_cons.mp h2 with heq | h3
    · exact digit_ne_of_not _ 'd' (isDigitChar_digitChar10 i (by omega)) (by decide) heq.symm
    · exact sufChar_ne_d_raw 'd' ((sufOK_spec s hsOK).2 'd' h3) rfl

theorem configLiteral_c1 (i : Nat) (hi1 : 1 ≤ i) (hi9 : i ≤ 9) (s v : String)
    (hsOK : sufOK s = true) (hv : plainOK v = true) :
    configLiteral ("Domain" ++ domIdx i ++ s) (.vStr v) = some ("'" ++ v ++ "'") := by
  obtain ⟨hvne, hvp⟩ := plainOK_spec v hv
  have hd_not : ∀ t : String, 'd' ∈ t.toList → v ≠ t := by
    intro t hdt hc
    subst hc
    have := hvp 'd' hdt
    rw [(by decide : plainChar 'd' = false)] at this
    simp at this
  rw [configLiteral, if_neg (by
    intro hc
    have hvn : v = "notfound" := by injection hc
    exact hd_not "notfound" (by decide) hvn)]
  have hoct : octreeAdjust ("Domain" ++ domIdx i ++ s) (.vStr v) = .vStr v := by
    rw [octreeAdjust, if_neg]
    intro hc
    have h2 := congrArg String.toList hc
    rw [c1key_toList i hi1 hi9] at h2
    have h3 : 'D' :: ("omain".toList ++ digitChar10 i :: s.toList) =
        'O' :: "ctree_Mesh".toList := h2
    injection h3 with h4 h5
    exact absurd h4 (by decide)
  have haniso : anisoAdjust ("Domain" ++ domIdx i ++ s) (.vStr v) = .vStr v := by
    rw [anisoAdjust, if_neg]
    rw [inStr_false_of_pat_mem _ _ 'd' (by decide) (c1key_no_d i hi1 hi9 s hsOK)]
    simp
  have hnorm : normalDirAdjust ("Domain" ++ domIdx i ++ s) (.vStr v) = .vStr v := by
    rw [normalDirAdjust, if_neg]
    intro hc
    have hsuf := List.isSuffixOf_iff_suffix.mp hc
    have hlowk : (lowStr ("Domain" ++ domIdx i ++ s)).toList =
        'd' :: ("omain".toList ++ digitChar10 i :: s.toList) := by
      rw [lowStr, toList_mk, c1key_toList i hi1 hi9,
        lowL_domvar i (by omega) (by omega) s hsOK]
      rfl
    rw [hlowk] at hsuf
    refine infix_mid_d "normal_".toList "irection".toList
      ("omain".toList ++ digitChar10 i :: s.toList) ?_ (by decide) ?_
    · exact hsuf.isInfix
    · intro hmem
      rcases List.mem_append.mp hmem with h1 | h2
      · revert h1
        decide
      · rcases List.mem_cons.mp h2 with heq | h3
        · exact digit_ne_of_not _ 'd' (isDigitChar_digitChar10 i (by omega)) (by decide)
            heq.symm
        · exact sufChar_ne_d_raw 'd' ((sufOK_spec s hsOK).2 'd' h3) rfl
  rw [hoct, haniso, hnorm]
  show (if strSW (lowStr v) "1e-" = true then _ else
    if v = "not found" then some "''" else some ("'" ++ v ++ "'")) = some ("'" ++ v ++ "'")
  have hlsw : strSW (lowStr v) "1e-" = false := by
    rw [strSW, lowStr, toList_mk, lowL,
      map_id_of v.toList low (fun c hc => plainChar_low c (hvp c hc))]
    cases hvl : v.toList with
    | nil => exact absurd hvl hvne
    | cons c t =>
      refine isPrefixOf_head_ne '1' c _ t ?_
      intro hc
      have := hvp c (by rw [hvl]; exact List.mem_cons_self c t)
      rw [← hc, (by decide : plainChar '1' = false)] at this
      simp at this
  rw [hlsw]
  simp only [Bool.false_eq_true, if_false]
  rw [if_neg (by
    intro hc
    exact hd_not "not found" (by decide) hc)]

theorem find_fst_unique {β : Type} (m : List (String × β)) (k : String) (v : β)
    (hmem : (k, v) ∈ m) (hpw : List.Pairwise (fun p q => p.1 ≠ q.1) m) :
    m.find? (fun q => q.1 = k) = some (k, v) := by
  induction m with
  | nil => cases hmem
  | cons p rest ih =>
    rcases List.mem_cons.mp hmem with hpe | hmem2
    · rw [← hpe]
      exact List.find?_cons_of_pos _ (by simp)
    · have hpk : ¬ p.1 = k := by
        have := (List.pairwise_cons.mp hpw).1 (k, v) hmem2
        simpa using this
      rw [List.find?_cons_of_neg _ (by simpa using hpk)]
      exact ih hmem2 (List.pairwise_cons.mp hpw).2

theorem c1line_toList (i : Nat) (hi1 : 1 ≤ i) (hi9 : i ≤ 9) (s v : String) :
    (c1line i s v).toList =
      "set @Domain".toList ++
        digitChar10 i :: (s.toList ++ '=' :: ' ' :: '\'' :: (v.toList ++ ['\''])) := by
  rw [c1line, toList_append, toList_append, toList_append, toList_append, domIdx, toList_mk,
    natChars_single i hi1 hi9]
  simp [List.append_assoc]

theorem subheadingApp_append (lines : List String) (title : String) :
    subheadingApp lines title = lines ++ subheadingLines title := by
  simp [subheadingApp, addLine, subheadingLines, List.append_assoc]

theorem fieldStep_c1 (i : Nat) (hi1 : 1 ≤ i) (hi9 : i ≤ 9) (nm : String)
    (sufs : List String) (fname : String → String) (vals : Nat → String → String)
    (dflt : String) (s : String) (hs : s ∈ sufs)
    (hsOK : sufOK s = true) (hvOK : plainOK (vals i s) = true)
    (hfpair : List.Pairwise (fun a b => fname a ≠ fname b) sufs)
    (hfsp : fname s ≠ "pit_densification_intensity" ∧ fname s ≠ "pit_upload" ∧
      fname s ≠ "pit_upload_phreatic_surface")
    (st : RecState) :
    fieldStep "" none i nm (sufs.map (fun t => (fname t, Value.vStr (vals i t)))) st
      ("Domain{index}" ++ s, fname s, Value.vStr dflt) =
      some (.cont ⟨st.lines ++ [c1line i s (vals i s)],
        some ("Domain" ++ domIdx i ++ s)⟩) := by
  have hsufc := (sufOK_spec s hsOK).2
  have hfmt : pyFormat ("Domain{index}" ++ s).toList i nm.toList =
      .ok ("Domain".toList ++ (natChars i ++ s.toList)) := by
    have h1 : ("Domain{index}" ++ s).toList =
        "Domain".toList ++ ("{index}".toList ++ s.toList) := by
      rw [toList_append]
      rfl
    rw [pyFormat, h1]
    exact pyFormatAux_plain_pre "Domain".toList _ _ i nm.toList (by decide)
      (pyFormatAux_index s.toList i nm.toList
        (fun c hc => sufChar_ne_brace c (hsufc c hc)))
  have hkey : String.mk ("Domain".toList ++ (natChars i ++ s.toList)) =
      "Domain" ++ domIdx i ++ s := by
    refine toList_inj _ _ ?_
    rw [toList_mk, toList_append, domName_toList i hi1 hi9, natChars_single i hi1 hi9]
    simp [List.append_assoc]
  have hgv : getValue (sufs.map (fun t => (fname t, Value.vStr (vals i t)))) (fname s)
      Value.vNone = Value.vStr (vals i s) := by
    rw [getValue, find_fst_unique _ (fname s) (Value.vStr (vals i s))
      (List.mem_map.mpr ⟨s, hs, rfl⟩) (List.pairwise_map.mpr hfpair)]
  have hfv : fieldValue (sufs.map (fun t => (fname t, Value.vStr (vals i t)))) (fname s)
      (Value.vStr dflt) none = .ok (Value.vStr (vals i s)) := by
    rw [fieldValue, if_neg hfsp.1, if_neg (by push_neg; exact ⟨hfsp.2.1, hfsp.2.2⟩)]
    show Except.ok (boolInfer (getValue (sufs.map (fun t => (fname t, Value.vStr (vals i t))))
      (fname s) Value.vNone) (Value.vStr dflt)) = _
    rw [hgv]
    show Except.ok (if Value.vStr (vals i s) = Value.vNone then Value.vStr dflt
      else Value.vStr (vals i s)) = _
    rw [if_neg (by simp)]
  have hlit : configLineText "" ("Domain" ++ domIdx i ++ s) (.vStr (vals i s)) =
      some (c1line i s (vals i s)) := by
    rw [configLineText, configLiteral_c1 i hi1 hi9 s (vals i s) hsOK hvOK]
    show some ("" ++ "set @" ++ ("Domain" ++ domIdx i ++ s) ++ "= " ++
      ("'" ++ vals i s ++ "'")) = some (c1line i s (vals i s))
    refine congrArg some (toList_inj _ _ ?_)
    rw [c1line_toList i hi1 hi9]
    simp only [toList_append]
    rw [domIdx, toList_mk, natChars_single i hi1 hi9]
    simp [List.append_assoc]
  show (match pyFormat ("Domain{index}" ++ s).toList i nm.toList with
    | .error _ =>
      match st.keyBind with
      | none => some (StepOut.abortItem st)
      | some k => (configLineText "" k (Value.vStr dflt)).map
          (fun line => StepOut.cont ⟨st.lines ++ [line], st.keyBind⟩)
    | .ok keyL =>
      match fieldValue (sufs.map (fun t => (fname t, Value.vStr (vals i t)))) (fname s)
          (Value.vStr dflt) none with
      | .ok val => (configLineText "" (String.mk keyL) val).map
          (fun line => StepOut.cont ⟨st.lines ++ [line], some (String.mk keyL)⟩)
      | .error _ => (configLineText "" (String.mk keyL) (Value.vStr dflt)).map
          (fun line => StepOut.cont ⟨st.lines ++ [line], some (String.mk keyL)⟩)) = _
  rw [hfmt]
  show (match fieldValue (sufs.map (fun t => (fname t, Value.vStr (vals i t)))) (fname s)
      (Value.vStr dflt) none with
    | .ok val => (configLineText ""
        (String.mk ("Domain".toList ++ (natChars i ++ s.toList))) val).map
        (fun line => StepOut.cont ⟨st.lines ++ [line],
          some (String.mk ("Domain".toList ++ (natChars i ++ s.toList)))⟩)
    | .error _ => (configLineText ""
        (String.mk ("Domain".toList ++ (natChars i ++ s.toList))) (Value.vStr dflt)).map
        (fun line => StepOut.cont ⟨st.lines ++ [line],
          some (String.mk ("Domain".toList ++ (natChars i ++ s.toList)))⟩)) = _
  rw [hfv]
  show (configLineText "" (String.mk ("Domain".toList ++ (natChars i ++ s.toList)))
      (Value.vStr (vals i s))).map
      (fun line => StepOut.cont ⟨st.lines ++ [line],
        some (String.mk ("Domain".toList ++ (natChars i ++ s.toList)))⟩) = _
  rw [hkey, hlit]
  rfl

/-- One encoded block: subheading, one data line per field, blank line. -/
def c1block (title : String) (sufs : List String) (vals : Nat → String → String)
    (i : Nat) : List String :=
  subheadingLines (title ++ " #" ++ domIdx i) ++
    sufs.map (fun s => c1line i s (vals i s)) ++ [""]

/-- The full canonical document produced by the encoder. -/
def c1lines (N : Nat) (title : String) (sufs : List String)
    (vals : Nat → String → String) : List String :=
  (List.range' 1 N).flatMap (c1block title sufs vals)

theorem runFields_c1 (i : Nat) (hi1 : 1 ≤ i) (hi9 : i ≤ 9) (nm : String)
    (sufs : List String) (fname : String → String) (vals : Nat → String → String)
    (dflt : String)
    (hsOK : ∀ s ∈ sufs, sufOK s = true)
    (hvOK : ∀ s ∈ sufs, plainOK (vals i s) = true)
    (hfpair : List.Pairwise (fun a b => fname a ≠ fname b) sufs)
    (hfsp : ∀ s ∈ sufs, fname s ≠ "pit_densification_intensity" ∧ fname s ≠ "pit_upload" ∧
      fname s ≠ "pit_upload_phreatic_surface") :
    ∀ (l : List String), (∀ s ∈ l, s ∈ sufs) → ∀ (st : RecState), ∃ kb,
      runFields "" none i nm (sufs.map (fun t => (fname t, Value.vStr (vals i t)))) st
        (l.map (fun s => ("Domain{index}" ++ s, fname s, Value.vStr dflt))) =
        some (⟨st.lines ++ l.map (fun s => c1line i s (vals i s)), kb⟩, false) := by
  intro l
  induction l with
  | nil =>
    intro _ st
    refine ⟨st.keyBind, ?_⟩
    show some (st, false) = _
    simp
  | cons s l2 ih =>
    intro hsub st
    have hsmem : s ∈ sufs := hsub s (List.mem_cons_self s l2)
    obtain ⟨kb, hrec⟩ := ih (fun t ht => hsub t (List.mem_cons_of_mem s ht))
      ⟨st.lines ++ [c1line i s (vals i s)], some ("Domain" ++ domIdx i ++ s)⟩
    refine ⟨kb, ?_⟩
    rw [List.map_cons, runFields,
      fieldStep_c1 i hi1 hi9 nm sufs fname vals dflt s hsmem (hsOK s hsmem)
        (hvOK s hsmem) hfpair (hfsp s hsmem) st]
    show runFields "" none i nm (sufs.map (fun t => (fname t, Value.vStr (vals i t))))
      (⟨st.lines ++ [c1line i s (vals i s)], some ("Domain" ++ domIdx i ++ s)⟩ : RecState)
      (l2.map (fun s => ("Domain{index}" ++ s, fname s, Value.vStr dflt))) = _
    rw [hrec]
    simp [List.append_assoc]

theorem itemStep_c1 (i : Nat) (hi1 : 1 ≤ i) (hi9 : i ≤ 9) (title : String)
    (sufs : List String) (fname : String → String) (vals : Nat → String → String)
    (dflt : String)
    (hsOK : ∀ s ∈ sufs, sufOK s = true)
    (hvOK : ∀ s ∈ sufs, plainOK (vals i s) = true)
    (hfpair : List.Pairwise (fun a b => fname a ≠ fname b) sufs)
    (hfsp : ∀ s ∈ sufs, fname s ≠ "pit_densification_intensity" ∧ fname s ≠ "pit_upload" ∧
      fname s ≠ "pit_upload_phreatic_surface")
    (st : RecState) : ∃ kb,
    itemStep "" title (c1fms sufs fname dflt) none true none i
      (sufs.map (fun t => (fname t, Value.vStr (vals i t)))) st =
      some ⟨st.lines ++ c1block title sufs vals i, kb⟩ := by
  obtain ⟨kb, hrf⟩ := runFields_c1 i hi1 hi9 (String.mk (natChars i)) sufs fname vals dflt
    hsOK hvOK hfpair hfsp sufs (fun s hs => hs)
    ⟨subheadingApp st.lines (title ++ " #" ++ String.mk (natChars i)), st.keyBind⟩
  refine ⟨kb, ?_⟩
  show (runFields "" none i (String.mk (natChars i))
      (sufs.map (fun t => (fname t, Value.vStr (vals i t))))
      ⟨subheadingApp st.lines (title ++ " #" ++ String.mk (natChars i)), st.keyBind⟩
      (c1fms sufs fname dflt)).map
      (fun p => if p.2 then p.1 else ⟨p.1.lines ++ [""], p.1.keyBind⟩) =
    some ⟨st.lines ++ c1block title sufs vals i, kb⟩
  rw [c1fms, hrf]
  show some (⟨(subheadingApp st.lines (title ++ " #" ++ String.mk (natChars i)) ++
      sufs.map (fun s => c1line i s (vals i s))) ++ [""], kb⟩ : RecState) = _
  rw [subheadingApp_append]
  rw [c1block]
  show some (⟨st.lines ++ subheadingLines (title ++ " #" ++ domIdx i) ++
      sufs.map (fun s => c1line i s (vals i s)) ++ [""], kb⟩ : RecState) = _
  simp [List.append_assoc]

theorem itemsFold_c1 (N : Nat) (hN : N ≤ 9) (title : String)
    (sufs : List String) (fname : String → String) (vals : Nat → String → String)
    (dflt : String)
    (hsOK : ∀ s ∈ sufs, sufOK s = true)
    (hvOK : ∀ i ∈ List.range' 1 N, ∀ s ∈ sufs, plainOK (vals i s) = true)
    (hfpair : List.Pairwise (fun a b => fname a ≠ fname b) sufs)
    (hfsp : ∀ s ∈ sufs, fname s ≠ "pit_densification_intensity" ∧ fname s ≠ "pit_upload" ∧
      fname s ≠ "pit_upload_phreatic_surface") :
    ∀ (M k : Nat), 1 ≤ k → k + M ≤ N + 1 → ∀ (st : RecState), ∃ kb,
      itemsFold "" title (c1fms sufs fname dflt) none true none k
        ((List.range' k M).map
          (fun j => sufs.map (fun t => (fname t, Value.vStr (vals j t))))) st =
        some ⟨st.lines ++ (List.range' k M).flatMap (c1block title sufs vals), kb⟩ := by
  intro M
  induction M with
  | zero =>
    intro k _ _ st
    refine ⟨st.keyBind, ?_⟩
    show some st = _
    simp
  | succ M ih =>
    intro k hk1 hkM st
    have hkmem : k ∈ List.range' 1 N := List.mem_range'_1.mpr ⟨by omega, by omega⟩
    obtain ⟨kb1, hstep⟩ := itemStep_c1 k (by omega) (by omega) title sufs fname vals dflt
      hsOK (hvOK k hkmem) hfpair hfsp st
    obtain ⟨kb, hrec⟩ := ih (k + 1) (by omega) (by omega)
      ⟨st.lines ++ c1block title sufs vals k, kb1⟩
    refine ⟨kb, ?_⟩
    rw [List.range'_succ, List.map_cons, itemsFold, hstep]
    show itemsFold "" title (c1fms sufs fname dflt) none true none (k + 1)
      ((List.range' (k + 1) M).map
        (fun j => sufs.map (fun t => (fname t, Value.vStr (vals j t)))))
      (⟨st.lines ++ c1block title sufs vals k, kb1⟩ : RecState) = _
    rw [hrec, List.flatMap_cons]
    simp [List.append_assoc]

theorem addSectionRecursive_c1 (N : Nat) (hN : N ≤ 9) (title : String)
    (sufs : List String) (fname : String → String) (vals : Nat → String → String)
    (dflt : String)
    (hsOK : ∀ s ∈ sufs, sufOK s = true)
    (hvOK : ∀ i ∈ List.range' 1 N, ∀ s ∈ sufs, plainOK (vals i s) = true)
    (hfpair : List.Pairwise (fun a b => fname a ≠ fname b) sufs)
    (hfsp : ∀ s ∈ sufs, fname s ≠ "pit_densification_intensity" ∧ fname s ≠ "pit_upload" ∧
      fname s ≠ "pit_upload_phreatic_surface") :
    addSectionRecursive "" title (c1items N sufs fname vals) (c1fms sufs fname dflt)
      none true none = some (c1lines N title sufs vals) := by
  obtain ⟨kb, hfold⟩ := itemsFold_c1 N hN title sufs fname vals dflt hsOK hvOK hfpair hfsp
    N 1 le_rfl (by omega) ⟨[], none⟩
  rw [addSectionRecursive, c1items, hfold]
  rfl


theorem heading_no_d (title : String) (htitle : ∀ c ∈ title.toList, low c ≠ 'd')
    (i : Nat) (hi1 : 1 ≤ i) (hi9 : i ≤ 9) :
    ∀ c ∈ (";-- " ++ (title ++ " #" ++ domIdx i)).toList, low c ≠ 'd' := by
  intro c hc
  rw [toList_append, toList_append, toList_append, domIdx, toList_mk,
    natChars_single i hi1 hi9] at hc
  rcases List.mem_append.mp hc with h1 | h2
  · exact (by decide : ∀ x ∈ ";-- ".toList, low x ≠ 'd') c h1
  · rcases List.mem_append.mp h2 with h3 | h4
    · rcases List.mem_append.mp h3 with h5 | h6
      · exact htitle c h5
      · exact (by decide : ∀ x ∈ " #".toList, low x ≠ 'd') c h6
    · have hcd : c = digitChar10 i := by simpa using h4
      rw [hcd]
      exact digit_low_ne_d _ (isDigitChar_digitChar10 i (by omega))

theorem lineIdx_c1 (i : Nat) (hi1 : 1 ≤ i) (hi9 : i ≤ 9) (s v : String)
    (hsOK : sufOK s = true) :
    lineIdx "Domain" (c1line i s v) = some i := by
  obtain ⟨⟨s2, hs2⟩, -⟩ := sufOK_spec s hsOK
  rw [lineIdx, c1line_toList i hi1 hi9, hs2]
  have hL : "set @Domain".toList ++
      digitChar10 i :: (('_' :: s2) ++ '=' :: ' ' :: '\'' :: (v.toList ++ ['\''])) =
      "set @".toList ++
        ("Domain".toList ++
          digitChar10 i :: ('_' :: s2 ++ '=' :: ' ' :: '\'' :: (v.toList ++ ['\'']))) := rfl
  rw [hL]
  exact idxSearch_c1_line i hi1 hi9 s2 ('=' :: ' ' :: '\'' :: (v.toList ++ ['\'']))

theorem lineIdx_heading_none (title : String) (htitle : ∀ c ∈ title.toList, low c ≠ 'd')
    (i : Nat) (hi1 : 1 ≤ i) (hi9 : i ≤ 9) :
    lineIdx "Domain" (";-- " ++ (title ++ " #" ++ domIdx i)) = none := by
  rw [lineIdx]
  exact idxSearch_no_d _ (heading_no_d title htitle i hi1 hi9)

theorem lineIdx_block_c1 (title : String) (htitle : ∀ c ∈ title.toList, low c ≠ 'd')
    (sufs : List String) (vals : Nat → String → String)
    (hsOK : ∀ s ∈ sufs, sufOK s = true)
    (j : Nat) (hj1 : 1 ≤ j) (hj9 : j ≤ 9) :
    (c1block title sufs vals j).filterMap (lineIdx "Domain") = sufs.map (fun _ => j) := by
  rw [c1block, List.filterMap_append, List.filterMap_append]
  have hA : (subheadingLines (title ++ " #" ++ domIdx j)).filterMap (lineIdx "Domain") = [] := by
    refine filterMap_all_none _ _ ?_
    intro x hx
    rcases List.mem_cons.mp hx with rfl | hx2
    · rw [lineIdx]
      exact idxSearch_no_d _ (by decide)
    · rcases List.mem_cons.mp hx2 with rfl | hx3
      · exact lineIdx_heading_none title htitle j hj1 hj9
      · have hxe : x = ";--------------------" := by simpa using hx3
        rw [hxe, lineIdx]
        exact idxSearch_no_d _ (by decide)
  have hD : (sufs.map (fun s => c1line j s (vals j s))).filterMap (lineIdx "Domain") =
      sufs.map (fun _ => j) := by
    rw [List.filterMap_map]
    refine filterMap_congr_some _ _ _ ?_
    intro s hs
    exact lineIdx_c1 j hj1 hj9 s (vals j s) (hsOK s hs)
  have hE : List.filterMap (lineIdx "Domain") [""] = [] := rfl
  rw [hA, hD, hE]
  simp

theorem scanPairs_c1 (N : Nat) (hN : N ≤ 9) (title : String)
    (htitle : ∀ c ∈ title.toList, low c ≠ 'd')
    (sufs : List String) (hne : sufs ≠ []) (vals : Nat → String → String)
    (hsOK : ∀ s ∈ sufs, sufOK s = true) :
    scanPairs (c1lines N title sufs vals) "Domain" =
      (List.range' 1 N).map (fun i => (domIdx i, "Domain" ++ domIdx i)) := by
  rw [scanPairs]
  rw [if_neg (by decide), if_neg (by decide)]
  have hfm : (c1lines N title sufs vals).filterMap (lineIdx "Domain") =
      (List.range' 1 N).flatMap (fun i => sufs.map (fun _ => i)) := by
    rw [c1lines, filterMap_flatMap]
    refine flatMap_congr_mem _ _ _ ?_
    intro i hi
    have hib := List.mem_range'_1.mp hi
    exact lineIdx_block_c1 title htitle sufs vals hsOK i (by omega) (by omega)
  rw [hfm, sortedDedupNat_eq_range']
  · rfl
  · intro x
    constructor
    · intro hx
      rcases List.mem_flatMap.mp hx with ⟨i, hi, hxi⟩
      rcases List.mem_map.mp hxi with ⟨s, -, rfl⟩
      exact hi
    · intro hx
      rcases List.exists_mem_of_ne_nil sufs hne with ⟨s0, hs0⟩
      exact List.mem_flatMap.mpr ⟨x, hx, List.mem_map.mpr ⟨s0, hs0, rfl⟩⟩

theorem c1line_ciSub_iff (i j : Nat) (hi1 : 1 ≤ i) (hi9 : i ≤ 9) (hj1 : 1 ≤ j) (hj9 : j ≤ 9)
    (s v : String) (hsOK : sufOK s = true) (hvOK : plainOK v = true) :
    (ciSub ("Domain" ++ domIdx i).toList (c1line j s v).toList = true) ↔ i = j := by
  rw [domName_toList i hi1 hi9, c1line_toList j hj1 hj9]
  have hL : "set @Domain".toList ++
      digitChar10 j :: (s.toList ++ '=' :: ' ' :: '\'' :: (v.toList ++ ['\''])) =
      "set @".toList ++
        ("Domain".toList ++
          digitChar10 j :: (s.toList ++ '=' :: ' ' :: '\'' :: (v.toList ++ ['\'']))) := rfl
  rw [hL]
  refine ciSub_line_iff i j hi1 hi9 hj1 hj9 _ _ (by decide) ?_
  intro c hc
  rcases List.mem_append.mp hc with h1 | h2
  · exact sufChar_ne_d c ((sufOK_spec s hsOK).2 c h1)
  · rcases List.mem_cons.mp h2 with rfl | h3
    · decide
    · rcases List.mem_cons.mp h3 with rfl | h4
      · decide
      · rcases List.mem_cons.mp h4 with rfl | h5
        · decide
        · rcases List.mem_append.mp h5 with h6 | h7
          · exact plainChar_ne_d c ((plainOK_spec v hvOK).2 c h6)
          · have hce : c = '\'' := by simpa using h7
            rw [hce]
            decide

theorem pat_mem_d (i : Nat) : 'd' ∈ lowL ("Domain" ++ domIdx i).toList := by
  rw [toList_append, lowL, List.map_append]
  refine List.mem_append_left _ ?_
  exact (by decide : 'd' ∈ List.map low "Domain".toList)

theorem ciSub_heading_false (title : String) (htitle : ∀ c ∈ title.toList, low c ≠ 'd')
    (i j : Nat) (hi1 : 1 ≤ i) (hi9 : i ≤ 9) (hj1 : 1 ≤ j) (hj9 : j ≤ 9) :
    ciSub ("Domain" ++ domIdx i).toList
      (";-- " ++ (title ++ " #" ++ domIdx j)).toList = false :=
  ciSub_no_d _ _ (pat_mem_d i) (heading_no_d title htitle j hj1 hj9)

theorem ciSub_blank_false (i : Nat) :
    ciSub ("Domain" ++ domIdx i).toList ("" : String).toList = false :=
  ciSub_no_d _ _ (pat_mem_d i) (by intro c hc; cases hc)

theorem filter_block_c1 (title : String) (htitle : ∀ c ∈ title.toList, low c ≠ 'd')
    (sufs : List String) (vals : Nat → String → String)
    (i j : Nat) (hi1 : 1 ≤ i) (hi9 : i ≤ 9) (hj1 : 1 ≤ j) (hj9 : j ≤ 9)
    (hsOK : ∀ s ∈ sufs, sufOK s = true)
    (hvOK : ∀ s ∈ sufs, plainOK (vals j s) = true) :
    (c1block title sufs vals j).filter
        (fun l => ciSub ("Domain" ++ domIdx i).toList l.toList) =
      if i = j then sufs.map (fun s => c1line j s (vals j s)) else [] := by
  rw [c1block, List.filter_append, List.filter_append]
  have hsep : ciSub ("Domain" ++ domIdx i).toList
      (";--------------------" : String).toList = false :=
    ciSub_no_d _ _ (pat_mem_d i) (by decide)
  have hA : (subheadingLines (title ++ " #" ++ domIdx j)).filter
      (fun l => ciSub ("Domain" ++ domIdx i).toList l.toList) = [] := by
    refine List.filter_eq_nil_iff.mpr ?_
    intro x hx hc
    rcases List.mem_cons.mp hx with rfl | hx2
    · rw [hsep] at hc
      exact absurd hc (by decide)
    · rcases List.mem_cons.mp hx2 with rfl | hx3
      · rw [ciSub_heading_false title htitle i j hi1 hi9 hj1 hj9] at hc
        exact absurd hc (by decide)
      · have hxe : x = ";--------------------" := by simpa using hx3
        rw [hxe, hsep] at hc
        exact absurd hc (by decide)
  have hB : ([""] : List String).filter
      (fun l => ciSub ("Domain" ++ domIdx i).toList l.toList) = [] := by
    refine List.filter_eq_nil_iff.mpr ?_
    intro x hx hc
    have hxe : x = "" := by simpa using hx
    rw [hxe, ciSub_blank_false i] at hc
    exact absurd hc (by decide)
  rw [hA, hB]
  by_cases hij : i = j
  · subst hij
    rw [if_pos rfl, List.filter_eq_self.mpr ?_]
    · simp
    · intro x hx
      rcases List.mem_map.mp hx with ⟨s, hsm, rfl⟩
      exact (c1line_ciSub_iff i i hi1 hi9 hi1 hi9 s (vals i s) (hsOK s hsm)
        (hvOK s hsm)).mpr rfl
  · rw [if_neg hij, List.filter_eq_nil_iff.mpr ?_]
    · simp
    · intro x hx hc
      rcases List.mem_map.mp hx with ⟨s, hsm, rfl⟩
      exact hij ((c1line_ciSub_iff i j hi1 hi9 hj1 hj9 s (vals j s) (hsOK s hsm)
        (hvOK s hsm)).mp hc)

theorem scanRelevant_c1 (N : Nat) (hN : N ≤ 9) (title : String)
    (htitle : ∀ c ∈ title.toList, low c ≠ 'd')
    (sufs : List String) (vals : Nat → String → String)
    (hsOK : ∀ s ∈ sufs, sufOK s = true)
    (hvOK : ∀ j ∈ List.range' 1 N, ∀ s ∈ sufs, plainOK (vals j s) = true)
    (i : Nat) (hi : i ∈ List.range' 1 N) :
    scanRelevant (c1lines N title sufs vals) "Domain" (domIdx i, "Domain" ++ domIdx i) =
      sufs.map (fun s => c1line i s (vals i s)) := by
  have hib := List.mem_range'_1.mp hi
  rw [scanRelevant, if_neg (by decide), c1lines, filter_flatMap]
  rw [flatMap_single (List.range' 1 N) i _ (List.nodup_range' 1 N) hi ?_]
  · rw [filter_block_c1 title htitle sufs vals i i
      (by omega) (by omega) (by omega) (by omega) hsOK (hvOK i hi), if_pos rfl]
  · intro j hj hji
    have hjb := List.mem_range'_1.mp hj
    rw [filter_block_c1 title htitle sufs vals i j
      (by omega) (by omega) (by omega) (by omega) hsOK (hvOK j hj),
      if_neg (fun hc => hji hc.symm)]

theorem buildPatterns_c1 (sufs : List String) (iname : String → String)
    (hiname : ∀ s ∈ sufs, iname s ≠ "")
    (hsuf : ∀ s ∈ sufs, sufOK s = true) (i : Nat) :
    buildPatterns (c1ref sufs iname) (domIdx i) ("Domain" ++ domIdx i) =
      sufs.map (fun s => ("Domain" ++ domIdx i ++ s, iname s)) := by
  rw [buildPatterns, c1ref, List.filterMap_map]
  refine filterMap_congr_some _ _ _ ?_
  intro s hs
  have hA : inStr "<" ("Domain<index>" ++ s) = true := by
    rw [inStr, toList_append, decide_eq_true_iff]
    exact ⟨"Domain".toList, "index>".toList ++ s.toList, rfl⟩
  have hB : inStr ">" ("Domain<index>" ++ s) = true := by
    rw [inStr, toList_append, decide_eq_true_iff]
    exact ⟨"Domain<index".toList, s.toList, rfl⟩
  show (if ¬ (inStr "<" ("Domain<index>" ++ s) = true ∧
      inStr ">" ("Domain<index>" ++ s) = true) then none
    else if iname s = "" then none
    else some (String.mk (resolvePlaceholders ("Domain<index>" ++ s).toList
      (fun tok => some (if lowL tok = "index".toList then (domIdx i).toList
        else ("Domain" ++ domIdx i).toList))), iname s)) =
      some ("Domain" ++ domIdx i ++ s, iname s)
  rw [if_neg (by simp [hA, hB]), if_neg (hiname s hs)]
  have hsplit : ("Domain<index>" ++ s).toList =
      "Domain".toList ++ ("<index>".toList ++ s.toList) := by
    rw [toList_append]
    rfl
  have hres : resolvePlaceholders ("Domain<index>" ++ s).toList
      (fun tok => some (if lowL tok = "index".toList then (domIdx i).toList
        else ("Domain" ++ domIdx i).toList)) =
      "Domain".toList ++ ((domIdx i).toList ++ s.toList) := by
    rw [resolvePlaceholders, hsplit,
      resolvePH_pre _ "Domain".toList _ (by decide)]
    rw [resolvePH_index _ s.toList
      (fun c hc => sufChar_ne_lt c ((sufOK_spec s (hsuf s hs)).2 c hc)) _ ?_]
    show some (if lowL "index".toList = "index".toList then (domIdx i).toList
      else ("Domain" ++ domIdx i).toList) = some ((domIdx i).toList)
    rw [if_pos (by decide)]
  rw [hres]
  refine congrArg some (Prod.ext ?_ rfl)
  show String.mk ("Domain".toList ++ ((domIdx i).toList ++ s.toList)) =
    "Domain" ++ domIdx i ++ s
  refine toList_inj _ _ ?_
  rw [toList_mk, toList_append, toList_append]
  simp [List.append_assoc]

theorem keyMatch_c1_str (i j : Nat) (hi1 : 1 ≤ i) (hi9 : i ≤ 9) (hj1 : 1 ≤ j) (hj9 : j ≤ 9)
    (sp s v : String) (hsp : sufOK sp = true) (hs : sufOK s = true)
    (hv : plainOK v = true) :
    keyMatch ("Domain" ++ domIdx i ++ sp) (c1line j s v) =
      (if i = j ∧ sp = s then some ('\'' :: (v.toList ++ ['\''])) else none) := by
  rw [keyMatch, c1line_toList j hj1 hj9, c1key_toList i hi1 hi9]
  have hL : "set @Domain".toList ++
      digitChar10 j :: (s.toList ++ '=' :: ' ' :: '\'' :: (v.toList ++ ['\''])) =
      "set @".toList ++
        ("Domain".toList ++
          digitChar10 j :: (s.toList ++ '=' :: ' ' :: '\'' :: (v.toList ++ ['\'']))) := rfl
  rw [hL]
  rw [keyMatch_line_c1 i j hi1 hi9 hj1 hj9 sp.toList s.toList
    ('\'' :: (v.toList ++ ['\''])) (sufOK_spec sp hsp).2 (sufOK_spec s hs).2
    (by simp) ?_]
  · have hiff : (i = j ∧ sp.toList = s.toList) ↔ (i = j ∧ sp = s) := by
      constructor
      · rintro ⟨h1, h2⟩
        exact ⟨h1, toList_inj sp s h2⟩
      · rintro ⟨h1, rfl⟩
        exact ⟨h1, rfl⟩
    rw [if_congr hiff rfl rfl]
  · intro c hc
    rcases List.mem_cons.mp hc with rfl | h2
    · exact ⟨by decide, by decide⟩
    · rcases List.mem_append.mp h2 with h3 | h4
      · have hp := (plainOK_spec v hv).2 c h3
        refine ⟨plainChar_ws c hp, plainChar_ne_d c hp⟩
      · have hce : c = '\'' := by simpa using h4
        rw [hce]
        exact ⟨by decide, by decide⟩

theorem cleanVal_c1lit (v : String) (hv : plainOK v = true) :
    cleanVal ('\'' :: (v.toList ++ ['\''])) = '\'' :: (v.toList ++ ['\'']) := by
  have hvp := (plainOK_spec v hv).2
  rw [cleanVal, takeWhile_all_true _ _ ?_, pyStripL_id _ ?_]
  · intro c hc
    rcases List.mem_cons.mp hc with rfl | h2
    · decide
    · rcases List.mem_append.mp h2 with h3 | h4
      · exact plainChar_ws c (hvp c h3)
      · have hce : c = '\'' := by simpa using h4
        rw [hce]
        decide
  · intro c hc
    simp only [Bool.decide_and, Bool.and_eq_true, decide_eq_true_eq]
    rcases List.mem_cons.mp hc with rfl | h2
    · exact ⟨by decide, by decide⟩
    · rcases List.mem_append.mp h2 with h3 | h4
      · have h1 := plainChar_spec c (hvp c h3)
        constructor
        · rintro rfl
          exact absurd h1.1 (by decide)
        · rintro rfl
          exact absurd h1.1 (by decide)
      · have hce : c = '\'' := by simpa using h4
        rw [hce]
        exact ⟨by decide, by decide⟩

theorem mk_c1lit (v : String) :
    String.mk ('\'' :: (v.toList ++ ['\''])) = "'" ++ v ++ "'" := by
  refine toList_inj _ _ ?_
  rw [toList_mk, toList_append, toList_append]
  rfl

/-- The field map the scan decoder builds for canonical domain `i` of the
round-trip document: quoted literals, with the `name` entry after the first
decoded field. -/
def c1scanMap (iname : String → String) (vals : Nat → String → String)
    (sufs : List String) (i : Nat) : FieldMap :=
  match sufs with
  | [] => []
  | s :: rest => (iname s, "'" ++ vals i s ++ "'") :: ("name", "Domain" ++ domIdx i) ::
      rest.map (fun t => (iname t, "'" ++ vals i t ++ "'"))

theorem processIdent_c1 (N : Nat) (hN : N ≤ 9) (sufs : List String) (hne : sufs ≠ [])
    (hnd : sufs.Nodup) (iname : String → String) (vals : Nat → String → String)
    (hsOK : ∀ s ∈ sufs, sufOK s = true)
    (hvOK : ∀ i2 ∈ List.range' 1 N, ∀ s ∈ sufs, plainOK (vals i2 s) = true)
    (hipair : List.Pairwise (fun a b => iname a ≠ iname b) sufs)
    (hin : ∀ s ∈ sufs, iname s ≠ "" ∧ iname s ≠ "name")
    (i : Nat) (hi : i ∈ List.range' 1 N) (objs : ObjDict)
    (hobjs : ∀ p ∈ objs, p.1 ≠ "Domain" ++ domIdx i) :
    processIdent (c1ref sufs iname) (sufs.map (fun s => c1line i s (vals i s)))
      (domIdx i) ("Domain" ++ domIdx i) objs =
      objs ++ [("Domain" ++ domIdx i, c1scanMap iname vals sufs i)] := by
  have hib := List.mem_range'_1.mp hi
  rw [processIdent, buildPatterns_c1 sufs iname (fun s hs => (hin s hs).1) hsOK i,
    List.foldl_map]
  refine (foldl_congr_fn _ (fun a sl => upsertObj a ("Domain" ++ domIdx i)
      (fun m => upsert (upsert m (iname sl) ("'" ++ vals i sl ++ "'")) "name"
        ("Domain" ++ domIdx i)))
      sufs objs ?_).trans ?_
  · intro sl hsl a
    show _ = upsertObj a ("Domain" ++ domIdx i)
      (fun m => upsert (upsert m (iname sl) ("'" ++ vals i sl ++ "'")) "name"
        ("Domain" ++ domIdx i))
    refine foldl_single_hit _ (fun a2 => upsertObj a2 ("Domain" ++ domIdx i)
      (fun m => upsert (upsert m (iname sl) ("'" ++ vals i sl ++ "'")) "name"
        ("Domain" ++ domIdx i)))
      _ ("Domain" ++ domIdx i ++ sl, iname sl) ?_ ?_ ?_ ?_ a
    · refine List.Nodup.map_on ?_ hnd
      intro x hx y hy hxy
      have h1 : "Domain" ++ domIdx i ++ x = "Domain" ++ domIdx i ++ y :=
        congrArg Prod.fst hxy
      exact strAppend_cancel _ _ _ h1
    · exact List.mem_map.mpr ⟨sl, hsl, rfl⟩
    · intro y hy hyx a2
      rcases List.mem_map.mp hy with ⟨s2, hs2, rfl⟩
      have hs2sl : s2 ≠ sl := by
        rintro rfl
        exact hyx rfl
      have hkm := keyMatch_c1_str i i (by omega) (by omega) (by omega) (by omega)
        s2 sl (vals i sl) (hsOK s2 hs2) (hsOK sl hsl) (hvOK i hi sl hsl)
      rw [if_neg (by rintro ⟨-, rfl⟩; exact hs2sl rfl)] at hkm
      show (match keyMatch ("Domain" ++ domIdx i ++ s2) (c1line i sl (vals i sl)) with
        | none => a2
        | some raw =>
          upsertObj a2 ("Domain" ++ domIdx i)
            (fun m => upsert (upsert m
              (if iname s2 ≠ "" then iname s2 else "Domain" ++ domIdx i ++ s2)
              (String.mk (cleanVal raw))) "name" ("Domain" ++ domIdx i))) = a2
      rw [hkm]
    · intro a2
      have hkm := keyMatch_c1_str i i (by omega) (by omega) (by omega) (by omega)
        sl sl (vals i sl) (hsOK sl hsl) (hsOK sl hsl) (hvOK i hi sl hsl)
      rw [if_pos ⟨rfl, rfl⟩] at hkm
      show (match keyMatch ("Domain" ++ domIdx i ++ sl) (c1line i sl (vals i sl)) with
        | none => a2
        | some raw =>
          upsertObj a2 ("Domain" ++ domIdx i)
            (fun m => upsert (upsert m
              (if iname sl ≠ "" then iname sl else "Domain" ++ domIdx i ++ sl)
              (String.mk (cleanVal raw))) "name" ("Domain" ++ domIdx i))) =
        upsertObj a2 ("Domain" ++ domIdx i)
          (fun m => upsert (upsert m (iname sl) ("'" ++ vals i sl ++ "'")) "name"
            ("Domain" ++ domIdx i))
      rw [hkm]
      show upsertObj a2 ("Domain" ++ domIdx i)
          (fun m => upsert (upsert m
            (if iname sl ≠ "" then iname sl else "Domain" ++ domIdx i ++ sl)
            (String.mk (cleanVal ('\'' :: ((vals i sl).toList ++ ['\''])))))
            "name" ("Domain" ++ domIdx i)) =
        upsertObj a2 ("Domain" ++ domIdx i)
          (fun m => upsert (upsert m (iname sl) ("'" ++ vals i sl ++ "'")) "name"
            ("Domain" ++ domIdx i))
      rw [if_pos (hin sl hsl).1, cleanVal_c1lit _ (hvOK i hi sl hsl), mk_c1lit]
  · refine (foldl_upsertObj_entry ("Domain" ++ domIdx i)
        (fun m sl => upsert (upsert m (iname sl) ("'" ++ vals i sl ++ "'")) "name"
          ("Domain" ++ domIdx i))
        sufs hne objs hobjs).trans ?_
    have hfold : sufs.foldl (fun m sl =>
        upsert (upsert m (iname sl) ("'" ++ vals i sl ++ "'")) "name"
          ("Domain" ++ domIdx i)) [] =
        c1scanMap iname vals sufs i := by
      rw [foldl_scanMap ("Domain" ++ domIdx i) iname
        (fun sl => "'" ++ vals i sl ++ "'") sufs hipair (fun t ht => (hin t ht).2)]
      cases sufs <;> rfl
    rw [hfold]

theorem findMatchingObjects_c1 (N : Nat) (hN : N ≤ 9) (title : String)
    (htitle : ∀ c ∈ title.toList, low c ≠ 'd')
    (sufs : List String) (hne : sufs ≠ []) (hnd : sufs.Nodup)
    (iname : String → String) (vals : Nat → String → String)
    (hsOK : ∀ s ∈ sufs, sufOK s = true)
    (hvOK : ∀ i ∈ List.range' 1 N, ∀ s ∈ sufs, plainOK (vals i s) = true)
    (hipair : List.Pairwise (fun a b => iname a ≠ iname b) sufs)
    (hin : ∀ s ∈ sufs, iname s ≠ "" ∧ iname s ≠ "name") :
    findMatchingObjects (c1lines N title sufs vals) "Domain" (c1ref sufs iname) =
      (List.range' 1 N).map (fun i => c1scanMap iname vals sufs i) := by
  rw [findMatchingObjects, scanPairs_c1 N hN title htitle sufs hne vals hsOK,
    List.foldl_map]
  rw [foldl_congr_fn _ (fun objs i =>
      processIdent (c1ref sufs iname)
        (scanRelevant (c1lines N title sufs vals) "Domain" (domIdx i, "Domain" ++ domIdx i))
        (domIdx i) ("Domain" ++ domIdx i) objs) _ _ (fun x hx a => rfl)]
  suffices h : ∀ M, M ≤ N →
      (List.range' 1 M).foldl (fun objs i =>
        processIdent (c1ref sufs iname)
          (scanRelevant (c1lines N title sufs vals) "Domain"
            (domIdx i, "Domain" ++ domIdx i))
          (domIdx i) ("Domain" ++ domIdx i) objs) [] =
      (List.range' 1 M).map (fun i =>
        ("Domain" ++ domIdx i, c1scanMap iname vals sufs i)) by
    rw [h N le_rfl, List.map_map]
    rfl
  intro M
  induction M with
  | zero =>
    intro _
    rfl
  | succ M ih =>
    intro hM
    rw [List.range'_1_concat, List.foldl_append, ih (by omega), List.foldl_cons,
      List.foldl_nil]
    have hm1M : (1 + M) ∈ List.range' 1 N := List.mem_range'_1.mpr ⟨by omega, by omega⟩
    have hfresh : ∀ p ∈ (List.range' 1 M).map (fun i =>
        ("Domain" ++ domIdx i, c1scanMap iname vals sufs i)),
        p.1 ≠ "Domain" ++ domIdx (1 + M) := by
      intro p hp
      rcases List.mem_map.mp hp with ⟨j, hj, rfl⟩
      have hjb := List.mem_range'_1.mp hj
      intro hc
      have hji : j = 1 + M := by
        have h2 : domIdx j = domIdx (1 + M) := strAppend_cancel "Domain" _ _ hc
        have h3 : natChars j = natChars (1 + M) := by
          have := congrArg String.toList h2
          simpa [domIdx] using this
        exact natChars_injective h3
      omega
    rw [scanRelevant_c1 N hN title htitle sufs vals hsOK hvOK (1 + M) hm1M,
      processIdent_c1 N hN sufs hne hnd iname vals hsOK hvOK hipair hin (1 + M) hm1M
        _ hfresh,
      List.map_append]
    rfl

theorem fmGet_c1scanMap (iname : String → String) (vals : Nat → String → String)
    (sufs : List String) (i : Nat)
    (hipair : List.Pairwise (fun a b => iname a ≠ iname b) sufs)
    (hin : ∀ s ∈ sufs, iname s ≠ "name")
    (s : String) (hs : s ∈ sufs) :
    fmGet (c1scanMap iname vals sufs i) (iname s) = some ("'" ++ vals i s ++ "'") := by
  cases sufs with
  | nil => cases hs
  | cons s0 rest =>
    show fmGet ((iname s0, "'" ++ vals i s0 ++ "'") :: ("name", "Domain" ++ domIdx i) ::
      rest.map (fun t => (iname t, "'" ++ vals i t ++ "'"))) (iname s) = _
    rcases List.mem_cons.mp hs with rfl | hs2
    · exact fmGet_cons_eq _ _ _ rfl
    · have hne0 : ¬ iname s0 = iname s := (List.pairwise_cons.mp hipair).1 s hs2
      rw [fmGet_cons_ne _ _ _ hne0,
        fmGet_cons_ne _ _ _ (fun hc => (hin s (List.mem_cons_of_mem s0 hs2)) hc.symm),
        fmGet, find_fst_unique _ (iname s) ("'" ++ vals i s ++ "'")
          (List.mem_map.mpr ⟨s, hs2, rfl⟩)
          (List.pairwise_map.mpr (List.pairwise_cons.mp hipair).2)]
      rfl

/-- C1 counterexample: a field value containing a comma does not survive the
round trip.  The encoder renders the value `a,b` as the literal `'a,b'`, but
the decoder's value clean-up (`re.split(r"[;,]", raw_val, 1)[0].strip()`)
truncates the recovered string at the comma, so the parsed entity holds
`'a` instead of the encoded literal `'a,b'`. -/
theorem round_trip_counterexample :
    addSectionRecursive "" "T" [[("fx", Value.vStr "a,b")]]
      [("Domain{index}_x", "fx", Value.vStr "z")] none true none =
      some [";--------------------", ";-- T #1", ";--------------------",
        "set @Domain1_x= 'a,b'", ""] ∧
    configLiteral "Domain1_x" (Value.vStr "a,b") = some "'a,b'" ∧
    findMatchingObjects [";--------------------", ";-- T #1", ";--------------------",
        "set @Domain1_x= 'a,b'", ""] "Domain"
      [("Domain<index>_x", ⟨some "x", none⟩)] =
      [[("x", "'a"), ("name", "Domain1")]] ∧
    ("'a" : String) ≠ "'a,b'" := by
  refine ⟨?_, ?_, ?_, ?_⟩ <;> decide

/-- C1: for canonical domain collections (at most nine entities, comma-free
and semicolon-free plain string values, underscore-led field suffixes, a
`d`-free section title, distinct source and internal field names avoiding the
encoder's special cases), encoding with `add_section_recursive` and decoding
the produced lines with prefix `"Domain"` and the matching reference section
yields exactly `N` parsed field maps, and each recovered field value
string-equals the literal the encoder emitted for that field. -/
theorem round_trip_amended
    (N : Nat) (hN : N ≤ 9) (title : String)
    (htitle : ∀ c ∈ title.toList, low c ≠ 'd')
    (sufs : List String) (hne : sufs ≠ []) (hnd : sufs.Nodup)
    (fname iname : String → String) (vals : Nat → String → String) (dflt : String)
    (hsOK : ∀ s ∈ sufs, sufOK s = true)
    (hvOK : ∀ i ∈ List.range' 1 N, ∀ s ∈ sufs, plainOK (vals i s) = true)
    (hfpair : List.Pairwise (fun a b => fname a ≠ fname b) sufs)
    (hfsp : ∀ s ∈ sufs, fname s ≠ "pit_densification_intensity" ∧
      fname s ≠ "pit_upload" ∧ fname s ≠ "pit_upload_phreatic_surface")
    (hipair : List.Pairwise (fun a b => iname a ≠ iname b) sufs)
    (hin : ∀ s ∈ sufs, iname s ≠ "" ∧ iname s ≠ "name") :
    addSectionRecursive "" title (c1items N sufs fname vals) (c1fms sufs fname dflt)
      none true none = some (c1lines N title sufs vals) ∧
    (findMatchingObjects (c1lines N title sufs vals) "Domain"
      (c1ref sufs iname)).length = N ∧
    ∀ k, k < N → ∀ s ∈ sufs,
      fmGet ((findMatchingObjects (c1lines N title sufs vals) "Domain"
          (c1ref sufs iname)).getD k []) (iname s) =
        configLiteral ("Domain" ++ domIdx (1 + k) ++ s) (Value.vStr (vals (1 + k) s)) ∧
      configLiteral ("Domain" ++ domIdx (1 + k) ++ s) (Value.vStr (vals (1 + k) s)) =
        some ("'" ++ vals (1 + k) s ++ "'") := by
  have henc := addSectionRecursive_c1 N hN title sufs fname vals dflt hsOK hvOK
    hfpair hfsp
  have hdec := findMatchingObjects_c1 N hN title htitle sufs hne hnd iname vals
    hsOK hvOK hipair hin
  have hlen : ((List.range' 1 N).map (fun i => c1scanMap iname vals sufs i)).length = N := by
    simp
  refine ⟨henc, ?_, ?_⟩
  · rw [hdec, hlen]
  · intro k hk s hs
    have hmem : (1 + k) ∈ List.range' 1 N := List.mem_range'_1.mpr ⟨by omega, by omega⟩
    have hCL := configLiteral_c1 (1 + k) (by omega) (by omega) s (vals (1 + k) s)
      (hsOK s hs) (hvOK (1 + k) hmem s hs)
    refine ⟨?_, hCL⟩
    rw [hdec, List.getD_eq_getElem _ _ (by rw [hlen]; exact hk),
      List.getElem_map, List.getElem_range'_1,
      fmGet_c1scanMap iname vals sufs (1 + k) hipair (fun t ht => (hin t ht).2) s hs,
      hCL]

/-- C1 witness: the amended round trip applied to one domain with one field. -/
theorem round_trip_amended_witness :
    addSectionRecursive "" "T" (c1items 1 ["_x"] (fun s => "fx") (fun i s => "v"))
      (c1fms ["_x"] (fun s => "fx") "z") none true none =
      some (c1lines 1 "T" ["_x"] (fun i s => "v")) :=
  (round_trip_amended 1 (by decide) "T" (by decide) ["_x"] (by decide) (by decide)
    (fun s => "fx") (fun s => "x") (fun i s => "v") "z" (by decide) (by decide)
    (by decide) (by decide) (by decide) (by decide)).1
